import Mathlib

/-!
Rangers puzzle (`rangers.cc`): embedding and verification

Four rangers are stationed two north, two south.  A swap exchanges one
north ranger with one south ranger and updates the fairness counters of the
whole population.  A breadth-first search looks for swap sequences that end
in a fair state.

Modelling conventions

* `std::map<char, V>` is a list of key/value entries kept in strictly
  ascending key order (`mapInsert` keeps the order and, like
  `std::map::insert`, does not overwrite).  Iteration over the map is
  iteration over the list.
* A reference or pointer to a map element (`r1`, `norths[0]`, ...) is
  represented by the key of that element.
* `int` counters are 32-bit two's complement values held in an `Int`; the
  increment `x++` is `incr`, which wraps from `INT_MAX` to `INT_MIN` as the
  compiled program does.
* Behaviour that the C++ leaves undefined (dereferencing `end()`, writing
  past `norths[1]`, reading an unset pointer) and the failing `assert` are
  explicit `Fault` results.
* `exit(0)` inside `try_swap` is the `Stop.exit0` result carrying what has
  been printed so far.  Progress telemetry (`count`, `progress_step`) only
  prints and is left out.
-/

namespace Rangers

/-! ## `std::map<char, V>` -/

/-- Lookup, `m.find(k)`; `none` stands for `end()`. -/
def mapFind {V : Type} : List (Char × V) → Char → Option V
  | [], _ => none
  | (k, v) :: rest, n => if k = n then some v else mapFind rest n

/-- Insertion `m.insert({k, v})`: keeps key order, leaves an existing entry alone. -/
def mapInsert {V : Type} : List (Char × V) → Char → V → List (Char × V)
  | [], k, v => [(k, v)]
  | (k', v') :: rest, k, v =>
    if k < k' then (k, v) :: (k', v') :: rest
    else if k = k' then (k', v') :: rest
    else (k', v') :: mapInsert rest k v

/-- In-place update of the element stored under key `k`. -/
def mapModify {V : Type} : List (Char × V) → Char → (V → V) → List (Char × V)
  | [], _, _ => []
  | (k', v') :: rest, k, f =>
    if k' = k then (k', f v') :: rest else (k', v') :: mapModify rest k f

/-- Keys of a map in iteration order. -/
def mapKeys {V : Type} (m : List (Char × V)) : List Char := m.map Prod.fst

/-- The representation invariant of `std::map`: keys strictly ascending. -/
def mapWF {V : Type} (m : List (Char × V)) : Prop := (mapKeys m).Pairwise (· < ·)

/-! ## Faults -/

/-- Ways in which a call can fail to return. -/
inductive Fault where
  /-- `assert(p != paired_count.end())` fails: the run aborts. -/
  | assertion
  /-- An `end()` iterator is dereferenced (undefined behaviour). -/
  | derefEnd
  /-- A write to `norths[2]` or `souths[2]` (undefined behaviour). -/
  | outOfBounds
  /-- A read through an unset `norths[i]` or `souths[i]` (undefined behaviour). -/
  | unsetPointer
  /-- The call `swaps.at(i)` throws `std::out_of_range`. -/
  | outOfRange
  deriving DecidableEq, Repr

/-! ## `int` -/

/-- The largest `int`. -/
def INT_MAX : Int := 2147483647

/-- The smallest `int`. -/
def INT_MIN : Int := -2147483648

/-- The 32-bit two's complement value congruent to `x` modulo `2 ^ 32`. -/
def wrap32 (x : Int) : Int := (x + 2147483648) % 4294967296 - 2147483648

/-- The increment `x++` of an `int`: one past `INT_MAX` is `INT_MIN`. -/
def incr (x : Int) : Int := wrap32 (x + 1)

/-! ## `struct Ranger` -/

structure Ranger where
  name : Char
  is_north : Bool
  north_count : Int
  south_count : Int
  moved_count : Int
  paired_count : List (Char × Int)
  deriving DecidableEq, Repr

/-- Constructor `Ranger(char _name, bool _is_north)`. -/
def Ranger.new (name : Char) (is_north : Bool) : Ranger :=
  { name := name, is_north := is_north, north_count := 0, south_count := 0,
    moved_count := 0, paired_count := [] }

def Ranger.init_paired_count (r : Ranger) (name : Char) : Ranger :=
  { r with paired_count := mapInsert r.paired_count name 0 }

def Ranger.increment_paired_count (r : Ranger) (n : Char) : Except Fault Ranger :=
  match mapFind r.paired_count n with
  | none => .error .assertion
  | some _ => .ok { r with paired_count := mapModify r.paired_count n incr }

/-- The loop of `Ranger::is_end_state` over `paired_count`. -/
def Ranger.pairedLoop : List (Char × Int) → Bool → Int → Bool
  | [], _, _ => true
  | (_, c) :: rest, first, count =>
    if first then Ranger.pairedLoop rest false c
    else if count != c then false
    else Ranger.pairedLoop rest first count

def Ranger.is_end_state (r : Ranger) : Bool :=
  if r.north_count != r.south_count then false
  else Ranger.pairedLoop r.paired_count true (-1)

/-! ## `struct State` -/

structure State where
  rangers : List (Char × Ranger)
  swap_history : List (Char × Char)
  deriving DecidableEq, Repr

/-- A default-constructed `State`. -/
def State.empty : State := { rangers := [], swap_history := [] }

/-- The loop of `State::add_ranger`: registers the new name with every
existing ranger and every existing name with the new ranger. -/
def State.addLoop (name : Char) :
    List (Char × Ranger) → Ranger → List (Char × Ranger) × Ranger
  | [], new_r => ([], new_r)
  | (n, r) :: rest, new_r =>
    let res := State.addLoop name rest (new_r.init_paired_count n)
    ((n, r.init_paired_count name) :: res.1, res.2)

def State.add_ranger (s : State) (name : Char) (is_north : Bool) : State :=
  let res := State.addLoop name s.rangers (Ranger.new name is_north)
  { s with rangers := mapInsert res.1 name res.2 }

/-- The loop of `State::is_end_state` over all rangers. -/
def State.endLoop : List (Char × Ranger) → Bool → Int → Bool
  | [], _, _ => true
  | (_, r) :: rest, first, moved_count =>
    if !r.is_end_state then false
    else if first then State.endLoop rest false r.moved_count
    else if moved_count != r.moved_count then false
    else State.endLoop rest first moved_count

/-- The method `State::is_end_state`; `end_north` lists the elements of the
`std::set<char>` in iteration order.  The two iterators are dereferenced in
the condition `!north1_i->second.is_north || !north2_i->second.is_north`,
the second one only when the first ranger is north. -/
def State.is_end_state (s : State) (end_north : List Char) : Except Fault Bool :=
  match end_north with
  | north1_name :: north2_name :: _ =>
    match mapFind s.rangers north1_name with
    | none => .error .derefEnd
    | some north1 =>
      if !north1.is_north then .ok false
      else
        match mapFind s.rangers north2_name with
        | none => .error .derefEnd
        | some north2 =>
          if !north2.is_north then .ok false
          else .ok (State.endLoop s.rangers true (-1))
  | _ => .error .derefEnd

/-- The `for` loop of `State::swap`: every ranger notes its station and a
pointer to it is stored in the next free slot of `norths` or `souths`. -/
def State.swapLoop :
    List (Char × Ranger) → List Char → List Char →
      Except Fault (List (Char × Ranger) × List Char × List Char)
  | [], norths, souths => .ok ([], norths, souths)
  | (n, r) :: rest, norths, souths =>
    if r.is_north then
      if norths.length < 2 then
        match State.swapLoop rest (norths ++ [n]) souths with
        | .ok (rest', ns, ss) =>
          .ok ((n, { r with north_count := incr r.north_count }) :: rest', ns, ss)
        | .error e => .error e
      else .error .outOfBounds
    else
      if souths.length < 2 then
        match State.swapLoop rest norths (souths ++ [n]) with
        | .ok (rest', ns, ss) =>
          .ok ((n, { r with south_count := incr r.south_count }) :: rest', ns, ss)
        | .error e => .error e
      else .error .outOfBounds

/-- One call `p->increment_paired_count(q->name)` on map elements `p`, `q`. -/
def State.creditPair (rangers : List (Char × Ranger)) (p q : Char) :
    Except Fault (List (Char × Ranger)) :=
  match mapFind rangers p, mapFind rangers q with
  | some rp, some rq =>
    match rp.increment_paired_count rq.name with
    | .ok rp' => .ok (mapModify rangers p (fun _ => rp'))
    | .error e => .error e
  | _, _ => .error .unsetPointer

/-- The method `State::swap`: the flag returned and the state afterwards. -/
def State.swap (s : State) (n1 n2 : Char) : Except Fault (Bool × State) :=
  match mapFind s.rangers n1, mapFind s.rangers n2 with
  | some r1, some r2 =>
    if r1.is_north == r2.is_north then .ok (false, s)
    else
      match State.swapLoop s.rangers [] [] with
      | .error e => .error e
      | .ok (rs, norths, souths) =>
        match norths with
        | [na, nb] =>
          match State.creditPair rs na nb with
          | .error e => .error e
          | .ok rs1 =>
          match State.creditPair rs1 nb na with
          | .error e => .error e
          | .ok rs2 =>
          match souths with
          | [sa, sb] =>
            match State.creditPair rs2 sa sb with
            | .error e => .error e
            | .ok rs3 =>
            match State.creditPair rs3 sb sa with
            | .error e => .error e
            | .ok rs4 =>
              let rs5 := mapModify rs4 n1 (fun r => { r with is_north := !r.is_north })
              let rs6 := mapModify rs5 n2 (fun r => { r with is_north := !r.is_north })
              let rs7 := mapModify rs6 n1 (fun r => { r with moved_count := incr r.moved_count })
              let rs8 := mapModify rs7 n2 (fun r => { r with moved_count := incr r.moved_count })
              .ok (true, { rangers := rs8, swap_history := s.swap_history ++ [(n1, n2)] })
          | _ => .error .unsetPointer
        | _ => .error .unsetPointer
  | _, _ => .error .derefEnd

/-! ## `main`: seed -/

/-- The four `add_ranger` calls of `main`. -/
def initial : State :=
  (((State.empty.add_ranger 'A' true).add_ranger 'B' true).add_ranger 'C' false).add_ranger
    'D' false

/-- The set `end_north = {'A', 'B'}`. -/
def end_north : List Char := ['A', 'B']

/-- The seeded state: `initial` after the forced opening `s.swap('A', 'C')`,
whose return value `main` ignores. -/
def seed : Except Fault State :=
  match initial.swap 'A' 'C' with
  | .ok (_, s) => .ok s
  | .error e => .error e

/-! ## `main`: search -/

/-- Ways in which the search stops other than by leaving the `while` loop. -/
inductive Stop where
  /-- The run dies on a fault. -/
  | fault (f : Fault)
  /-- The call `exit(0)` in `try_swap`; `printed` is everything reported up to then. -/
  | exit0 (printed : List State)
  deriving DecidableEq, Repr

/-- The mutable data of the search: the deque `breadth_first` and the
solutions printed so far (`solution_count` is the length of `printed`). -/
structure Search where
  breadth_first : List State
  printed : List State
  deriving DecidableEq, Repr

/-- The lambda `try_swap`; `eofs` is the constant `end_on_first_solution`. -/
def try_swap (eofs : Bool) (q : Search) (s : State) (n1 n2 : Char) : Except Stop Search :=
  match s.swap n1 n2 with
  | .error f => .error (.fault f)
  | .ok (false, _) => .ok q
  | .ok (true, s_try) =>
    match s_try.is_end_state end_north with
    | .error f => .error (.fault f)
    | .ok true =>
      if eofs then .error (.exit0 (q.printed ++ [s_try]))
      else .ok { q with printed := q.printed ++ [s_try] }
    | .ok false => .ok { q with breadth_first := q.breadth_first ++ [s_try] }

/-- The list of all possible swaps. -/
def swaps : List (Char × Char) :=
  [('A', 'B'), ('B', 'C'), ('B', 'D'), ('C', 'D'), ('A', 'C'), ('A', 'D')]

/-- A `for` loop of `main` running `i` through the given indices and
calling `try_swap` on `swaps.at(i)`. -/
def tryIndices (eofs : Bool) (s : State) : List Nat → Search → Except Stop Search
  | [], q => .ok q
  | i :: rest, q =>
    match swaps.get? i with
    | none => .error (.fault .outOfRange)
    | some sw =>
      match try_swap eofs q s sw.1 sw.2 with
      | .ok q1 => tryIndices eofs s rest q1
      | .error e => .error e

/-- One pass through the body of the `while` loop; `rand` is the value
returned by `rand()`.  With an empty deque the loop is over and nothing
happens. -/
def iteration (eofs : Bool) (rand : Nat) (q : Search) : Except Stop Search :=
  match q.breadth_first with
  | [] => .ok q
  | s :: rest =>
    let start_i := rand % swaps.length
    match tryIndices eofs s (List.range' start_i (swaps.length - start_i))
        { q with breadth_first := rest } with
    | .ok q1 => tryIndices eofs s (List.range' 0 start_i) q1
    | .error e => .error e

/-- The first `n` passes of the `while` loop; `rands i` is the value of the
`i`-th call of `rand()`. -/
def run (eofs : Bool) : Nat → (Nat → Nat) → Search → Except Stop Search
  | 0, _, q => .ok q
  | n + 1, rands, q =>
    match iteration eofs (rands 0) q with
    | .ok q1 => run eofs n (fun i => rands (i + 1)) q1
    | .error e => .error e

/-- The search of `main`: seed the deque, then `n` passes of the loop. -/
def search (eofs : Bool) (n : Nat) (rands : Nat → Nat) : Except Stop Search :=
  match seed with
  | .ok s => run eofs n rands { breadth_first := [s], printed := [] }
  | .error f => .error (.fault f)

/-- The four names of the puzzle. -/
def names : List Char := ['A', 'B', 'C', 'D']

/-- The two `for` loops of one pass as one loop over the pairs tried. -/
def tryList (eofs : Bool) (s : State) : List (Char × Char) → Search → Except Stop Search
  | [], q => .ok q
  | sw :: rest, q =>
    match try_swap eofs q s sw.1 sw.2 with
    | .ok q1 => tryList eofs s rest q1
    | .error e => .error e

/-- The pairs tried in one pass, in order, for the offset `start_i`. -/
def rotated (start_i : Nat) : List (Char × Char) :=
  (List.range' start_i (swaps.length - start_i)).filterMap swaps.get? ++
    (List.range' 0 start_i).filterMap swaps.get?

/-- The states ever reported by the exhaustive search with the given
`rand()` values. -/
def reported (rands : Nat → Nat) : Set State :=
  {t | ∃ n q, search false n rands = .ok q ∧ t ∈ q.printed}

/-- The states ever held by the deque during the exhaustive search with the
given `rand()` values. -/
def enqueued (rands : Nat → Nat) : Set State :=
  {t | ∃ n q, search false n rands = .ok q ∧ t ∈ q.breadth_first}

/-! ## Sequences of calls -/

/-- A sequence of `swap` calls, each of which may succeed or be rejected. -/
def runCalls : State → List (Char × Char) → Except Fault State
  | s, [] => .ok s
  | s, (n1, n2) :: rest =>
    match s.swap n1 n2 with
    | .ok (_, s1) => runCalls s1 rest
    | .error e => .error e

/-- A sequence of `swap` calls all of which return `true`; `none` when a
call is rejected or does not return. -/
def applySwaps : State → List (Char × Char) → Option State
  | s, [] => some s
  | s, (n1, n2) :: rest =>
    match s.swap n1 n2 with
    | .ok (true, s1) => applySwaps s1 rest
    | _ => none

/-! ## Solutions and renaming -/

/-- The sequence of swaps, applied to the initial state, succeeds at every
step and ends in a state accepted by `is_end_state(end_north)`. -/
def isSolution (h : List (Char × Char)) : Bool :=
  match applySwaps initial h with
  | some s =>
    match s.is_end_state end_north with
    | .ok true => true
    | _ => false
  | none => false

/-- The transposition of two names. -/
def swapNames (x y : Char) (c : Char) : Char :=
  if c = x then y else if c = y then x else c

/-- Renaming of one swap. -/
def renamePair (p : Char → Char) (sw : Char × Char) : Char × Char := (p sw.1, p sw.2)

/-- A permutation of the four names that maps `{A, B}` to itself (and hence
`{C, D}` to itself); every other character is left alone. -/
def StationPerm (p : Char → Char) : Prop :=
  ((p 'A' = 'A' ∧ p 'B' = 'B') ∨ (p 'A' = 'B' ∧ p 'B' = 'A')) ∧
    ((p 'C' = 'C' ∧ p 'D' = 'D') ∨ (p 'C' = 'D' ∧ p 'D' = 'C')) ∧
    ∀ c, c ∉ names → p c = c

/-- The solutions whose first swap is `o`. -/
def solutionsFrom (o : Char × Char) : Set (List (Char × Char)) :=
  {h | isSolution h = true ∧ h.head? = some o}

/-- The four legal opening swaps of the catalog. -/
def openings : List (Char × Char) := [('A', 'C'), ('A', 'D'), ('B', 'C'), ('B', 'D')]

/-- A sequence of twelve swaps, beginning with the forced opening, that
solves the puzzle. -/
def twelve : List (Char × Char) :=
  [('A', 'C'), ('B', 'D'), ('A', 'D'), ('B', 'C'), ('B', 'C'), ('C', 'D'),
   ('A', 'C'), ('B', 'D'), ('C', 'D'), ('A', 'B'), ('A', 'B'), ('A', 'D')]

/-! ## The parts of a swap, ranger by ranger -/

/-- What the loop of `State::swap` does to one ranger. -/
def Ranger.noteStationed (r : Ranger) : Ranger :=
  if r.is_north then { r with north_count := incr r.north_count }
  else { r with south_count := incr r.south_count }

/-- What a successful `increment_paired_count(n)` does to one ranger. -/
def Ranger.bumpPaired (n : Char) (r : Ranger) : Ranger :=
  { r with paired_count := mapModify r.paired_count n incr }

/-- Keys of the rangers at the given station, in iteration order. -/
def stationed (rs : List (Char × Ranger)) (north : Bool) : List Char :=
  (rs.filter (fun e => e.2.is_north == north)).map Prod.fst

/-- The four `increment_paired_count` calls of a swap, all successful:
`na`, `nb` are the elements `norths[0]`, `norths[1]` point to and `qa`, `qb`
their `name` fields; likewise for the souths. -/
def crediting (rs : List (Char × Ranger)) (na nb sa sb qa qb qsa qsb : Char) :
    List (Char × Ranger) :=
  mapModify (mapModify (mapModify (mapModify rs na (Ranger.bumpPaired qb)) nb
    (Ranger.bumpPaired qa)) sa (Ranger.bumpPaired qsb)) sb (Ranger.bumpPaired qsa)

/-- The last four statements of a successful swap. -/
def moving (rs : List (Char × Ranger)) (n1 n2 : Char) : List (Char × Ranger) :=
  mapModify (mapModify (mapModify (mapModify rs n1 (fun r => { r with is_north := !r.is_north }))
    n2 (fun r => { r with is_north := !r.is_north }))
    n1 (fun r => { r with moved_count := incr r.moved_count }))
    n2 (fun r => { r with moved_count := incr r.moved_count })

/-- Number of rangers stationed north. -/
def State.northCount (s : State) : Nat := (stationed s.rangers true).length

/-- Number of rangers stationed south. -/
def State.southCount (s : State) : Nat := (stationed s.rangers false).length

/-- Representation invariant of a `State`: `rangers` is a map from each
ranger's own name to the ranger, and every `paired_count` is a map. -/
def State.WF (s : State) : Prop :=
  mapWF s.rangers ∧ ∀ e ∈ s.rangers, e.2.name = e.1 ∧ mapWF e.2.paired_count

/-! ## Normal form of the four-ranger states

Every state the program builds has the rangers `A`, `B`, `C`, `D`, each
with a counter for the three others.  `Quad` holds the numbers of such a
state and `Quad.toState` lays them out as the `State` they stand for. -/

/-- The numbers of one ranger: station, counters, and the three
`paired_count` values in key order. -/
structure Cell where
  north : Bool
  nc : Int
  sc : Int
  mc : Int
  p1 : Int
  p2 : Int
  p3 : Int
  deriving DecidableEq, Repr

/-- The numbers of a four-ranger state. -/
structure Quad where
  a : Cell
  b : Cell
  c : Cell
  d : Cell
  hist : List (Char × Char)
  deriving DecidableEq, Repr

def Cell.toRanger (x : Cell) (name k1 k2 k3 : Char) : Ranger :=
  { name := name, is_north := x.north, north_count := x.nc, south_count := x.sc,
    moved_count := x.mc, paired_count := [(k1, x.p1), (k2, x.p2), (k3, x.p3)] }

def Quad.toState (q : Quad) : State :=
  { rangers :=
      [('A', q.a.toRanger 'A' 'B' 'C' 'D'), ('B', q.b.toRanger 'B' 'A' 'C' 'D'),
       ('C', q.c.toRanger 'C' 'A' 'B' 'D'), ('D', q.d.toRanger 'D' 'A' 'B' 'C')],
    swap_history := q.hist }

/-- Exactly two of the four rangers are north. -/
def Quad.balanced (q : Quad) : Bool :=
  (q.a.north.toNat + q.b.north.toNat + q.c.north.toNat + q.d.north.toNat) == 2

/-- Station of the ranger called `n`, if there is one. -/
def Quad.station (q : Quad) (n : Char) : Option Bool :=
  if n = 'A' then some q.a.north
  else if n = 'B' then some q.b.north
  else if n = 'C' then some q.c.north
  else if n = 'D' then some q.d.north
  else none

/-- Counters of one ranger after the accounting part of a swap; `o1`, `o2`,
`o3` are the stations of the three others in key order. -/
def Cell.credit (x : Cell) (o1 o2 o3 : Bool) : Cell :=
  { x with
    nc := if x.north then incr x.nc else x.nc
    sc := if x.north then x.sc else incr x.sc
    p1 := if x.north = o1 then incr x.p1 else x.p1
    p2 := if x.north = o2 then incr x.p2 else x.p2
    p3 := if x.north = o3 then incr x.p3 else x.p3 }

/-- The move itself, for the ranger called `me`. -/
def Cell.move (x : Cell) (me n1 n2 : Char) : Cell :=
  if me = n1 ∨ me = n2 then { x with north := !x.north, mc := incr x.mc } else x

/-- What a successful swap does to the numbers. -/
def Quad.swap (q : Quad) (n1 n2 : Char) : Quad :=
  { a := (q.a.credit q.b.north q.c.north q.d.north).move 'A' n1 n2
    b := (q.b.credit q.a.north q.c.north q.d.north).move 'B' n1 n2
    c := (q.c.credit q.a.north q.b.north q.d.north).move 'C' n1 n2
    d := (q.d.credit q.a.north q.b.north q.c.north).move 'D' n1 n2
    hist := q.hist ++ [(n1, n2)] }

/-- The fairness test of one ranger on the numbers. -/
def Cell.fair (x : Cell) : Bool :=
  decide (x.nc = x.sc) && decide (x.p1 = x.p2) && decide (x.p1 = x.p3)

/-- The goal test on the numbers. -/
def Quad.isEnd (q : Quad) : Bool :=
  q.a.north && q.b.north && q.a.fair && q.b.fair && q.c.fair && q.d.fair &&
    decide (q.a.mc = q.b.mc) && decide (q.a.mc = q.c.mc) && decide (q.a.mc = q.d.mc)

/-- The numbers of `initial`. -/
def Quad.initial : Quad :=
  { a := ⟨true, 0, 0, 0, 0, 0, 0⟩, b := ⟨true, 0, 0, 0, 0, 0, 0⟩,
    c := ⟨false, 0, 0, 0, 0, 0, 0⟩, d := ⟨false, 0, 0, 0, 0, 0, 0⟩, hist := [] }

/-- The counters of each pair of rangers agree in both directions. -/
def Quad.symmetric (q : Quad) : Prop :=
  q.a.p1 = q.b.p1 ∧ q.a.p2 = q.c.p1 ∧ q.a.p3 = q.d.p1 ∧
    q.b.p2 = q.c.p2 ∧ q.b.p3 = q.d.p2 ∧ q.c.p3 = q.d.p3

/-- A sequence of successful swaps on the numbers. -/
def Quad.apply : Quad → List (Char × Char) → Option Quad
  | q, [] => some q
  | q, (n1, n2) :: rest =>
    match q.station n1, q.station n2 with
    | some b1, some b2 => if b1 = b2 then none else (q.swap n1 n2).apply rest
    | _, _ => none

/-- The numbers after exchanging the names `A` and `B`. -/
def Quad.renameAB (q : Quad) : Quad :=
  { a := q.b
    b := q.a
    c := { q.c with p1 := q.c.p2, p2 := q.c.p1 }
    d := { q.d with p1 := q.d.p2, p2 := q.d.p1 }
    hist := q.hist.map (renamePair (swapNames 'A' 'B')) }

/-- The numbers after exchanging the names `C` and `D`. -/
def Quad.renameCD (q : Quad) : Quad :=
  { a := { q.a with p2 := q.a.p3, p3 := q.a.p2 }
    b := { q.b with p2 := q.b.p3, p3 := q.b.p2 }
    c := q.d
    d := q.c
    hist := q.hist.map (renamePair (swapNames 'C' 'D')) }

/-- The pair names two rangers at different stations. -/
def Quad.legal (q : Quad) (sw : Char × Char) : Bool :=
  match q.station sw.1, q.station sw.2 with
  | some b1, some b2 => b1 != b2
  | _, _ => false

/-- The results of the legal swaps among the pairs tried, in order. -/
def Quad.kids (q : Quad) (sws : List (Char × Char)) : List Quad :=
  (sws.filter q.legal).map (fun sw => q.swap sw.1 sw.2)

/-- The numbers of the seeded state. -/
def Quad.seed : Quad := Quad.initial.swap 'A' 'C'

/-- The numbers of the states that the exhaustive search enqueues, whatever
the order of expansion: the seed, and every result of a legal catalog swap
on such a state that is not an end state. -/
inductive Quad.Enq : Quad → Prop where
  | seed : Quad.Enq Quad.seed
  | step (q : Quad) (sw : Char × Char) : Quad.Enq q → sw ∈ swaps → q.legal sw = true →
      (q.swap sw.1 sw.2).isEnd = false → Quad.Enq (q.swap sw.1 sw.2)

/-- Every swap of the path is a legal catalog swap whose result is not an
end state. -/
def Quad.quiet : Quad → List (Char × Char) → Bool
  | _, [] => true
  | q, sw :: rest =>
    decide (sw ∈ swaps) && q.legal sw && !(q.swap sw.1 sw.2).isEnd &&
      (q.swap sw.1 sw.2).quiet rest

/-- The numbers after the swaps of the path. -/
def Quad.after (q : Quad) (path : List (Char × Char)) : Quad :=
  path.foldl (fun q sw => q.swap sw.1 sw.2) q

/-- The numbers of the states that the exhaustive search reports. -/
def Quad.Rep (k : Quad) : Prop :=
  ∃ q sw, Quad.Enq q ∧ sw ∈ swaps ∧ q.legal sw = true ∧ k = q.swap sw.1 sw.2 ∧ k.isEnd = true

/-- A state in normal form with two rangers north and two south. -/
def Good (s : State) : Prop := ∃ q : Quad, q.balanced = true ∧ s = q.toState

/-- All states of the list are balanced states in normal form. -/
def AllGood (l : List State) : Prop := ∀ t ∈ l, Good t

/-- What holds of the search data during the exhaustive search, whatever the
order of expansion: the deque holds balanced states that `Quad.Enq` lists
and the printed states are those that `Quad.Rep` lists. -/
def Sound (Q : Search) : Prop :=
  (∀ t ∈ Q.breadth_first, ∃ q : Quad, q.balanced = true ∧ Quad.Enq q ∧ t = q.toState) ∧
    (∀ t ∈ Q.printed, ∃ k : Quad, Quad.Rep k ∧ t = k.toState)

/-- The search data at the start of the loop. -/
def Search.start : Search := { breadth_first := [Quad.seed.toState], printed := [] }

/-- The search with early exit, started from the given data with nothing
printed yet, exits after finitely many passes, having printed exactly one
state, which is a balanced end state in normal form. -/
def Exits (rands : Nat → Nat) (bf : List State) : Prop :=
  ∃ (n : Nat) (k : Quad), run true n rands { breadth_first := bf, printed := [] } =
      .error (.exit0 [k.toState]) ∧
    k.balanced = true ∧ k.isEnd = true

/-- The accounts of one ranger after `k` swaps: no counter is negative,
every swap was spent at one station and with one partner, the ranger has
moved at most `k` times, and it is at the station it started from
(`startNorth`) exactly when it has moved an even number of times. -/
def Cell.accounted (x : Cell) (k : Int) (startNorth : Bool) : Prop :=
  (0 ≤ x.nc ∧ 0 ≤ x.sc ∧ x.nc + x.sc = k) ∧
    (0 ≤ x.p1 ∧ 0 ≤ x.p2 ∧ 0 ≤ x.p3 ∧ x.p1 + x.p2 + x.p3 = k) ∧
    (0 ≤ x.mc ∧ x.mc ≤ k ∧ x.mc % 2 = (if x.north = startNorth then 0 else 1))

/-- The accounts of the four rangers, with `k` the length of the history:
`A` and `B` started north, `C` and `D` south, and every swap moved two
rangers. -/
def Quad.accounted (q : Quad) : Prop :=
  q.a.accounted q.hist.length true ∧ q.b.accounted q.hist.length true ∧
    q.c.accounted q.hist.length false ∧ q.d.accounted q.hist.length false ∧
    q.a.mc + q.b.mc + q.c.mc + q.d.mc = 2 * q.hist.length

/-- The accounts hold as long as the history has at most `INT_MAX` entries. -/
def Quad.accountedShort (q : Quad) : Prop :=
  (q.hist.length : Int) ≤ INT_MAX → q.accounted

/-- The call `swap(sw.first, sw.second)` is accepted: it returns `true`. -/
def State.accepts (s : State) (sw : Char × Char) : Bool :=
  match s.swap sw.1 sw.2 with
  | .ok (true, _) => true
  | _ => false

/-- The station bit of a name, given the bits of `A`, `B`, `C`, `D`. -/
def bitOf (bA bB bC bD : Bool) (n : Char) : Bool :=
  if n = 'A' then bA else if n = 'B' then bB else if n = 'C' then bC else bD

/-- The station bit of a name after the swap `sw`. -/
def bitAfter (bA bB bC bD : Bool) (sw : Char × Char) (n : Char) : Bool :=
  if n = sw.1 ∨ n = sw.2 then !bitOf bA bB bC bD n else bitOf bA bB bC bD n

/-- The swaps `A`/`C` and `A`/`C` again, `n` times over: a sequence of `2 n`
swaps, each of which is legal when started from the initial state. -/
def laps : Nat → List (Char × Char)
  | 0 => []
  | n + 1 => laps n ++ [('A', 'C'), ('A', 'C')]

/-- The numbers of the state that `laps n` leads to from the initial state:
every counter is the `int` congruent to the number of times it was
incremented. -/
def lapQuad (n : Nat) : Quad :=
  { a := ⟨true, wrap32 n, wrap32 n, wrap32 (2 * n), wrap32 n, 0, wrap32 n⟩
    b := ⟨true, wrap32 (2 * n), 0, 0, wrap32 n, wrap32 n, 0⟩
    c := ⟨false, wrap32 n, wrap32 n, wrap32 (2 * n), 0, wrap32 n, wrap32 n⟩
    d := ⟨false, 0, wrap32 (2 * n), 0, wrap32 n, 0, wrap32 n⟩
    hist := laps n }

/-- The configurations the program can build: a default-constructed `State`,
a call of `add_ranger` with a name that is not yet a ranger, and a call of
`swap` that returns. -/
inductive Built : State → Prop where
  | empty : Built State.empty
  | add (s : State) (name : Char) (is_north : Bool) :
      Built s → mapFind s.rangers name = none → Built (s.add_ranger name is_north)
  | swap (s : State) (n1 n2 : Char) (b : Bool) (s' : State) :
      Built s → s.swap n1 n2 = .ok (b, s') → Built s'

/-- What holds of every configuration: `rangers` and every `paired_count`
are maps, every ranger is stored under its name and has an entry for
exactly the other rangers, and the three counters are `int` values. -/
def State.Inv (s : State) : Prop :=
  s.WF ∧
    (∀ n r y, mapFind s.rangers n = some r →
      ((mapFind r.paired_count y).isSome = true ↔
        (y ≠ n ∧ (mapFind s.rangers y).isSome = true))) ∧
    (∀ n r, mapFind s.rangers n = some r →
      (INT_MIN ≤ r.north_count ∧ r.north_count ≤ INT_MAX) ∧
      (INT_MIN ≤ r.south_count ∧ r.south_count ≤ INT_MAX) ∧
      (INT_MIN ≤ r.moved_count ∧ r.moved_count ≤ INT_MAX))

end Rangers

namespace Rangers

/-! ## `int` arithmetic -/

/-- Below `INT_MAX` the increment of an `int` adds one. -/
theorem incr_eq (x : Int) (h0 : INT_MIN ≤ x) (h1 : x < INT_MAX) : incr x = x + 1 := by
  unfold incr wrap32
  unfold INT_MIN at h0
  unfold INT_MAX at h1
  omega

/-- The increment of an `int` is an `int`. -/
theorem incr_range (x : Int) : INT_MIN ≤ incr x ∧ incr x ≤ INT_MAX := by
  unfold incr wrap32 INT_MIN INT_MAX
  omega

theorem incr_max : incr INT_MAX = INT_MIN := by decide

theorem incr_wrap32 (x : Int) : incr (wrap32 x) = wrap32 (x + 1) := by
  unfold incr wrap32
  omega

/-! ## The normal form refines the code -/

theorem Quad.station_eq_find (q : Quad) (n : Char) :
    q.station n = (mapFind q.toState.rangers n).map (fun r => r.is_north) := by
  unfold Quad.station
  by_cases hA : n = 'A'
  · subst hA; rfl
  by_cases hB : n = 'B'
  · subst hB; rfl
  by_cases hC : n = 'C'
  · subst hC; rfl
  by_cases hD : n = 'D'
  · subst hD; rfl
  have eA : ¬ 'A' = n := fun h => hA h.symm
  have eB : ¬ 'B' = n := fun h => hB h.symm
  have eC : ¬ 'C' = n := fun h => hC h.symm
  have eD : ¬ 'D' = n := fun h => hD h.symm
  simp [hA, hB, hC, hD, eA, eB, eC, eD, Quad.toState, mapFind]

theorem Quad.station_some (q : Quad) (n : Char) (b : Bool) (h : q.station n = some b) :
    (n = 'A' ∧ b = q.a.north) ∨ (n = 'B' ∧ b = q.b.north) ∨
      (n = 'C' ∧ b = q.c.north) ∨ (n = 'D' ∧ b = q.d.north) := by
  unfold Quad.station at h
  split_ifs at h with hA hB hC hD <;> simp_all

/-- On a balanced normal form a legal swap returns `true` and acts on the
numbers as `Quad.swap`. -/
theorem Quad.swap_toState (q : Quad) (hq : q.balanced = true) (n1 n2 : Char) (s1 s2 : Bool)
    (h1 : q.station n1 = some s1) (h2 : q.station n2 = some s2) (hne : s1 ≠ s2) :
    q.toState.swap n1 n2 = .ok (true, (q.swap n1 n2).toState) := by
  obtain ⟨⟨an, a1, a2, a3, a4, a5, a6⟩, ⟨bn, b1, b2, b3, b4, b5, b6⟩,
    ⟨cn, c1, c2, c3, c4, c5, c6⟩, ⟨dn, d1, d2, d3, d4, d5, d6⟩, h⟩ := q
  cases an <;> cases bn <;> cases cn <;> cases dn <;>
  first
    | exact Bool.noConfusion hq
    | skip
  all_goals
  rcases Quad.station_some _ _ _ h1 with ⟨rfl, e1⟩ | ⟨rfl, e1⟩ | ⟨rfl, e1⟩ | ⟨rfl, e1⟩ <;>
  rcases Quad.station_some _ _ _ h2 with ⟨rfl, e2⟩ | ⟨rfl, e2⟩ | ⟨rfl, e2⟩ | ⟨rfl, e2⟩ <;>
  subst e1 <;> subst e2 <;>
  first
    | exact Bool.noConfusion hq
    | (exfalso; exact hne rfl)
    | rfl

theorem Quad.station_isSome (q : Quad) (n : Char)
    (hn : n = 'A' ∨ n = 'B' ∨ n = 'C' ∨ n = 'D') : ∃ b, q.station n = some b := by
  rcases hn with rfl | rfl | rfl | rfl
  · exact ⟨q.a.north, rfl⟩
  · exact ⟨q.b.north, rfl⟩
  · exact ⟨q.c.north, rfl⟩
  · exact ⟨q.d.north, rfl⟩

theorem Quad.swap_balanced (q : Quad) (hq : q.balanced = true) (n1 n2 : Char) (s1 s2 : Bool)
    (h1 : q.station n1 = some s1) (h2 : q.station n2 = some s2) (hne : s1 ≠ s2) :
    (q.swap n1 n2).balanced = true := by
  obtain ⟨⟨an, a1, a2, a3, a4, a5, a6⟩, ⟨bn, b1, b2, b3, b4, b5, b6⟩,
    ⟨cn, c1, c2, c3, c4, c5, c6⟩, ⟨dn, d1, d2, d3, d4, d5, d6⟩, h⟩ := q
  cases an <;> cases bn <;> cases cn <;> cases dn <;>
  first
    | exact Bool.noConfusion hq
    | skip
  all_goals
  rcases Quad.station_some _ _ _ h1 with ⟨rfl, e1⟩ | ⟨rfl, e1⟩ | ⟨rfl, e1⟩ | ⟨rfl, e1⟩ <;>
  rcases Quad.station_some _ _ _ h2 with ⟨rfl, e2⟩ | ⟨rfl, e2⟩ | ⟨rfl, e2⟩ | ⟨rfl, e2⟩ <;>
  subst e1 <;> subst e2 <;>
  first
    | (exfalso; exact hne rfl)
    | rfl

/-- The loop of `State::is_end_state` accepts exactly when every ranger is
fair and every `moved_count` agrees with the reference value (the one
carried in, or the first ranger's when `first` is set). -/
theorem State.endLoop_iff (rs : List (Char × Ranger)) (first : Bool) (mc : Int) :
    State.endLoop rs first mc = true ↔
      (∀ e ∈ rs, e.2.is_end_state = true) ∧
      (∀ e ∈ rs, ∀ e' ∈ rs, e.2.moved_count = e'.2.moved_count) ∧
      (first = false → ∀ e ∈ rs, e.2.moved_count = mc) := by
  induction rs generalizing first mc with
  | nil => simp [State.endLoop]
  | cons e rest ih =>
    obtain ⟨k, r⟩ := e
    unfold State.endLoop
    by_cases hf : r.is_end_state = true
    · cases first
      · by_cases hm : mc = r.moved_count
        · subst hm
          simp only [hf, Bool.not_true, Bool.false_eq_true, if_false, bne_self_eq_false, ih]
          constructor
          · rintro ⟨h1, h2, h3⟩
            have h3 := h3 trivial
            refine ⟨?_, ?_, ?_⟩
            · intro e he
              rcases List.mem_cons.1 he with rfl | he
              · exact hf
              · exact h1 e he
            · intro e he e' he'
              rcases List.mem_cons.1 he with rfl | he <;>
                rcases List.mem_cons.1 he' with rfl | he'
              · rfl
              · exact (h3 e' he').symm
              · exact h3 e he
              · exact h2 e he e' he'
            · intro _ e he
              rcases List.mem_cons.1 he with rfl | he
              · rfl
              · exact h3 e he
          · rintro ⟨h1, h2, h3⟩
            refine ⟨fun e he => h1 e (List.mem_cons_of_mem _ he),
              fun e he e' he' => h2 e (List.mem_cons_of_mem _ he) e' (List.mem_cons_of_mem _ he'),
              fun _ e he => h3 trivial e (List.mem_cons_of_mem _ he)⟩
        · have hm' : (mc != r.moved_count) = true := by simpa using hm
          simp only [hf, Bool.not_true, Bool.false_eq_true, if_false, hm', if_true]
          constructor
          · intro h; exact absurd h (by simp)
          · rintro ⟨_, _, h3⟩
            exact absurd (h3 trivial (k, r) (List.mem_cons_self _ _)).symm hm
      · simp only [hf, Bool.not_true, Bool.false_eq_true, if_false, if_true, ih]
        constructor
        · rintro ⟨h1, h2, h3⟩
          have h3 := h3 trivial
          refine ⟨?_, ?_, ?_⟩
          · intro e he
            rcases List.mem_cons.1 he with rfl | he
            · exact hf
            · exact h1 e he
          · intro e he e' he'
            rcases List.mem_cons.1 he with rfl | he <;>
              rcases List.mem_cons.1 he' with rfl | he'
            · rfl
            · exact (h3 e' he').symm
            · exact h3 e he
            · exact h2 e he e' he'
          · intro h; exact absurd h (by simp)
        · rintro ⟨h1, h2, _⟩
          refine ⟨fun e he => h1 e (List.mem_cons_of_mem _ he),
            fun e he e' he' => h2 e (List.mem_cons_of_mem _ he) e' (List.mem_cons_of_mem _ he'),
            fun _ e he => h2 e (List.mem_cons_of_mem _ he) (k, r) (List.mem_cons_self _ _)⟩
    · have hf' : r.is_end_state = false := by simpa using hf
      simp only [hf', Bool.not_false, if_true]
      constructor
      · intro h; exact absurd h (by simp)
      · rintro ⟨h1, _, _⟩
        exact absurd (h1 (k, r) (List.mem_cons_self _ _)) hf

/-- A call on two known names at the same station stops at the first test. -/
theorem State.swap_rejected (s : State) (n1 n2 : Char) (r1 r2 : Ranger)
    (h1 : mapFind s.rangers n1 = some r1) (h2 : mapFind s.rangers n2 = some r2)
    (hs : r1.is_north = r2.is_north) :
    s.swap n1 n2 = .ok (false, s) := by
  simp [State.swap, h1, h2, hs]

/-- Claim C2. Illegal moves are rejected without mutation: when `n1` and `n2`
name rangers of the state that are at the same station (also when
`n1 = n2`), `swap` returns `false` and the state afterwards is the state
before, so no station, counter, `paired_count` entry or history entry
changes. -/
theorem swap_same_station_rejected (s : State) (n1 n2 : Char) (r1 r2 : Ranger)
    (h1 : mapFind s.rangers n1 = some r1) (h2 : mapFind s.rangers n2 = some r2)
    (hs : r1.is_north = r2.is_north) :
    s.swap n1 n2 = .ok (false, s) :=
  State.swap_rejected s n1 n2 r1 r2 h1 h2 hs

theorem swap_same_station_rejected_witness :
    initial.swap 'A' 'B' = .ok (false, initial) ∧ initial.swap 'C' 'C' = .ok (false, initial) :=
  ⟨swap_same_station_rejected initial 'A' 'B' _ _ rfl rfl rfl,
   swap_same_station_rejected initial 'C' 'C' _ _ rfl rfl rfl⟩

/-- Claim C3. `State::is_end_state` equals its specification: for an
`end_north` set of two names that are rangers of the state, the call returns,
and it returns `true` exactly when both named rangers are north,
`Ranger::is_end_state` holds for every ranger, and all rangers have the same
`moved_count`. -/
theorem is_end_state_iff (s : State) (a b : Char) (ra rb : Ranger)
    (ha : mapFind s.rangers a = some ra) (hb : mapFind s.rangers b = some rb) :
    ∃ v : Bool, s.is_end_state [a, b] = .ok v ∧
      (v = true ↔
        (ra.is_north = true ∧ rb.is_north = true ∧
          (∀ e ∈ s.rangers, e.2.is_end_state = true) ∧
          (∀ e ∈ s.rangers, ∀ e' ∈ s.rangers, e.2.moved_count = e'.2.moved_count))) := by
  unfold State.is_end_state
  simp only [ha, hb]
  cases hna : ra.is_north with
  | false => exact ⟨false, by simp, by simp⟩
  | true =>
    cases hnb : rb.is_north with
    | false => exact ⟨false, by simp, by simp⟩
    | true =>
      refine ⟨State.endLoop s.rangers true (-1), by simp, ?_⟩
      rw [State.endLoop_iff]
      simp

/-! ## Maps -/

theorem mapFind_mapModify {V : Type} (m : List (Char × V)) (k n : Char) (f : V → V) :
    mapFind (mapModify m k f) n = if k = n then (mapFind m n).map f else mapFind m n := by
  induction m with
  | nil => simp [mapFind, mapModify]
  | cons e rest ih =>
    obtain ⟨k', v'⟩ := e
    unfold mapModify
    by_cases h1 : k' = k
    · subst h1
      by_cases h2 : k' = n <;> simp [mapFind, h2]
    · by_cases h2 : k' = n
      · subst h2
        have : ¬ k = k' := fun h => h1 h.symm
        simp [mapFind, h1, this]
      · simp [mapFind, h1, h2, ih]

theorem mapFind_map_val {V : Type} (m : List (Char × V)) (g : V → V) (n : Char) :
    mapFind (m.map (fun e => (e.1, g e.2))) n = (mapFind m n).map g := by
  induction m with
  | nil => simp [mapFind]
  | cons e rest ih =>
    obtain ⟨k', v'⟩ := e
    by_cases h2 : k' = n <;> simp [mapFind, h2, ih]

theorem mapModify_const {V : Type} (m : List (Char × V)) (k : Char) (v : V) (g : V → V)
    (h : mapFind m k = some v) : mapModify m k (fun _ => g v) = mapModify m k g := by
  induction m with
  | nil => simp [mapFind] at h
  | cons e rest ih =>
    obtain ⟨k', v'⟩ := e
    by_cases h1 : k' = k
    · simp [mapFind, h1] at h
      simp [mapModify, h1, h]
    · simp [mapFind, h1] at h
      simp [mapModify, h1, ih h]

theorem mapKeys_mapModify {V : Type} (m : List (Char × V)) (k : Char) (f : V → V) :
    mapKeys (mapModify m k f) = mapKeys m := by
  induction m with
  | nil => simp [mapModify]
  | cons e rest ih =>
    obtain ⟨k', v'⟩ := e
    unfold mapKeys at ih ⊢
    by_cases h1 : k' = k <;> simp [mapModify, h1, ih]

theorem mem_of_mapFind {V : Type} (m : List (Char × V)) (k : Char) (v : V)
    (h : mapFind m k = some v) : (k, v) ∈ m := by
  induction m with
  | nil => simp [mapFind] at h
  | cons e rest ih =>
    obtain ⟨k', v'⟩ := e
    by_cases h1 : k' = k
    · simp [mapFind, h1] at h
      simp [h1, h]
    · simp [mapFind, h1] at h
      exact List.mem_cons_of_mem _ (ih h)

theorem mapFind_of_mem {V : Type} (m : List (Char × V)) (hwf : mapWF m) (k : Char) (v : V)
    (h : (k, v) ∈ m) : mapFind m k = some v := by
  induction m with
  | nil => simp at h
  | cons e rest ih =>
    obtain ⟨k', v'⟩ := e
    unfold mapWF mapKeys at hwf ih
    simp only [List.map_cons, List.pairwise_cons] at hwf
    rcases List.mem_cons.1 h with h | h
    · cases h
      simp [mapFind]
    · have hlt : k' < k := hwf.1 k (List.mem_map.2 ⟨(k, v), h, rfl⟩)
      have hne : ¬ k' = k := fun e => by subst e; exact lt_irrefl _ hlt
      simp [mapFind, hne, ih hwf.2 h]

/-! ## The general shape of a successful swap -/

@[simp] theorem Ranger.noteStationed_name (r : Ranger) : r.noteStationed.name = r.name := by
  unfold Ranger.noteStationed; split <;> rfl

@[simp] theorem Ranger.noteStationed_is_north (r : Ranger) :
    r.noteStationed.is_north = r.is_north := by
  unfold Ranger.noteStationed; split <;> rfl

@[simp] theorem Ranger.noteStationed_moved (r : Ranger) :
    r.noteStationed.moved_count = r.moved_count := by
  unfold Ranger.noteStationed; split <;> rfl

@[simp] theorem Ranger.noteStationed_paired (r : Ranger) :
    r.noteStationed.paired_count = r.paired_count := by
  unfold Ranger.noteStationed; split <;> rfl

theorem State.swapLoop_eq (rs : List (Char × Ranger)) (ns ss : List Char)
    (hn : ns.length + (stationed rs true).length ≤ 2)
    (hs : ss.length + (stationed rs false).length ≤ 2) :
    State.swapLoop rs ns ss =
      .ok (rs.map (fun e => (e.1, e.2.noteStationed)),
        ns ++ stationed rs true, ss ++ stationed rs false) := by
  induction rs generalizing ns ss with
  | nil => simp [State.swapLoop, stationed]
  | cons e rest ih =>
    obtain ⟨k, r⟩ := e
    unfold State.swapLoop
    cases hr : r.is_north
    · have e1 : stationed ((k, r) :: rest) true = stationed rest true := by
        simp [stationed, hr]
      have e2 : stationed ((k, r) :: rest) false = k :: stationed rest false := by
        simp [stationed, hr]
      rw [e1] at hn
      rw [e2] at hs
      simp only [List.length_cons] at hs
      have hlt : ss.length < 2 := by omega
      have := ih ns (ss ++ [k]) hn (by simp; omega)
      simp [hlt, this, e1, e2, Ranger.noteStationed, hr]
    · have e1 : stationed ((k, r) :: rest) true = k :: stationed rest true := by
        simp [stationed, hr]
      have e2 : stationed ((k, r) :: rest) false = stationed rest false := by
        simp [stationed, hr]
      rw [e1] at hn
      rw [e2] at hs
      simp only [List.length_cons] at hn
      have hlt : ns.length < 2 := by omega
      have := ih (ns ++ [k]) ss (by simp; omega) hs
      simp [hlt, this, e1, e2, Ranger.noteStationed, hr]

theorem State.creditPair_eq (rs : List (Char × Ranger)) (p q : Char) (rp rq : Ranger)
    (hp : mapFind rs p = some rp) (hq : mapFind rs q = some rq)
    (he : (mapFind rp.paired_count rq.name).isSome = true) :
    State.creditPair rs p q = .ok (mapModify rs p (Ranger.bumpPaired rq.name)) := by
  unfold State.creditPair Ranger.increment_paired_count
  obtain ⟨c, hc⟩ := Option.isSome_iff_exists.1 he
  simp only [hp, hq, hc]
  rw [← mapModify_const rs p rp (Ranger.bumpPaired rq.name) hp]
  rfl

theorem State.creditPair_assert (rs : List (Char × Ranger)) (p q : Char) (rp rq : Ranger)
    (hp : mapFind rs p = some rp) (hq : mapFind rs q = some rq)
    (he : mapFind rp.paired_count rq.name = none) :
    State.creditPair rs p q = .error .assertion := by
  unfold State.creditPair Ranger.increment_paired_count
  simp only [hp, hq, he]

/-- The two rangers at a station of a well-formed map holding exactly two. -/
theorem stationed_two (rs : List (Char × Ranger)) (hwf : mapWF rs) (b : Bool)
    (h : (stationed rs b).length = 2) :
    ∃ k1 k2 r1 r2, stationed rs b = [k1, k2] ∧ k1 ≠ k2 ∧
      mapFind rs k1 = some r1 ∧ mapFind rs k2 = some r2 ∧
      r1.is_north = b ∧ r2.is_north = b := by
  unfold stationed at h ⊢
  rw [List.length_map] at h
  obtain ⟨e1, e2, hf⟩ := List.length_eq_two.1 h
  rw [hf]
  have key : e1.1 ≠ e2.1 ∧ mapFind rs e1.1 = some e1.2 ∧ mapFind rs e2.1 = some e2.2 ∧
      e1.2.is_north = b ∧ e2.2.is_north = b := by
    have hsub : List.Sublist [e1, e2] rs := hf ▸ List.filter_sublist rs
    have hm1 : e1 ∈ rs.filter (fun e => e.2.is_north == b) := by rw [hf]; simp
    have hm2 : e2 ∈ rs.filter (fun e => e.2.is_north == b) := by rw [hf]; simp
    have hp1 := List.mem_filter.1 hm1
    have hp2 := List.mem_filter.1 hm2
    have hpw : ([e1, e2].map Prod.fst).Pairwise (· < ·) :=
      List.Pairwise.sublist (List.Sublist.map Prod.fst hsub) hwf
    have hlt : e1.1 < e2.1 := by simpa using hpw
    have r1 : mapFind rs e1.1 = some e1.2 := mapFind_of_mem rs hwf _ _ hp1.1
    have r2 : mapFind rs e2.1 = some e2.2 := mapFind_of_mem rs hwf _ _ hp2.1
    have n1 : e1.2.is_north = b := by simpa using hp1.2
    have n2 : e2.2.is_north = b := by simpa using hp2.2
    have hne : e1.1 ≠ e2.1 := fun e => by rw [e] at hlt; exact lt_irrefl _ hlt
    exact ⟨hne, r1, r2, n1, n2⟩
  exact ⟨e1.1, e2.1, e1.2, e2.2, rfl, key⟩

/-- A swap between two stations of two rangers each, with the counters it
needs in place, succeeds and is the composition of noting the stations,
crediting the two pairs and moving the two rangers. -/
theorem State.swap_shape (s : State) (n1 n2 : Char) (r1 r2 : Ranger)
    (na nb sa sb : Char) (ra rb rsa rsb : Ranger)
    (h1 : mapFind s.rangers n1 = some r1) (h2 : mapFind s.rangers n2 = some r2)
    (hd : r1.is_north ≠ r2.is_north)
    (hN : stationed s.rangers true = [na, nb]) (hS : stationed s.rangers false = [sa, sb])
    (hab : na ≠ nb) (hsab : sa ≠ sb)
    (fa : mapFind s.rangers na = some ra) (fb : mapFind s.rangers nb = some rb)
    (fsa : mapFind s.rangers sa = some rsa) (fsb : mapFind s.rangers sb = some rsb)
    (ta : ra.is_north = true) (tb : rb.is_north = true)
    (tsa : rsa.is_north = false) (tsb : rsb.is_north = false)
    (ea : (mapFind ra.paired_count rb.name).isSome = true)
    (eb : (mapFind rb.paired_count ra.name).isSome = true)
    (esa : (mapFind rsa.paired_count rsb.name).isSome = true)
    (esb : (mapFind rsb.paired_count rsa.name).isSome = true) :
    s.swap n1 n2 = .ok (true,
      { rangers := moving (crediting (s.rangers.map (fun e => (e.1, e.2.noteStationed)))
          na nb sa sb ra.name rb.name rsa.name rsb.name) n1 n2,
        swap_history := s.swap_history ++ [(n1, n2)] }) := by
  have d1 : sa ≠ na := fun e => by rw [e, fa] at fsa; cases fsa; rw [ta] at tsa; cases tsa
  have d2 : sa ≠ nb := fun e => by rw [e, fb] at fsa; cases fsa; rw [tb] at tsa; cases tsa
  have d3 : sb ≠ na := fun e => by rw [e, fa] at fsb; cases fsb; rw [ta] at tsb; cases tsb
  have d4 : sb ≠ nb := fun e => by rw [e, fb] at fsb; cases fsb; rw [tb] at tsb; cases tsb
  have hd' : (r1.is_north == r2.is_north) = false := by simpa using hd
  have hloop := State.swapLoop_eq s.rangers [] [] (by simp [hN]) (by simp [hS])
  rw [hN, hS] at hloop
  simp only [List.nil_append] at hloop
  generalize hrs0 : s.rangers.map (fun e => (e.1, e.2.noteStationed)) = rs0 at hloop ⊢
  have f0 : ∀ n, mapFind rs0 n = (mapFind s.rangers n).map Ranger.noteStationed := by
    intro n; rw [← hrs0]; exact mapFind_map_val s.rangers Ranger.noteStationed n
  -- first credit
  have c1 := State.creditPair_eq rs0 na nb ra.noteStationed rb.noteStationed
    (by rw [f0, fa]; rfl) (by rw [f0, fb]; rfl) (by simpa using ea)
  simp only [Ranger.noteStationed_name] at c1
  generalize hrs1 : mapModify rs0 na (Ranger.bumpPaired rb.name) = rs1 at c1
  have f1a : mapFind rs1 na = some (Ranger.bumpPaired rb.name ra.noteStationed) := by
    rw [← hrs1, mapFind_mapModify, if_pos rfl, f0, fa]; rfl
  have f1 : ∀ n, n ≠ na → mapFind rs1 n = (mapFind s.rangers n).map Ranger.noteStationed := by
    intro n hn
    rw [← hrs1, mapFind_mapModify, if_neg (fun e => hn e.symm), f0]
  -- second credit
  have c2 := State.creditPair_eq rs1 nb na rb.noteStationed
    (Ranger.bumpPaired rb.name ra.noteStationed)
    (by rw [f1 nb (fun e => hab e.symm), fb]; rfl) f1a
    (by simpa [Ranger.bumpPaired] using eb)
  have nm2 : (Ranger.bumpPaired rb.name ra.noteStationed).name = ra.name := by
    simp [Ranger.bumpPaired]
  rw [nm2] at c2
  generalize hrs2 : mapModify rs1 nb (Ranger.bumpPaired ra.name) = rs2 at c2
  have f2 : ∀ n, n ≠ na → n ≠ nb →
      mapFind rs2 n = (mapFind s.rangers n).map Ranger.noteStationed := by
    intro n hn hn'
    rw [← hrs2, mapFind_mapModify, if_neg (fun e => hn' e.symm), f1 n hn]
  -- third credit
  have c3 := State.creditPair_eq rs2 sa sb rsa.noteStationed rsb.noteStationed
    (by rw [f2 sa d1 d2, fsa]; rfl) (by rw [f2 sb d3 d4, fsb]; rfl) (by simpa using esa)
  simp only [Ranger.noteStationed_name] at c3
  generalize hrs3 : mapModify rs2 sa (Ranger.bumpPaired rsb.name) = rs3 at c3
  have f3a : mapFind rs3 sa = some (Ranger.bumpPaired rsb.name rsa.noteStationed) := by
    rw [← hrs3, mapFind_mapModify, if_pos rfl, f2 sa d1 d2, fsa]; rfl
  have f3b : mapFind rs3 sb = some rsb.noteStationed := by
    rw [← hrs3, mapFind_mapModify, if_neg hsab, f2 sb d3 d4, fsb]; rfl
  -- fourth credit
  have c4 := State.creditPair_eq rs3 sb sa rsb.noteStationed
    (Ranger.bumpPaired rsb.name rsa.noteStationed) f3b f3a
    (by simpa [Ranger.bumpPaired] using esb)
  have nm4 : (Ranger.bumpPaired rsb.name rsa.noteStationed).name = rsa.name := by
    simp [Ranger.bumpPaired]
  rw [nm4] at c4
  unfold State.swap
  simp only [h1, h2, hd', hloop, c1, c2, c3, c4, crediting, moving, hrs1, hrs2, hrs3]
  rfl

theorem mapFind_moving (rs : List (Char × Ranger)) (n1 n2 n : Char) (hne : n1 ≠ n2) :
    mapFind (moving rs n1 n2) n =
      (mapFind rs n).map (fun r =>
        if n = n1 ∨ n = n2 then
          { r with is_north := !r.is_north, moved_count := incr r.moved_count }
        else r) := by
  unfold moving
  simp only [mapFind_mapModify]
  by_cases e1 : n1 = n
  · subst e1
    have : ¬ n2 = n1 := fun e => hne e.symm
    cases mapFind rs n1 <;> simp [this]
  · by_cases e2 : n2 = n
    · subst e2
      cases mapFind rs n2 <;> simp [e1]
    · have e1' : ¬ n = n1 := fun e => e1 e.symm
      have e2' : ¬ n = n2 := fun e => e2 e.symm
      cases mapFind rs n <;> simp [e1, e2, e1', e2']

theorem mapFind_crediting (rs : List (Char × Ranger)) (na nb sa sb qa qb qsa qsb n : Char)
    (hab : na ≠ nb) (hsab : sa ≠ sb) (d1 : sa ≠ na) (d2 : sa ≠ nb) (d3 : sb ≠ na)
    (d4 : sb ≠ nb) :
    mapFind (crediting rs na nb sa sb qa qb qsa qsb) n =
      (mapFind rs n).map (fun r =>
        if n = na then Ranger.bumpPaired qb r
        else if n = nb then Ranger.bumpPaired qa r
        else if n = sa then Ranger.bumpPaired qsb r
        else if n = sb then Ranger.bumpPaired qsa r
        else r) := by
  unfold crediting
  simp only [mapFind_mapModify]
  by_cases e1 : n = na
  · subst e1
    have x1 : ¬ nb = n := fun e => hab e.symm
    cases mapFind rs n <;> simp [x1, d1, d3]
  by_cases e2 : n = nb
  · subst e2
    cases mapFind rs n <;> simp [hab, d2, d4, e1]
  by_cases e3 : n = sa
  · subst e3
    have x1 : ¬ na = n := fun e => d1 e.symm
    have x2 : ¬ nb = n := fun e => d2 e.symm
    have x3 : ¬ sb = n := fun e => hsab e.symm
    cases mapFind rs n <;> simp [x1, x2, x3, d1, d2]
  by_cases e4 : n = sb
  · subst e4
    have x1 : ¬ na = n := fun e => d3 e.symm
    have x2 : ¬ nb = n := fun e => d4 e.symm
    cases mapFind rs n <;> simp [x1, x2, hsab, d3, d4, e1, e2, e3]
  have x1 : ¬ na = n := fun e => e1 e.symm
  have x2 : ¬ nb = n := fun e => e2 e.symm
  have x3 : ¬ sa = n := fun e => e3 e.symm
  have x4 : ¬ sb = n := fun e => e4 e.symm
  cases mapFind rs n <;> simp [e1, e2, e3, e4, x1, x2, x3, x4]

theorem mem_stationed (rs : List (Char × Ranger)) (n : Char) (r : Ranger)
    (h : mapFind rs n = some r) : n ∈ stationed rs r.is_north := by
  unfold stationed
  exact List.mem_map.2 ⟨(n, r), List.mem_filter.2 ⟨mem_of_mapFind rs n r h, by simp⟩, rfl⟩

/-- Who stands where in a well-formed map with two rangers at each station. -/
theorem stations_of (rs : List (Char × Ranger)) (hwf : mapWF rs)
    (hN : (stationed rs true).length = 2) (hS : (stationed rs false).length = 2) :
    ∃ na nb sa sb ra rb rsa rsb,
      stationed rs true = [na, nb] ∧ stationed rs false = [sa, sb] ∧
      na ≠ nb ∧ sa ≠ sb ∧ sa ≠ na ∧ sa ≠ nb ∧ sb ≠ na ∧ sb ≠ nb ∧
      mapFind rs na = some ra ∧ mapFind rs nb = some rb ∧
      mapFind rs sa = some rsa ∧ mapFind rs sb = some rsb ∧
      ra.is_north = true ∧ rb.is_north = true ∧
      rsa.is_north = false ∧ rsb.is_north = false ∧
      (∀ n r, mapFind rs n = some r →
        (r.is_north = true ∧ (n = na ∨ n = nb)) ∨ (r.is_north = false ∧ (n = sa ∨ n = sb))) := by
  obtain ⟨na, nb, ra, rb, eN, hab, fa, fb, ta, tb⟩ := stationed_two rs hwf true hN
  obtain ⟨sa, sb, rsa, rsb, eS, hsab, fsa, fsb, tsa, tsb⟩ := stationed_two rs hwf false hS
  have d1 : sa ≠ na := fun e => by rw [e, fa] at fsa; cases fsa; rw [ta] at tsa; cases tsa
  have d2 : sa ≠ nb := fun e => by rw [e, fb] at fsa; cases fsa; rw [tb] at tsa; cases tsa
  have d3 : sb ≠ na := fun e => by rw [e, fa] at fsb; cases fsb; rw [ta] at tsb; cases tsb
  have d4 : sb ≠ nb := fun e => by rw [e, fb] at fsb; cases fsb; rw [tb] at tsb; cases tsb
  refine ⟨na, nb, sa, sb, ra, rb, rsa, rsb, eN, eS, hab, hsab, d1, d2, d3, d4, fa, fb, fsa, fsb,
    ta, tb, tsa, tsb, ?_⟩
  intro n r h
  have hm := mem_stationed rs n r h
  cases hr : r.is_north
  · rw [hr, eS] at hm
    right
    exact ⟨rfl, by simpa using hm⟩
  · rw [hr, eN] at hm
    left
    exact ⟨rfl, by simpa using hm⟩

theorem mapKeys_moving_crediting (rs : List (Char × Ranger))
    (n1 n2 na nb sa sb qa qb qsa qsb : Char) :
    mapKeys (moving (crediting (rs.map (fun e => (e.1, e.2.noteStationed)))
      na nb sa sb qa qb qsa qsb) n1 n2) = mapKeys rs := by
  unfold moving crediting
  simp only [mapKeys_mapModify]
  simp [mapKeys]

@[simp] theorem Ranger.bumpPaired_is_north (n : Char) (r : Ranger) :
    (Ranger.bumpPaired n r).is_north = r.is_north := rfl

@[simp] theorem Ranger.bumpPaired_moved (n : Char) (r : Ranger) :
    (Ranger.bumpPaired n r).moved_count = r.moved_count := rfl

@[simp] theorem Ranger.bumpPaired_north_count (n : Char) (r : Ranger) :
    (Ranger.bumpPaired n r).north_count = r.north_count := rfl

@[simp] theorem Ranger.bumpPaired_south_count (n : Char) (r : Ranger) :
    (Ranger.bumpPaired n r).south_count = r.south_count := rfl

/-- The ranger found under `n` after a successful swap, field by field
except for `paired_count`. -/
theorem find_after_swap (rs : List (Char × Ranger))
    (n1 n2 na nb sa sb qa qb qsa qsb n : Char) (r : Ranger)
    (hne : n1 ≠ n2) (hab : na ≠ nb) (hsab : sa ≠ sb) (d1 : sa ≠ na) (d2 : sa ≠ nb)
    (d3 : sb ≠ na) (d4 : sb ≠ nb) (h : mapFind rs n = some r) :
    ∃ r', mapFind (moving (crediting (rs.map (fun e => (e.1, e.2.noteStationed)))
        na nb sa sb qa qb qsa qsb) n1 n2) n = some r' ∧
      r'.is_north = (if n = n1 ∨ n = n2 then !r.is_north else r.is_north) ∧
      r'.moved_count = (if n = n1 ∨ n = n2 then incr r.moved_count else r.moved_count) ∧
      r'.north_count = (if r.is_north then incr r.north_count else r.north_count) ∧
      r'.south_count = (if r.is_north then r.south_count else incr r.south_count) ∧
      r'.paired_count =
        (if n = na then mapModify r.paired_count qb incr
         else if n = nb then mapModify r.paired_count qa incr
         else if n = sa then mapModify r.paired_count qsb incr
         else if n = sb then mapModify r.paired_count qsa incr
         else r.paired_count) ∧
      r'.name = r.name := by
  rw [mapFind_moving _ _ _ _ hne, mapFind_crediting _ _ _ _ _ _ _ _ _ _ hab hsab d1 d2 d3 d4,
    mapFind_map_val rs Ranger.noteStationed n, h]
  refine ⟨_, rfl, ?_, ?_, ?_, ?_, ?_, ?_⟩
  · split_ifs <;> simp
  · split_ifs <;> simp
  · split_ifs <;> simp_all [Ranger.noteStationed]
  · split_ifs <;> simp_all [Ranger.noteStationed]
  · split_ifs <;> simp [Ranger.bumpPaired]
  · split_ifs <;> simp [Ranger.bumpPaired]

/-- A swap of two known rangers at different stations, in a state with two
rangers at each station whose partners have their entries, returns `true`;
what it does to the stations and the three counters of every ranger. -/
theorem State.swap_post (s : State) (n1 n2 : Char) (r1 r2 : Ranger)
    (hwf : mapWF s.rangers) (hN : s.northCount = 2) (hS : s.southCount = 2)
    (hpc : ∀ p q rp rq, p ≠ q → mapFind s.rangers p = some rp → mapFind s.rangers q = some rq →
      rp.is_north = rq.is_north → (mapFind rp.paired_count rq.name).isSome = true)
    (h1 : mapFind s.rangers n1 = some r1) (h2 : mapFind s.rangers n2 = some r2)
    (hd : r1.is_north ≠ r2.is_north) :
    ∃ s', s.swap n1 n2 = .ok (true, s') ∧
      s'.swap_history = s.swap_history ++ [(n1, n2)] ∧
      mapKeys s'.rangers = mapKeys s.rangers ∧
      ∀ n r, mapFind s.rangers n = some r → ∃ r', mapFind s'.rangers n = some r' ∧
        r'.is_north = (if n = n1 ∨ n = n2 then !r.is_north else r.is_north) ∧
        r'.moved_count = (if n = n1 ∨ n = n2 then incr r.moved_count else r.moved_count) ∧
        r'.north_count = (if r.is_north then incr r.north_count else r.north_count) ∧
        r'.south_count = (if r.is_north then r.south_count else incr r.south_count) ∧
        r'.name = r.name ∧
        (∀ y, (mapFind r'.paired_count y).isSome = (mapFind r.paired_count y).isSome) ∧
        mapKeys r'.paired_count = mapKeys r.paired_count ∧
        (∀ y c', mapFind r'.paired_count y = some c' →
          ∃ c, mapFind r.paired_count y = some c ∧ (c' = c ∨ c' = incr c)) := by
  obtain ⟨na, nb, sa, sb, ra, rb, rsa, rsb, eN, eS, hab, hsab, d1, d2, d3, d4, fa, fb, fsa,
    fsb, ta, tb, tsa, tsb, -⟩ := stations_of s.rangers hwf hN hS
  have hne : n1 ≠ n2 := fun e => by rw [e, h2] at h1; cases h1; exact hd rfl
  have hsw := State.swap_shape s n1 n2 r1 r2 na nb sa sb ra rb rsa rsb h1 h2 hd eN eS hab hsab
    fa fb fsa fsb ta tb tsa tsb
    (hpc na nb ra rb hab fa fb (by rw [ta, tb]))
    (hpc nb na rb ra (fun e => hab e.symm) fb fa (by rw [ta, tb]))
    (hpc sa sb rsa rsb hsab fsa fsb (by rw [tsa, tsb]))
    (hpc sb sa rsb rsa (fun e => hsab e.symm) fsb fsa (by rw [tsa, tsb]))
  refine ⟨_, hsw, rfl, mapKeys_moving_crediting _ _ _ _ _ _ _ _ _ _ _, ?_⟩
  intro n r h
  obtain ⟨r', hf, p1, p2, p3, p4, p5, p6⟩ := find_after_swap s.rangers n1 n2 na nb sa sb
    ra.name rb.name rsa.name rsb.name n r hne hab hsab d1 d2 d3 d4 h
  have key : ∀ q, (∀ y, (mapFind (mapModify r.paired_count q incr) y).isSome =
        (mapFind r.paired_count y).isSome) ∧
      mapKeys (mapModify r.paired_count q incr) = mapKeys r.paired_count ∧
      (∀ y c', mapFind (mapModify r.paired_count q incr) y = some c' →
        ∃ c, mapFind r.paired_count y = some c ∧ (c' = c ∨ c' = incr c)) := by
    intro q
    refine ⟨fun y => ?_, mapKeys_mapModify _ _ _, fun y c' hc' => ?_⟩
    · rw [mapFind_mapModify]
      split_ifs <;> cases mapFind r.paired_count y <;> rfl
    · rw [mapFind_mapModify] at hc'
      cases hc : mapFind r.paired_count y with
      | none => rw [hc] at hc'; simp at hc'
      | some c =>
        rw [hc] at hc'
        refine ⟨c, rfl, ?_⟩
        split_ifs at hc'
        · right; exact (Option.some.inj hc').symm
        · left; exact (Option.some.inj hc').symm
  have hpaired : (∀ y, (mapFind r'.paired_count y).isSome = (mapFind r.paired_count y).isSome) ∧
      mapKeys r'.paired_count = mapKeys r.paired_count ∧
      (∀ y c', mapFind r'.paired_count y = some c' →
        ∃ c, mapFind r.paired_count y = some c ∧ (c' = c ∨ c' = incr c)) := by
    rw [p5]
    split_ifs
    · exact key _
    · exact key _
    · exact key _
    · exact key _
    · exact ⟨fun _ => rfl, rfl, fun y c' hc' => ⟨c', hc', Or.inl rfl⟩⟩
  exact ⟨r', hf, p1, p2, p3, p4, p6, hpaired⟩

/-! ## Facts about states in normal form -/

theorem initial_eq : initial = Quad.initial.toState := rfl

theorem Quad.find_toState (q : Quad) (n : Char) (r : Ranger)
    (h : mapFind q.toState.rangers n = some r) :
    (n = 'A' ∧ r = q.a.toRanger 'A' 'B' 'C' 'D') ∨ (n = 'B' ∧ r = q.b.toRanger 'B' 'A' 'C' 'D') ∨
      (n = 'C' ∧ r = q.c.toRanger 'C' 'A' 'B' 'D') ∨
      (n = 'D' ∧ r = q.d.toRanger 'D' 'A' 'B' 'C') := by
  by_cases hA : n = 'A'
  · subst hA; left; exact ⟨rfl, (Option.some.inj h).symm⟩
  by_cases hB : n = 'B'
  · subst hB; right; left; exact ⟨rfl, (Option.some.inj h).symm⟩
  by_cases hC : n = 'C'
  · subst hC; right; right; left; exact ⟨rfl, (Option.some.inj h).symm⟩
  by_cases hD : n = 'D'
  · subst hD; right; right; right; exact ⟨rfl, (Option.some.inj h).symm⟩
  have eA : ¬ 'A' = n := fun h => hA h.symm
  have eB : ¬ 'B' = n := fun h => hB h.symm
  have eC : ¬ 'C' = n := fun h => hC h.symm
  have eD : ¬ 'D' = n := fun h => hD h.symm
  simp [eA, eB, eC, eD, Quad.toState, mapFind] at h

theorem Quad.toState_WF (q : Quad) : q.toState.WF := by
  refine ⟨by simp [mapWF, mapKeys, Quad.toState], ?_⟩
  intro e he
  simp only [Quad.toState, List.mem_cons, List.mem_singleton, List.not_mem_nil, or_false] at he
  rcases he with rfl | rfl | rfl | rfl <;>
    exact ⟨rfl, by simp [mapWF, mapKeys, Cell.toRanger]⟩

/-- In a state in normal form every ranger has an entry for each other ranger. -/
theorem Quad.toState_entries (q : Quad) (p p' : Char) (rp : Ranger) (hne : p ≠ p')
    (hp : mapFind q.toState.rangers p = some rp)
    (hp' : (mapFind q.toState.rangers p').isSome = true) :
    (mapFind rp.paired_count p').isSome = true := by
  obtain ⟨rp', hp'⟩ := Option.isSome_iff_exists.1 hp'
  rcases Quad.find_toState q p rp hp with ⟨rfl, rfl⟩ | ⟨rfl, rfl⟩ | ⟨rfl, rfl⟩ | ⟨rfl, rfl⟩ <;>
  rcases Quad.find_toState q p' rp' hp' with ⟨rfl, -⟩ | ⟨rfl, -⟩ | ⟨rfl, -⟩ | ⟨rfl, -⟩ <;>
  first
    | exact absurd rfl hne
    | rfl

theorem Quad.toState_entries_name (q : Quad) (p p' : Char) (rp rp' : Ranger) (hne : p ≠ p')
    (hp : mapFind q.toState.rangers p = some rp)
    (hp' : mapFind q.toState.rangers p' = some rp') :
    (mapFind rp.paired_count rp'.name).isSome = true := by
  have hn : rp'.name = p' :=
    (q.toState_WF.2 (p', rp') (mem_of_mapFind _ _ _ hp')).1
  rw [hn]
  exact Quad.toState_entries q p p' rp hne hp (by rw [hp']; rfl)

theorem Quad.toState_counts (q : Quad) (hq : q.balanced = true) :
    q.toState.northCount = 2 ∧ q.toState.southCount = 2 := by
  obtain ⟨⟨an, a1, a2, a3, a4, a5, a6⟩, ⟨bn, b1, b2, b3, b4, b5, b6⟩,
    ⟨cn, c1, c2, c3, c4, c5, c6⟩, ⟨dn, d1, d2, d3, d4, d5, d6⟩, h⟩ := q
  cases an <;> cases bn <;> cases cn <;> cases dn <;>
  first
    | exact Bool.noConfusion hq
    | exact ⟨rfl, rfl⟩

/-! ## Co-location crediting -/

/-- The effect on the lookups of incrementing the entry of the one partner. -/
theorem credit_partner (rs : List (Char × Ranger)) (x p : Char) (rx rp : Ranger)
    (pc' : List (Char × Int)) (hxp : x ≠ p)
    (fp : mapFind rs p = some rp) (same : rp.is_north = rx.is_north)
    (only : ∀ y ry, mapFind rs y = some ry → ry.is_north = rx.is_north → y = x ∨ y = p)
    (he : (mapFind rx.paired_count p).isSome = true)
    (hpc' : pc' = mapModify rx.paired_count p incr) :
    (∀ y ry, y ≠ x → mapFind rs y = some ry → ry.is_north = rx.is_north →
        ∃ c, mapFind rx.paired_count y = some c ∧ mapFind pc' y = some (incr c)) ∧
      (∀ y, (y = x ∨ ∀ ry, mapFind rs y = some ry → ry.is_north ≠ rx.is_north) →
        mapFind pc' y = mapFind rx.paired_count y) := by
  subst hpc'
  obtain ⟨c, hc⟩ := Option.isSome_iff_exists.1 he
  constructor
  · intro y ry hy fy sy
    rcases only y ry fy sy with e | e
    · exact absurd e hy
    · subst e
      exact ⟨c, hc, by rw [mapFind_mapModify, if_pos rfl, hc]; rfl⟩
  · intro y hy
    have hne : ¬ p = y := by
      rintro rfl
      rcases hy with e | e
      · exact hxp e.symm
      · exact e rp fp same
    rw [mapFind_mapModify, if_neg hne]

theorem paired_after_moving (rs : List (Char × Ranger)) (n1 n2 x : Char) (hne : n1 ≠ n2) :
    (mapFind (moving rs n1 n2) x).map (fun r => r.paired_count) =
      (mapFind rs x).map (fun r => r.paired_count) := by
  rw [mapFind_moving _ _ _ _ hne]
  cases mapFind rs x with
  | none => rfl
  | some r => simp only [Option.map_some']; split_ifs <;> rfl

/-- Claim C6, amended. Co-location crediting by `State::swap`: in a
well-formed state with exactly two rangers north and two south in which
every ranger has a `paired_count` entry for each other ranger and every
`paired_count` value is an `int` below `INT_MAX`, a swap of known names at
different stations returns `true`; for every ranger `x` the entry for the
other ranger `y` that was at the same station is one higher than before,
and the lookup of every other `y` (`x` itself, a ranger at the other
station, an unknown name) is as before; and any other legal pair
`(m1, m2)` leaves every ranger with the same `paired_count`. -/
theorem swap_credits (s : State) (n1 n2 : Char) (r1 r2 : Ranger)
    (hwf : s.WF) (hN : s.northCount = 2) (hS : s.southCount = 2)
    (hall : ∀ p q rp, p ≠ q → mapFind s.rangers p = some rp →
      (mapFind s.rangers q).isSome = true → (mapFind rp.paired_count q).isSome = true)
    (hlim : ∀ x rx y c, mapFind s.rangers x = some rx → mapFind rx.paired_count y = some c →
      INT_MIN ≤ c ∧ c < INT_MAX)
    (h1 : mapFind s.rangers n1 = some r1) (h2 : mapFind s.rangers n2 = some r2)
    (hd : r1.is_north ≠ r2.is_north) :
    ∃ s', s.swap n1 n2 = .ok (true, s') ∧
      (∀ x rx, mapFind s.rangers x = some rx → ∃ rx', mapFind s'.rangers x = some rx' ∧
        (∀ y ry, y ≠ x → mapFind s.rangers y = some ry → ry.is_north = rx.is_north →
          ∃ c, mapFind rx.paired_count y = some c ∧
            mapFind rx'.paired_count y = some (c + 1)) ∧
        (∀ y, (y = x ∨ ∀ ry, mapFind s.rangers y = some ry → ry.is_north ≠ rx.is_north) →
          mapFind rx'.paired_count y = mapFind rx.paired_count y)) ∧
      (∀ m1 m2 rm1 rm2, mapFind s.rangers m1 = some rm1 → mapFind s.rangers m2 = some rm2 →
        rm1.is_north ≠ rm2.is_north →
        ∃ s'', s.swap m1 m2 = .ok (true, s'') ∧
          ∀ x, (mapFind s''.rangers x).map (fun r => r.paired_count) =
            (mapFind s'.rangers x).map (fun r => r.paired_count)) := by
  obtain ⟨na, nb, sa, sb, ra, rb, rsa, rsb, eN, eS, hab, hsab, d1, d2, d3, d4, fa, fb, fsa,
    fsb, ta, tb, tsa, tsb, hcov⟩ := stations_of s.rangers hwf.1 hN hS
  have qa : ra.name = na := (hwf.2 (na, ra) (mem_of_mapFind _ _ _ fa)).1
  have qb : rb.name = nb := (hwf.2 (nb, rb) (mem_of_mapFind _ _ _ fb)).1
  have qsa : rsa.name = sa := (hwf.2 (sa, rsa) (mem_of_mapFind _ _ _ fsa)).1
  have qsb : rsb.name = sb := (hwf.2 (sb, rsb) (mem_of_mapFind _ _ _ fsb)).1
  have ea : (mapFind ra.paired_count nb).isSome = true := hall na nb ra hab fa (by rw [fb]; rfl)
  have eb : (mapFind rb.paired_count na).isSome = true :=
    hall nb na rb (fun e => hab e.symm) fb (by rw [fa]; rfl)
  have esa : (mapFind rsa.paired_count sb).isSome = true :=
    hall sa sb rsa hsab fsa (by rw [fsb]; rfl)
  have esb : (mapFind rsb.paired_count sa).isSome = true :=
    hall sb sa rsb (fun e => hsab e.symm) fsb (by rw [fsa]; rfl)
  have shape : ∀ m1 m2 rm1 rm2, mapFind s.rangers m1 = some rm1 →
      mapFind s.rangers m2 = some rm2 → rm1.is_north ≠ rm2.is_north →
      m1 ≠ m2 ∧ s.swap m1 m2 = .ok (true,
        { rangers := moving (crediting (s.rangers.map (fun e => (e.1, e.2.noteStationed)))
            na nb sa sb na nb sa sb) m1 m2,
          swap_history := s.swap_history ++ [(m1, m2)] }) := by
    intro m1 m2 rm1 rm2 g1 g2 gd
    refine ⟨fun e => by rw [e, g2] at g1; cases g1; exact gd rfl, ?_⟩
    have := State.swap_shape s m1 m2 rm1 rm2 na nb sa sb ra rb rsa rsb g1 g2 gd eN eS hab hsab
      fa fb fsa fsb ta tb tsa tsb (by rw [qb]; exact ea) (by rw [qa]; exact eb)
      (by rw [qsb]; exact esa) (by rw [qsa]; exact esb)
    rw [qa, qb, qsa, qsb] at this
    exact this
  obtain ⟨hne, hsw⟩ := shape n1 n2 r1 r2 h1 h2 hd
  refine ⟨_, hsw, ?_, ?_⟩
  · intro x rx fx
    obtain ⟨rx', hf, -, -, -, -, hp, -⟩ := find_after_swap s.rangers n1 n2 na nb sa sb
      na nb sa sb x rx hne hab hsab d1 d2 d3 d4 fx
    refine ⟨rx', hf, ?_⟩
    have lift : ∀ pc' : List (Char × Int),
        ((∀ y ry, y ≠ x → mapFind s.rangers y = some ry → ry.is_north = rx.is_north →
            ∃ c, mapFind rx.paired_count y = some c ∧ mapFind pc' y = some (incr c)) ∧
          (∀ y, (y = x ∨ ∀ ry, mapFind s.rangers y = some ry → ry.is_north ≠ rx.is_north) →
            mapFind pc' y = mapFind rx.paired_count y)) →
        ((∀ y ry, y ≠ x → mapFind s.rangers y = some ry → ry.is_north = rx.is_north →
            ∃ c, mapFind rx.paired_count y = some c ∧ mapFind pc' y = some (c + 1)) ∧
          (∀ y, (y = x ∨ ∀ ry, mapFind s.rangers y = some ry → ry.is_north ≠ rx.is_north) →
            mapFind pc' y = mapFind rx.paired_count y)) := by
      rintro pc' ⟨hA, hB⟩
      refine ⟨fun y ry hy fy sy => ?_, hB⟩
      obtain ⟨c, hc, hc'⟩ := hA y ry hy fy sy
      exact ⟨c, hc, by rw [hc', incr_eq c (hlim x rx y c fx hc).1 (hlim x rx y c fx hc).2]⟩
    have onlyN : rx.is_north = true → ∀ y ry, mapFind s.rangers y = some ry →
        ry.is_north = rx.is_north → y = na ∨ y = nb := by
      intro hx y ry fy sy
      rcases hcov y ry fy with ⟨_, h⟩ | ⟨h, _⟩
      · exact h
      · rw [sy, hx] at h; cases h
    have onlyS : rx.is_north = false → ∀ y ry, mapFind s.rangers y = some ry →
        ry.is_north = rx.is_north → y = sa ∨ y = sb := by
      intro hx y ry fy sy
      rcases hcov y ry fy with ⟨h, _⟩ | ⟨_, h⟩
      · rw [sy, hx] at h; cases h
      · exact h
    rcases hcov x rx fx with ⟨hx, rfl | rfl⟩ | ⟨hx, rfl | rfl⟩
    · rw [fa] at fx; cases fx
      rw [if_pos rfl] at hp
      exact lift _
        (credit_partner s.rangers x nb ra rb _ hab fb (by rw [tb, ta]) (onlyN hx) ea hp)
    · rw [fb] at fx; cases fx
      rw [if_neg (fun e => hab e.symm), if_pos rfl] at hp
      exact lift _ (credit_partner s.rangers x na rb ra _ (fun e => hab e.symm) fa
        (by rw [tb, ta]) (fun y ry fy sy => (onlyN hx y ry fy sy).symm) eb hp)
    · rw [fsa] at fx; cases fx
      rw [if_neg d1, if_neg d2, if_pos rfl] at hp
      exact lift _
        (credit_partner s.rangers x sb rsa rsb _ hsab fsb (by rw [tsb, tsa]) (onlyS hx) esa hp)
    · rw [fsb] at fx; cases fx
      rw [if_neg d3, if_neg d4, if_neg (fun e => hsab e.symm), if_pos rfl] at hp
      exact lift _ (credit_partner s.rangers x sa rsb rsa _ (fun e => hsab e.symm) fsa
        (by rw [tsb, tsa]) (fun y ry fy sy => (onlyS hx y ry fy sy).symm) esb hp)
  · intro m1 m2 rm1 rm2 g1 g2 gd
    obtain ⟨hne', hsw'⟩ := shape m1 m2 rm1 rm2 g1 g2 gd
    refine ⟨_, hsw', fun x => ?_⟩
    simp only
    rw [paired_after_moving _ _ _ _ hne', paired_after_moving _ _ _ _ hne]

/-! ## Swaps on states in normal form -/

theorem Quad.station_none (q : Quad) (n : Char) (h : q.station n = none) :
    mapFind q.toState.rangers n = none := by
  rw [Quad.station_eq_find] at h
  cases hf : mapFind q.toState.rangers n with
  | none => rfl
  | some r => rw [hf] at h; cases h

theorem Quad.station_find (q : Quad) (n : Char) (b : Bool) (h : q.station n = some b) :
    ∃ r, mapFind q.toState.rangers n = some r ∧ r.is_north = b := by
  rw [Quad.station_eq_find] at h
  cases hf : mapFind q.toState.rangers n with
  | none => rw [hf] at h; cases h
  | some r => rw [hf] at h; exact ⟨r, rfl, Option.some.inj h⟩

/-- The three outcomes of a swap call on a balanced state in normal form. -/
theorem Quad.swap_cases (q : Quad) (hq : q.balanced = true) (n1 n2 : Char) :
    ((q.station n1 = none ∨ q.station n2 = none) ∧
        q.toState.swap n1 n2 = .error .derefEnd) ∨
      ((∃ b, q.station n1 = some b ∧ q.station n2 = some b) ∧
        q.toState.swap n1 n2 = .ok (false, q.toState)) ∨
      ((∃ b1 b2, q.station n1 = some b1 ∧ q.station n2 = some b2 ∧ b1 ≠ b2) ∧
        q.toState.swap n1 n2 = .ok (true, (q.swap n1 n2).toState) ∧
        (q.swap n1 n2).balanced = true) := by
  cases h1 : q.station n1 with
  | none =>
    left
    refine ⟨Or.inl rfl, ?_⟩
    have := Quad.station_none q n1 h1
    unfold State.swap
    simp only [this]
  | some b1 =>
    cases h2 : q.station n2 with
    | none =>
      left
      refine ⟨Or.inr rfl, ?_⟩
      have := Quad.station_none q n2 h2
      obtain ⟨r1, f1, -⟩ := Quad.station_find q n1 b1 h1
      unfold State.swap
      simp only [this, f1]
    | some b2 =>
      right
      by_cases hb : b1 = b2
      · subst hb
        left
        obtain ⟨r1, f1, t1⟩ := Quad.station_find q n1 b1 h1
        obtain ⟨r2, f2, t2⟩ := Quad.station_find q n2 b1 h2
        exact ⟨⟨b1, rfl, rfl⟩, State.swap_rejected _ n1 n2 r1 r2 f1 f2 (by rw [t1, t2])⟩
      · right
        exact ⟨⟨b1, b2, rfl, rfl, hb⟩, Quad.swap_toState q hq n1 n2 b1 b2 h1 h2 hb,
          Quad.swap_balanced q hq n1 n2 b1 b2 h1 h2 hb⟩

/-- Any property of the numbers that holds initially and is kept by every
legal swap holds after every sequence of returning `swap` calls. -/
theorem runCalls_inv (P : Quad → Prop)
    (hstep : ∀ q n1 n2 b1 b2, q.balanced = true → P q → q.station n1 = some b1 →
      q.station n2 = some b2 → b1 ≠ b2 → P (q.swap n1 n2))
    (calls : List (Char × Char)) (q : Quad) (hq : q.balanced = true) (hP : P q) (s : State)
    (h : runCalls q.toState calls = .ok s) :
    ∃ q', q'.balanced = true ∧ P q' ∧ s = q'.toState := by
  induction calls generalizing q with
  | nil =>
    simp only [runCalls, Except.ok.injEq] at h
    exact ⟨q, hq, hP, h.symm⟩
  | cons c rest ih =>
    obtain ⟨n1, n2⟩ := c
    unfold runCalls at h
    rcases Quad.swap_cases q hq n1 n2 with ⟨-, e⟩ | ⟨-, e⟩ | ⟨⟨b1, b2, h1, h2, hb⟩, e, hq'⟩
    · rw [e] at h; cases h
    · rw [e] at h; exact ih q hq hP h
    · rw [e] at h; exact ih _ hq' (hstep q n1 n2 b1 b2 hq hP h1 h2 hb) h

/-- The same for sequences of successful swaps. -/
theorem applySwaps_inv (P : Quad → Prop)
    (hstep : ∀ q n1 n2 b1 b2, q.balanced = true → P q → q.station n1 = some b1 →
      q.station n2 = some b2 → b1 ≠ b2 → P (q.swap n1 n2))
    (h : List (Char × Char)) (q : Quad) (hq : q.balanced = true) (hP : P q) (s : State)
    (hs : applySwaps q.toState h = some s) :
    ∃ q', q'.balanced = true ∧ P q' ∧ s = q'.toState := by
  induction h generalizing q with
  | nil =>
    simp only [applySwaps, Option.some.injEq] at hs
    exact ⟨q, hq, hP, hs.symm⟩
  | cons c rest ih =>
    obtain ⟨n1, n2⟩ := c
    unfold applySwaps at hs
    rcases Quad.swap_cases q hq n1 n2 with ⟨-, e⟩ | ⟨-, e⟩ | ⟨⟨b1, b2, h1, h2, hb⟩, e, hq'⟩
    · rw [e] at hs; cases hs
    · rw [e] at hs; cases hs
    · rw [e] at hs; exact ih _ hq' (hstep q n1 n2 b1 b2 hq hP h1 h2 hb) hs

/-- Calls on the four names always return. -/
theorem runCalls_known (calls : List (Char × Char))
    (hk : ∀ c ∈ calls, c.1 ∈ names ∧ c.2 ∈ names) (q : Quad) (hq : q.balanced = true) :
    ∃ s, runCalls q.toState calls = .ok s := by
  induction calls generalizing q with
  | nil => exact ⟨_, rfl⟩
  | cons c rest ih =>
    obtain ⟨n1, n2⟩ := c
    have hk' : ∀ c ∈ rest, c.1 ∈ names ∧ c.2 ∈ names :=
      fun c hc => hk c (List.mem_cons_of_mem _ hc)
    obtain ⟨k1, k2⟩ := hk (n1, n2) (List.mem_cons_self _ _)
    obtain ⟨b1, s1⟩ := Quad.station_isSome q n1 (by simpa [names] using k1)
    obtain ⟨b2, s2⟩ := Quad.station_isSome q n2 (by simpa [names] using k2)
    unfold runCalls
    rcases Quad.swap_cases q hq n1 n2 with ⟨h, -⟩ | ⟨-, e⟩ | ⟨-, e, hq'⟩
    · rcases h with h | h
      · rw [s1] at h; cases h
      · rw [s2] at h; cases h
    · rw [e]; exact ih hk' q hq
    · rw [e]; exact ih hk' _ hq'

/-- Claim C4. Station balance is an invariant: the state built by the four
`add_ranger` calls has exactly two rangers north and two south; so has every
state reached from it by a sequence of `swap` calls that return (with
`true` or with `false`); and every sequence of calls on the four names does
return. -/
theorem station_balance :
    initial.northCount = 2 ∧ initial.southCount = 2 ∧
      (∀ calls s, runCalls initial calls = .ok s → s.northCount = 2 ∧ s.southCount = 2) ∧
      (∀ calls, (∀ c ∈ calls, c.1 ∈ names ∧ c.2 ∈ names) →
        ∃ s, runCalls initial calls = .ok s ∧ s.northCount = 2 ∧ s.southCount = 2) := by
  have key : ∀ calls s, runCalls initial calls = .ok s →
      s.northCount = 2 ∧ s.southCount = 2 := by
    intro calls s h
    obtain ⟨q', hq', -, rfl⟩ := runCalls_inv (fun _ => True)
      (fun _ _ _ _ _ _ _ _ _ _ => trivial) calls Quad.initial rfl trivial s h
    exact Quad.toState_counts q' hq'
  refine ⟨rfl, rfl, key, ?_⟩
  intro calls hk
  obtain ⟨s, hs⟩ := runCalls_known calls hk Quad.initial rfl
  exact ⟨s, hs, key calls s hs⟩

theorem station_balance_witness :
    ∃ s, runCalls initial [('A', 'C'), ('A', 'A'), ('B', 'D')] = .ok s ∧
      s.northCount = 2 ∧ s.southCount = 2 :=
  station_balance.2.2.2 [('A', 'C'), ('A', 'A'), ('B', 'D')] (by decide)

/-! ## Co-location symmetry -/

@[simp] theorem Cell.move_p1 (x : Cell) (me n1 n2 : Char) : (x.move me n1 n2).p1 = x.p1 := by
  unfold Cell.move; split <;> rfl

@[simp] theorem Cell.move_p2 (x : Cell) (me n1 n2 : Char) : (x.move me n1 n2).p2 = x.p2 := by
  unfold Cell.move; split <;> rfl

@[simp] theorem Cell.move_p3 (x : Cell) (me n1 n2 : Char) : (x.move me n1 n2).p3 = x.p3 := by
  unfold Cell.move; split <;> rfl

theorem Quad.swap_symmetric (q : Quad) (n1 n2 : Char) (h : q.symmetric) :
    (q.swap n1 n2).symmetric := by
  obtain ⟨⟨an, a1, a2, a3, a4, a5, a6⟩, ⟨bn, b1, b2, b3, b4, b5, b6⟩,
    ⟨cn, c1, c2, c3, c4, c5, c6⟩, ⟨dn, d1, d2, d3, d4, d5, d6⟩, hist⟩ := q
  obtain ⟨h1, h2, h3, h4, h5, h6⟩ := h
  simp only at h1 h2 h3 h4 h5 h6
  subst h1 h2 h3 h4 h5 h6
  unfold Quad.symmetric Quad.swap
  simp only [Cell.move_p1, Cell.move_p2, Cell.move_p3, Cell.credit]
  cases an <;> cases bn <;> cases cn <;> cases dn <;> simp

/-- In a state in normal form with symmetric numbers, the lookups of two
distinct rangers in each other's `paired_count` give the same value. -/
theorem Quad.symmetric_lookup (q : Quad) (h : q.symmetric) (a b : Char) (ra rb : Ranger)
    (hab : a ≠ b) (fa : mapFind q.toState.rangers a = some ra)
    (fb : mapFind q.toState.rangers b = some rb) :
    ∃ c, mapFind ra.paired_count b = some c ∧ mapFind rb.paired_count a = some c := by
  obtain ⟨h1, h2, h3, h4, h5, h6⟩ := h
  rcases Quad.find_toState q a ra fa with ⟨rfl, rfl⟩ | ⟨rfl, rfl⟩ | ⟨rfl, rfl⟩ | ⟨rfl, rfl⟩ <;>
  rcases Quad.find_toState q b rb fb with ⟨rfl, rfl⟩ | ⟨rfl, rfl⟩ | ⟨rfl, rfl⟩ | ⟨rfl, rfl⟩
  · exact absurd rfl hab
  · exact ⟨q.a.p1, rfl, by rw [h1]; rfl⟩
  · exact ⟨q.a.p2, rfl, by rw [h2]; rfl⟩
  · exact ⟨q.a.p3, rfl, by rw [h3]; rfl⟩
  · exact ⟨q.b.p1, rfl, by rw [← h1]; rfl⟩
  · exact absurd rfl hab
  · exact ⟨q.b.p2, rfl, by rw [h4]; rfl⟩
  · exact ⟨q.b.p3, rfl, by rw [h5]; rfl⟩
  · exact ⟨q.c.p1, rfl, by rw [← h2]; rfl⟩
  · exact ⟨q.c.p2, rfl, by rw [← h4]; rfl⟩
  · exact absurd rfl hab
  · exact ⟨q.c.p3, rfl, by rw [h6]; rfl⟩
  · exact ⟨q.d.p1, rfl, by rw [← h3]; rfl⟩
  · exact ⟨q.d.p2, rfl, by rw [← h5]; rfl⟩
  · exact ⟨q.d.p3, rfl, by rw [← h6]; rfl⟩
  · exact absurd rfl hab

/-- Claim C5. Co-location symmetry is an invariant: in the initial state and
in every state obtained from it by a sequence of successful swaps, for any
two distinct rangers `a` and `b`, the entry for `b` in the `paired_count` of
`a` exists and equals the entry for `a` in the `paired_count` of `b`. -/
theorem paired_count_symmetric (h : List (Char × Char)) (s : State)
    (hs : applySwaps initial h = some s) (a b : Char) (ra rb : Ranger) (hab : a ≠ b)
    (fa : mapFind s.rangers a = some ra) (fb : mapFind s.rangers b = some rb) :
    ∃ c, mapFind ra.paired_count b = some c ∧ mapFind rb.paired_count a = some c := by
  obtain ⟨q', -, hsym, rfl⟩ := applySwaps_inv Quad.symmetric
    (fun q n1 n2 _ _ _ hP _ _ _ => Quad.swap_symmetric q n1 n2 hP) h Quad.initial rfl
    (by simp [Quad.symmetric, Quad.initial]) s hs
  exact Quad.symmetric_lookup q' hsym a b ra rb hab fa fb

theorem paired_count_symmetric_witness :
    ∃ s ra rb c, applySwaps initial [('A', 'C'), ('A', 'B')] = some s ∧
      mapFind s.rangers 'A' = some ra ∧ mapFind s.rangers 'B' = some rb ∧
      mapFind ra.paired_count 'B' = some c ∧ mapFind rb.paired_count 'A' = some c := by
  obtain ⟨c, h1, h2⟩ := paired_count_symmetric [('A', 'C'), ('A', 'B')]
    ((Quad.initial.swap 'A' 'C').swap 'A' 'B').toState rfl 'A' 'B' _ _ (by decide) rfl rfl
  exact ⟨_, _, _, c, rfl, rfl, rfl, h1, h2⟩

theorem is_end_state_iff_witness :
    ∃ v : Bool, initial.is_end_state ['A', 'B'] = .ok v ∧
      (v = true ↔
        ((Quad.initial.a.toRanger 'A' 'B' 'C' 'D').is_north = true ∧
          (Quad.initial.b.toRanger 'B' 'A' 'C' 'D').is_north = true ∧
          (∀ e ∈ initial.rangers, e.2.is_end_state = true) ∧
          (∀ e ∈ initial.rangers, ∀ e' ∈ initial.rangers,
            e.2.moved_count = e'.2.moved_count))) :=
  is_end_state_iff initial 'A' 'B' _ _ rfl rfl

/-- Every `paired_count` value of the initial state is zero. -/
theorem initial_paired_zero (x : Char) (rx : Ranger) (y : Char) (c : Int)
    (hx : mapFind initial.rangers x = some rx) (hc : mapFind rx.paired_count y = some c) :
    c = 0 := by
  rw [initial_eq] at hx
  rcases Quad.find_toState Quad.initial x rx hx with ⟨rfl, rfl⟩ | ⟨rfl, rfl⟩ | ⟨rfl, rfl⟩ |
      ⟨rfl, rfl⟩ <;>
    · simp only [Cell.toRanger, Quad.initial, mapFind] at hc
      split_ifs at hc <;> exact (Option.some.inj hc).symm

theorem swap_credits_witness :
    ∃ s', initial.swap 'B' 'D' = .ok (true, s') ∧
      ∃ rx', mapFind s'.rangers 'A' = some rx' ∧
        mapFind rx'.paired_count 'B' = some 1 ∧ mapFind rx'.paired_count 'C' = some 0 := by
  obtain ⟨s', h, hx, -⟩ := swap_credits initial 'B' 'D' _ _ Quad.initial.toState_WF rfl rfl
    (fun p q rp hne hp hq => Quad.toState_entries Quad.initial p q rp hne hp hq)
    (fun x rx y c hx hc => by
      rw [initial_paired_zero x rx y c hx hc]
      decide)
    rfl rfl (by decide)
  obtain ⟨rx', hf, hi, hu⟩ := hx 'A' _ (rfl : mapFind initial.rangers 'A' = some _)
  obtain ⟨c, hc, hc'⟩ := hi 'B' _ (by decide) (rfl : mapFind initial.rangers 'B' = some _) rfl
  have hc0 : c = 0 := (Option.some.inj hc).symm
  subst hc0
  have hC := hu 'C' (Or.inr (fun ry hry => by
    have : ry = Quad.initial.c.toRanger 'C' 'A' 'B' 'D' := (Option.some.inj hry).symm
    subst this
    decide))
  exact ⟨s', h, rx', hf, hc', hC⟩

/-! ## Renaming the rangers -/

theorem Cell.fair_toRanger (x : Cell) (name k1 k2 k3 : Char) :
    (x.toRanger name k1 k2 k3).is_end_state = x.fair := by
  unfold Ranger.is_end_state Cell.fair Cell.toRanger
  simp only [Ranger.pairedLoop]
  by_cases h1 : x.nc = x.sc <;> by_cases h2 : x.p1 = x.p2 <;> by_cases h3 : x.p1 = x.p3 <;>
    simp [h1, h2, h3]

theorem Quad.isEnd_toState (q : Quad) :
    q.toState.is_end_state end_north = .ok q.isEnd := by
  have e : q.toState.is_end_state end_north =
      if !q.a.north then .ok false
      else if !q.b.north then .ok false
      else .ok (State.endLoop q.toState.rangers true (-1)) := rfl
  rw [e]
  unfold Quad.isEnd
  cases ha : q.a.north <;> cases hb : q.b.north <;> simp
  simp only [Quad.toState, State.endLoop, Cell.fair_toRanger]
  cases q.a.fair <;> cases q.b.fair <;> cases q.c.fair <;> cases q.d.fair <;> simp
  simp only [Cell.toRanger]
  by_cases h1 : q.a.mc = q.b.mc <;> by_cases h2 : q.a.mc = q.c.mc <;>
    by_cases h3 : q.a.mc = q.d.mc <;> simp [h1, h2, h3]

theorem applySwaps_toState (h : List (Char × Char)) (q : Quad) (hq : q.balanced = true) :
    applySwaps q.toState h = (q.apply h).map Quad.toState := by
  induction h generalizing q with
  | nil => rfl
  | cons c rest ih =>
    obtain ⟨n1, n2⟩ := c
    unfold applySwaps Quad.apply
    rcases Quad.swap_cases q hq n1 n2 with ⟨hn, e⟩ | ⟨⟨b, h1, h2⟩, e⟩ |
      ⟨⟨b1, b2, h1, h2, hb⟩, e, hq'⟩
    · rw [e]
      rcases hn with hn | hn
      · simp [hn]
      · cases h1 : q.station n1 <;> simp [hn]
    · rw [e]; simp [h1, h2]
    · rw [e]; simp [h1, h2, hb, ih _ hq']

theorem Quad.apply_balanced (h : List (Char × Char)) (q q' : Quad) (hq : q.balanced = true)
    (he : q.apply h = some q') : q'.balanced = true := by
  induction h generalizing q with
  | nil => simp only [Quad.apply, Option.some.injEq] at he; rw [← he]; exact hq
  | cons c rest ih =>
    obtain ⟨n1, n2⟩ := c
    unfold Quad.apply at he
    cases h1 : q.station n1 with
    | none => simp [h1] at he
    | some b1 =>
      cases h2 : q.station n2 with
      | none => simp [h1, h2] at he
      | some b2 =>
        by_cases hb : b1 = b2
        · simp [h1, h2, hb] at he
        · simp only [h1, h2, hb, if_false] at he
          exact ih _ (Quad.swap_balanced q hq n1 n2 b1 b2 h1 h2 hb) he

/-- Whether a sequence of swaps is a solution, read off the numbers. -/
theorem isSolution_eq (h : List (Char × Char)) :
    isSolution h = match Quad.initial.apply h with
      | some q => q.isEnd
      | none => false := by
  unfold isSolution
  rw [initial_eq, applySwaps_toState h Quad.initial rfl]
  cases Quad.initial.apply h with
  | none => rfl
  | some q =>
    simp only [Option.map_some', Quad.isEnd_toState]
    cases q.isEnd <;> rfl

theorem swapNames_eq_iff (x y n m : Char) (hxy : x ≠ y) :
    swapNames x y n = m ↔ n = swapNames x y m := by
  unfold swapNames
  aesop

theorem swapNames_invol (x y n : Char) (hxy : x ≠ y) :
    swapNames x y (swapNames x y n) = n :=
  (swapNames_eq_iff x y _ _ hxy).2 rfl

theorem Cell.move_congr (x : Cell) (me n1 n2 me' n1' n2' : Char)
    (h : (me = n1 ∨ me = n2) ↔ (me' = n1' ∨ me' = n2')) :
    x.move me n1 n2 = x.move me' n1' n2' := by
  unfold Cell.move
  by_cases c : me = n1 ∨ me = n2
  · rw [if_pos c, if_pos (h.1 c)]
  · rw [if_neg c, if_neg (fun c' => c (h.2 c'))]

theorem Cell.move_swapNames (x : Cell) (a b me n1 n2 : Char) (hab : a ≠ b) :
    x.move me (swapNames a b n1) (swapNames a b n2) = x.move (swapNames a b me) n1 n2 := by
  apply Cell.move_congr
  have e : ∀ n, me = swapNames a b n ↔ swapNames a b me = n := fun n =>
    ⟨fun h => (swapNames_eq_iff a b me n hab).2 h, fun h => (swapNames_eq_iff a b me n hab).1 h⟩
  rw [e n1, e n2]

theorem Quad.station_renameAB (q : Quad) (n : Char) :
    q.renameAB.station (swapNames 'A' 'B' n) = q.station n := by
  unfold Quad.station swapNames Quad.renameAB
  by_cases hA : n = 'A'
  · subst hA; rfl
  by_cases hB : n = 'B'
  · subst hB; rfl
  simp [hA, hB]

theorem Quad.station_renameCD (q : Quad) (n : Char) :
    q.renameCD.station (swapNames 'C' 'D' n) = q.station n := by
  unfold Quad.station swapNames Quad.renameCD
  by_cases hA : n = 'A'
  · subst hA; rfl
  by_cases hB : n = 'B'
  · subst hB; rfl
  by_cases hC : n = 'C'
  · subst hC; rfl
  by_cases hD : n = 'D'
  · subst hD; rfl
  simp [hA, hB, hC, hD]

theorem Quad.swap_renameAB (q : Quad) (n1 n2 : Char) :
    q.renameAB.swap (swapNames 'A' 'B' n1) (swapNames 'A' 'B' n2) =
      (q.swap n1 n2).renameAB := by
  have hne : ('A' : Char) ≠ 'B' := by decide
  have eA : swapNames 'A' 'B' 'A' = 'B' := rfl
  have eB : swapNames 'A' 'B' 'B' = 'A' := rfl
  have eC : swapNames 'A' 'B' 'C' = 'C' := rfl
  have eD : swapNames 'A' 'B' 'D' = 'D' := rfl
  unfold Quad.swap
  simp only [Cell.move_swapNames _ 'A' 'B' _ _ _ hne, eA, eB, eC, eD]
  unfold Quad.renameAB
  simp only [Quad.mk.injEq, List.map_append, List.map_cons, List.map_nil, renamePair,
    Cell.move_p1, Cell.move_p2, and_true, true_and]
  refine ⟨?_, ?_⟩
  · by_cases c : 'C' = n1 ∨ 'C' = n2 <;> simp only [Cell.move, c, if_true, if_false] <;> rfl
  · by_cases c : 'D' = n1 ∨ 'D' = n2 <;> simp only [Cell.move, c, if_true, if_false] <;> rfl

theorem Quad.swap_renameCD (q : Quad) (n1 n2 : Char) :
    q.renameCD.swap (swapNames 'C' 'D' n1) (swapNames 'C' 'D' n2) =
      (q.swap n1 n2).renameCD := by
  have hne : ('C' : Char) ≠ 'D' := by decide
  have eA : swapNames 'C' 'D' 'A' = 'A' := rfl
  have eB : swapNames 'C' 'D' 'B' = 'B' := rfl
  have eC : swapNames 'C' 'D' 'C' = 'D' := rfl
  have eD : swapNames 'C' 'D' 'D' = 'C' := rfl
  unfold Quad.swap
  simp only [Cell.move_swapNames _ 'C' 'D' _ _ _ hne, eA, eB, eC, eD]
  unfold Quad.renameCD
  simp only [Quad.mk.injEq, List.map_append, List.map_cons, List.map_nil, renamePair,
    Cell.move_p2, Cell.move_p3, and_true, true_and]
  refine ⟨?_, ?_⟩
  · by_cases c : 'A' = n1 ∨ 'A' = n2 <;> simp only [Cell.move, c, if_true, if_false] <;> rfl
  · by_cases c : 'B' = n1 ∨ 'B' = n2 <;> simp only [Cell.move, c, if_true, if_false] <;> rfl

theorem Quad.apply_renameAB (h : List (Char × Char)) (q : Quad) :
    q.renameAB.apply (h.map (renamePair (swapNames 'A' 'B'))) =
      (q.apply h).map Quad.renameAB := by
  induction h generalizing q with
  | nil => rfl
  | cons c rest ih =>
    obtain ⟨n1, n2⟩ := c
    simp only [List.map_cons, renamePair, Quad.apply, Quad.station_renameAB,
      Quad.swap_renameAB]
    cases q.station n1 with
    | none => rfl
    | some b1 =>
      cases q.station n2 with
      | none => rfl
      | some b2 =>
        by_cases hb : b1 = b2
        · simp [hb]
        · simpa [hb, renamePair] using ih (q.swap n1 n2)

theorem Quad.apply_renameCD (h : List (Char × Char)) (q : Quad) :
    q.renameCD.apply (h.map (renamePair (swapNames 'C' 'D'))) =
      (q.apply h).map Quad.renameCD := by
  induction h generalizing q with
  | nil => rfl
  | cons c rest ih =>
    obtain ⟨n1, n2⟩ := c
    simp only [List.map_cons, renamePair, Quad.apply, Quad.station_renameCD,
      Quad.swap_renameCD]
    cases q.station n1 with
    | none => rfl
    | some b1 =>
      cases q.station n2 with
      | none => rfl
      | some b2 =>
        by_cases hb : b1 = b2
        · simp [hb]
        · simpa [hb, renamePair] using ih (q.swap n1 n2)

theorem Cell.fair_exch12 (x : Cell) :
    ({ x with p1 := x.p2, p2 := x.p1 } : Cell).fair = x.fair := by
  unfold Cell.fair
  by_cases h1 : x.p1 = x.p2 <;> by_cases h2 : x.p1 = x.p3 <;> by_cases h3 : x.p2 = x.p3 <;>
    simp_all [eq_comm]

theorem Cell.fair_exch23 (x : Cell) :
    ({ x with p2 := x.p3, p3 := x.p2 } : Cell).fair = x.fair := by
  unfold Cell.fair
  by_cases h1 : x.p1 = x.p2 <;> by_cases h2 : x.p1 = x.p3 <;> simp_all [Bool.and_comm]

theorem Quad.isEnd_renameAB (q : Quad) : q.renameAB.isEnd = q.isEnd := by
  unfold Quad.isEnd Quad.renameAB
  simp only [Cell.fair_exch12]
  cases q.a.north <;> cases q.b.north <;> cases q.a.fair <;> cases q.b.fair <;>
    cases q.c.fair <;> cases q.d.fair <;> simp
  by_cases h1 : q.a.mc = q.b.mc
  · simp [h1]
  · have : ¬ q.b.mc = q.a.mc := fun e => h1 e.symm
    simp [h1, this]

theorem Quad.isEnd_renameCD (q : Quad) : q.renameCD.isEnd = q.isEnd := by
  unfold Quad.isEnd Quad.renameCD
  simp only [Cell.fair_exch23]
  cases q.a.north <;> cases q.b.north <;> cases q.a.fair <;> cases q.b.fair <;>
    cases q.c.fair <;> cases q.d.fair <;> simp
  rw [Bool.and_assoc, Bool.and_assoc, Bool.and_comm (decide (q.a.mc = q.d.mc))]

theorem isSolution_renameAB (h : List (Char × Char)) :
    isSolution (h.map (renamePair (swapNames 'A' 'B'))) = isSolution h := by
  rw [isSolution_eq, isSolution_eq]
  have e : Quad.initial = Quad.initial.renameAB := rfl
  conv_lhs => rw [e]
  rw [Quad.apply_renameAB]
  cases Quad.initial.apply h with
  | none => rfl
  | some q => exact Quad.isEnd_renameAB q

theorem isSolution_renameCD (h : List (Char × Char)) :
    isSolution (h.map (renamePair (swapNames 'C' 'D'))) = isSolution h := by
  rw [isSolution_eq, isSolution_eq]
  have e : Quad.initial = Quad.initial.renameCD := rfl
  conv_lhs => rw [e]
  rw [Quad.apply_renameCD]
  cases Quad.initial.apply h with
  | none => rfl
  | some q => exact Quad.isEnd_renameCD q

theorem not_mem_names (c : Char) (hc : c ∉ names) :
    c ≠ 'A' ∧ c ≠ 'B' ∧ c ≠ 'C' ∧ c ≠ 'D' := by
  simpa [names] using hc

theorem mem_names_cases (c : Char) :
    c = 'A' ∨ c = 'B' ∨ c = 'C' ∨ c = 'D' ∨ c ∉ names := by
  by_cases h : c ∈ names
  · simp only [names, List.mem_cons, List.mem_singleton, List.not_mem_nil, or_false] at h
    tauto
  · exact Or.inr (Or.inr (Or.inr (Or.inr h)))

theorem StationPerm.invol {p : Char → Char} (hp : StationPerm p) (c : Char) : p (p c) = c := by
  obtain ⟨hab, hcd, hrest⟩ := hp
  rcases mem_names_cases c with rfl | rfl | rfl | rfl | hc
  · rcases hab with ⟨h1, h2⟩ | ⟨h1, h2⟩ <;> simp [h1, h2]
  · rcases hab with ⟨h1, h2⟩ | ⟨h1, h2⟩ <;> simp [h1, h2]
  · rcases hcd with ⟨h1, h2⟩ | ⟨h1, h2⟩ <;> simp [h1, h2]
  · rcases hcd with ⟨h1, h2⟩ | ⟨h1, h2⟩ <;> simp [h1, h2]
  · rw [hrest c hc, hrest c hc]

theorem swapNames_of_ne (x y c : Char) (h1 : c ≠ x) (h2 : c ≠ y) : swapNames x y c = c := by
  unfold swapNames; rw [if_neg h1, if_neg h2]

/-- The permutations in question are the identity, the two transpositions
and their product. -/
theorem StationPerm.cases {p : Char → Char} (hp : StationPerm p) :
    p = id ∨ p = swapNames 'A' 'B' ∨ p = swapNames 'C' 'D' ∨
      p = swapNames 'A' 'B' ∘ swapNames 'C' 'D' := by
  obtain ⟨hab, hcd, hrest⟩ := hp
  have rest : ∀ c, c ∉ names → swapNames 'A' 'B' c = c ∧ swapNames 'C' 'D' c = c := by
    intro c hc
    obtain ⟨h1, h2, h3, h4⟩ := not_mem_names c hc
    exact ⟨swapNames_of_ne _ _ _ h1 h2, swapNames_of_ne _ _ _ h3 h4⟩
  rcases hab with ⟨a1, a2⟩ | ⟨a1, a2⟩ <;> rcases hcd with ⟨c1, c2⟩ | ⟨c1, c2⟩
  · left
    funext c
    rcases mem_names_cases c with rfl | rfl | rfl | rfl | hc
    · exact a1
    · exact a2
    · exact c1
    · exact c2
    · exact hrest c hc
  · right; right; left
    funext c
    rcases mem_names_cases c with rfl | rfl | rfl | rfl | hc
    · exact a1
    · exact a2
    · exact c1
    · exact c2
    · rw [hrest c hc, (rest c hc).2]
  · right; left
    funext c
    rcases mem_names_cases c with rfl | rfl | rfl | rfl | hc
    · exact a1
    · exact a2
    · exact c1
    · exact c2
    · rw [hrest c hc, (rest c hc).1]
  · right; right; right
    funext c
    rcases mem_names_cases c with rfl | rfl | rfl | rfl | hc
    · exact a1
    · exact a2
    · exact c1
    · exact c2
    · rw [hrest c hc, Function.comp_apply, (rest c hc).2, (rest c hc).1]

theorem isSolution_rename (p : Char → Char) (hp : StationPerm p) (h : List (Char × Char)) :
    isSolution (h.map (renamePair p)) = isSolution h := by
  rcases hp.cases with rfl | rfl | rfl | rfl
  · have : renamePair id = id := by funext sw; rfl
    rw [this, List.map_id]
  · exact isSolution_renameAB h
  · exact isSolution_renameCD h
  · have : renamePair (swapNames 'A' 'B' ∘ swapNames 'C' 'D') =
        renamePair (swapNames 'A' 'B') ∘ renamePair (swapNames 'C' 'D') := by
      funext sw; rfl
    rw [this, ← List.map_map, isSolution_renameAB, isSolution_renameCD]

theorem renamePair_invol (p : Char → Char) (hp : StationPerm p) (sw : Char × Char) :
    renamePair p (renamePair p sw) = sw := by
  obtain ⟨n1, n2⟩ := sw
  simp [renamePair, hp.invol]

theorem map_renamePair_invol (p : Char → Char) (hp : StationPerm p) (h : List (Char × Char)) :
    (h.map (renamePair p)).map (renamePair p) = h := by
  rw [List.map_map]
  have : renamePair p ∘ renamePair p = id := by
    funext sw; exact renamePair_invol p hp sw
  rw [this, List.map_id]

theorem stationPerm_swapAB : StationPerm (swapNames 'A' 'B') :=
  ⟨Or.inr ⟨rfl, rfl⟩, Or.inl ⟨rfl, rfl⟩, fun c hc =>
    swapNames_of_ne _ _ _ (not_mem_names c hc).1 (not_mem_names c hc).2.1⟩

theorem stationPerm_swapCD : StationPerm (swapNames 'C' 'D') :=
  ⟨Or.inl ⟨rfl, rfl⟩, Or.inr ⟨rfl, rfl⟩, fun c hc =>
    swapNames_of_ne _ _ _ (not_mem_names c hc).2.2.1 (not_mem_names c hc).2.2.2⟩

theorem stationPerm_id : StationPerm id :=
  ⟨Or.inl ⟨rfl, rfl⟩, Or.inl ⟨rfl, rfl⟩, fun _ _ => rfl⟩

theorem stationPerm_both : StationPerm (swapNames 'A' 'B' ∘ swapNames 'C' 'D') :=
  ⟨Or.inr ⟨rfl, rfl⟩, Or.inr ⟨rfl, rfl⟩, fun c hc => by
    rw [Function.comp_apply, stationPerm_swapCD.2.2 c hc, stationPerm_swapAB.2.2 c hc]⟩

theorem isSolution_twelve : isSolution twelve = true := by
  rw [isSolution_eq]; rfl

/-- Claim C10. Symmetry of the opening move: for every permutation `p` of the
four names that maps `{A, B}` to itself, a sequence of swaps applied to the
initial state succeeds at every step and ends in a state accepted by
`is_end_state({A, B})` exactly when the renamed sequence does; renaming by
`p` is a one-to-one correspondence between the solutions that begin with
`(A, C)` and those that begin with `(p A, p C)`; and each of the four legal
opening swaps is `(p A, p C)` for such a `p`. -/
theorem opening_symmetry :
    (∀ p, StationPerm p → ∀ h, isSolution (h.map (renamePair p)) = isSolution h) ∧
    (∀ p, StationPerm p → Set.BijOn (List.map (renamePair p))
      (solutionsFrom ('A', 'C')) (solutionsFrom (p 'A', p 'C'))) ∧
    (∀ o ∈ openings, ∃ p, StationPerm p ∧ (p 'A', p 'C') = o) := by
  refine ⟨isSolution_rename, ?_, ?_⟩
  · intro p hp
    refine ⟨?_, ?_, ?_⟩
    · rintro h ⟨hs, hh⟩
      refine ⟨by rw [isSolution_rename p hp]; exact hs, ?_⟩
      rw [List.head?_map, hh]; rfl
    · intro h1 _ h2 _ e
      have := congrArg (List.map (renamePair p)) e
      rwa [map_renamePair_invol p hp, map_renamePair_invol p hp] at this
    · rintro h ⟨hs, hh⟩
      refine ⟨h.map (renamePair p), ⟨?_, ?_⟩, map_renamePair_invol p hp h⟩
      · rw [isSolution_rename p hp]; exact hs
      · rw [List.head?_map, hh]
        simp [renamePair, hp.invol]
  · intro o ho
    simp only [openings, List.mem_cons, List.mem_singleton, List.not_mem_nil, or_false] at ho
    rcases ho with rfl | rfl | rfl | rfl
    · exact ⟨id, stationPerm_id, rfl⟩
    · exact ⟨_, stationPerm_swapCD, rfl⟩
    · exact ⟨_, stationPerm_swapAB, rfl⟩
    · exact ⟨_, stationPerm_both, rfl⟩

theorem opening_symmetry_witness :
    isSolution twelve = true ∧
      isSolution (twelve.map (renamePair (swapNames 'A' 'B'))) = true ∧
      (twelve.map (renamePair (swapNames 'A' 'B'))).head? = some ('B', 'C') ∧
      twelve.map (renamePair (swapNames 'A' 'B')) ∈ solutionsFrom ('B', 'C') := by
  have h := opening_symmetry.1 (swapNames 'A' 'B') stationPerm_swapAB twelve
  have hb := (opening_symmetry.2.1 (swapNames 'A' 'B') stationPerm_swapAB).mapsTo
    (⟨isSolution_twelve, rfl⟩ : twelve ∈ solutionsFrom ('A', 'C'))
  exact ⟨isSolution_twelve, by rw [h]; exact isSolution_twelve, rfl, hb⟩

/-! ## The search on states in normal form -/

theorem swaps_known : ∀ sw ∈ swaps, sw.1 ∈ names ∧ sw.2 ∈ names := by decide

theorem Quad.legal_iff (q : Quad) (sw : Char × Char) :
    q.legal sw = true ↔ ∃ b1 b2, q.station sw.1 = some b1 ∧ q.station sw.2 = some b2 ∧ b1 ≠ b2 := by
  unfold Quad.legal
  cases h1 : q.station sw.1 with
  | none => simp
  | some b1 =>
    cases h2 : q.station sw.2 with
    | none => simp
    | some b2 => simp

/-- What `try_swap` does on a balanced state in normal form for a pair of
the catalog. -/
theorem try_swap_toState (eofs : Bool) (Q : Search) (q : Quad) (hq : q.balanced = true)
    (sw : Char × Char) (hsw : sw ∈ swaps) :
    try_swap eofs Q q.toState sw.1 sw.2 =
      if q.legal sw = true then
        if (q.swap sw.1 sw.2).isEnd = true then
          if eofs = true then .error (.exit0 (Q.printed ++ [(q.swap sw.1 sw.2).toState]))
          else .ok { Q with printed := Q.printed ++ [(q.swap sw.1 sw.2).toState] }
        else .ok { Q with breadth_first := Q.breadth_first ++ [(q.swap sw.1 sw.2).toState] }
      else .ok Q := by
  obtain ⟨k1, k2⟩ := swaps_known sw hsw
  obtain ⟨b1, s1⟩ := Quad.station_isSome q sw.1 (by simpa [names] using k1)
  obtain ⟨b2, s2⟩ := Quad.station_isSome q sw.2 (by simpa [names] using k2)
  unfold try_swap
  rcases Quad.swap_cases q hq sw.1 sw.2 with ⟨h, -⟩ | ⟨⟨b, h1, h2⟩, e⟩ |
    ⟨⟨c1, c2, h1, h2, hb⟩, e, -⟩
  · rcases h with h | h
    · rw [s1] at h; cases h
    · rw [s2] at h; cases h
  · have hl : q.legal sw = false := by
      unfold Quad.legal; rw [h1, h2]; simp
    rw [e, hl]; rfl
  · have hl : q.legal sw = true := (Quad.legal_iff q sw).2 ⟨c1, c2, h1, h2, hb⟩
    rw [e, hl]
    simp only [Quad.isEnd_toState, if_true]
    cases (q.swap sw.1 sw.2).isEnd <;> cases eofs <;> rfl

theorem Quad.kids_cons (q : Quad) (sw : Char × Char) (sws : List (Char × Char)) :
    q.kids (sw :: sws) =
      if q.legal sw = true then q.swap sw.1 sw.2 :: q.kids sws else q.kids sws := by
  unfold Quad.kids
  by_cases h : q.legal sw = true <;> simp [List.filter_cons, h]

/-- The pairs tried without early exit: end states are printed, the other
results are enqueued. -/
theorem tryList_false (q : Quad) (hq : q.balanced = true) (sws : List (Char × Char))
    (hs : ∀ sw ∈ sws, sw ∈ swaps) (Q : Search) :
    tryList false q.toState sws Q = .ok
      { breadth_first := Q.breadth_first ++
          ((q.kids sws).filter (fun k => !k.isEnd)).map Quad.toState,
        printed := Q.printed ++ ((q.kids sws).filter (fun k => k.isEnd)).map Quad.toState } := by
  induction sws generalizing Q with
  | nil => simp [tryList, Quad.kids]
  | cons sw rest ih =>
    have hs' : ∀ sw ∈ rest, sw ∈ swaps := fun x hx => hs x (List.mem_cons_of_mem _ hx)
    unfold tryList
    rw [try_swap_toState false Q q hq sw (hs sw (List.mem_cons_self _ _)), Quad.kids_cons]
    by_cases hl : q.legal sw = true
    · by_cases he : (q.swap sw.1 sw.2).isEnd = true
      · simp [hl, he, ih hs']
      · have he' : (q.swap sw.1 sw.2).isEnd = false := by simpa using he
        simp [hl, he', ih hs']
    · simp [hl, ih hs']

/-- The pairs tried with early exit: the first end state is printed and the
run exits; when there is none every result is enqueued. -/
theorem tryList_true (q : Quad) (hq : q.balanced = true) (sws : List (Char × Char))
    (hs : ∀ sw ∈ sws, sw ∈ swaps) (Q : Search) :
    tryList true q.toState sws Q =
      match (q.kids sws).find? (fun k => k.isEnd) with
      | some k => .error (.exit0 (Q.printed ++ [k.toState]))
      | none => .ok { breadth_first := Q.breadth_first ++ (q.kids sws).map Quad.toState,
                      printed := Q.printed } := by
  induction sws generalizing Q with
  | nil => simp [tryList, Quad.kids]
  | cons sw rest ih =>
    have hs' : ∀ sw ∈ rest, sw ∈ swaps := fun x hx => hs x (List.mem_cons_of_mem _ hx)
    unfold tryList
    rw [try_swap_toState true Q q hq sw (hs sw (List.mem_cons_self _ _)), Quad.kids_cons]
    by_cases hl : q.legal sw = true
    · by_cases he : (q.swap sw.1 sw.2).isEnd = true
      · simp [hl, he]
      · have he' : (q.swap sw.1 sw.2).isEnd = false := by simpa using he
        simp only [hl, he', if_true, Bool.false_eq_true, if_false, List.find?_cons, ih hs']
        cases (q.kids rest).find? (fun k => k.isEnd) <;> simp
    · simp [hl, ih hs']

theorem tryList_append (eofs : Bool) (s : State) (l1 l2 : List (Char × Char)) (Q : Search) :
    tryList eofs s (l1 ++ l2) Q =
      match tryList eofs s l1 Q with
      | .ok Q1 => tryList eofs s l2 Q1
      | .error e => .error e := by
  induction l1 generalizing Q with
  | nil => rfl
  | cons sw rest ih =>
    simp only [List.cons_append, tryList]
    cases try_swap eofs Q s sw.1 sw.2 with
    | error e => rfl
    | ok Q1 => exact ih Q1

theorem tryIndices_eq (eofs : Bool) (s : State) (is : List Nat)
    (hv : ∀ i ∈ is, i < swaps.length) (Q : Search) :
    tryIndices eofs s is Q = tryList eofs s (is.filterMap swaps.get?) Q := by
  induction is generalizing Q with
  | nil => rfl
  | cons i rest ih =>
    have hi : i < swaps.length := hv i (List.mem_cons_self _ _)
    have hv' : ∀ j ∈ rest, j < swaps.length := fun j hj => hv j (List.mem_cons_of_mem _ hj)
    obtain ⟨sw, hsw⟩ : ∃ sw, swaps.get? i = some sw := ⟨swaps.get ⟨i, hi⟩, List.get?_eq_get hi⟩
    unfold tryIndices
    rw [List.filterMap_cons, hsw]
    simp only [tryList]
    cases try_swap eofs Q s sw.1 sw.2 with
    | error e => rfl
    | ok Q1 => exact ih hv' Q1

/-- One pass of the loop is the loop over the rotated catalog. -/
theorem iteration_cons (eofs : Bool) (rand : Nat) (s : State) (rest printed : List State) :
    iteration eofs rand { breadth_first := s :: rest, printed := printed } =
      tryList eofs s (rotated (rand % swaps.length))
        { breadth_first := rest, printed := printed } := by
  have hk : rand % swaps.length < swaps.length := Nat.mod_lt _ (by decide)
  unfold iteration rotated
  simp only
  rw [tryList_append, tryIndices_eq]
  · cases tryList eofs s
        ((List.range' (rand % swaps.length) (swaps.length - rand % swaps.length)).filterMap
          swaps.get?)
        { breadth_first := rest, printed := printed } with
    | error e => rfl
    | ok Q1 =>
      simp only
      rw [tryIndices_eq]
      intro i hi
      have := (List.mem_range'_1.1 hi).2
      omega
  · intro i hi
    have := (List.mem_range'_1.1 hi).2
    omega

/-- Every offset tries the whole catalog, each pair once. -/
theorem rotated_perm (k : Nat) (hk : k < swaps.length) : (rotated k).Perm swaps := by
  have hk' : k < 6 := hk
  interval_cases k <;> decide

theorem mem_rotated (r : Nat) (sw : Char × Char) :
    sw ∈ rotated (r % swaps.length) ↔ sw ∈ swaps :=
  (rotated_perm _ (Nat.mod_lt _ (by decide))).mem_iff

theorem run_add (eofs : Bool) (a b : Nat) (rands : Nat → Nat) (Q : Search) :
    run eofs (a + b) rands Q =
      match run eofs a rands Q with
      | .ok Q1 => run eofs b (fun i => rands (i + a)) Q1
      | .error e => .error e := by
  induction a generalizing rands Q with
  | zero => simp [run]
  | succ a ih =>
    have e : a + 1 + b = (a + b) + 1 := by omega
    rw [e]
    simp only [run]
    cases iteration eofs (rands 0) Q with
    | error e => rfl
    | ok Q1 =>
      simp only
      rw [ih]
      have : (fun i => (fun i => rands (i + 1)) (i + a)) = fun i => rands (i + (a + 1)) := by
        funext i; simp only; congr 1
      rw [this]

theorem Quad.mem_kids (q : Quad) (sws : List (Char × Char)) (k : Quad) :
    k ∈ q.kids sws ↔ ∃ sw ∈ sws, q.legal sw = true ∧ k = q.swap sw.1 sw.2 := by
  unfold Quad.kids
  simp only [List.mem_map, List.mem_filter]
  constructor
  · rintro ⟨sw, ⟨h1, h2⟩, rfl⟩; exact ⟨sw, h1, h2, rfl⟩
  · rintro ⟨sw, h1, h2, rfl⟩; exact ⟨sw, ⟨h1, h2⟩, rfl⟩

theorem Quad.kids_balanced (q : Quad) (hq : q.balanced = true) (sws : List (Char × Char))
    (k : Quad) (hk : k ∈ q.kids sws) : k.balanced = true := by
  obtain ⟨sw, -, hl, rfl⟩ := (Quad.mem_kids q sws k).1 hk
  obtain ⟨b1, b2, h1, h2, hb⟩ := (Quad.legal_iff q sw).1 hl
  exact Quad.swap_balanced q hq sw.1 sw.2 b1 b2 h1 h2 hb

theorem Quad.mem_kids_rotated (q : Quad) (r : Nat) (k : Quad) :
    k ∈ q.kids (rotated (r % swaps.length)) ↔ k ∈ q.kids swaps := by
  rw [Quad.mem_kids, Quad.mem_kids]
  constructor
  · rintro ⟨sw, h1, h2⟩; exact ⟨sw, (mem_rotated r sw).1 h1, h2⟩
  · rintro ⟨sw, h1, h2⟩; exact ⟨sw, (mem_rotated r sw).2 h1, h2⟩

/-! ## The exhaustive search does not drain -/

/-- Every balanced state has a legal catalog swap whose result is not an
end state. -/
theorem Quad.exists_kid_not_end (q : Quad) (hq : q.balanced = true) :
    ∃ k ∈ q.kids swaps, k.isEnd = false := by
  obtain ⟨⟨an, a1, a2, a3, a4, a5, a6⟩, ⟨bn, b1, b2, b3, b4, b5, b6⟩,
    ⟨cn, c1, c2, c3, c4, c5, c6⟩, ⟨dn, d1, d2, d3, d4, d5, d6⟩, h⟩ := q
  cases an <;> cases bn <;> cases cn <;> cases dn <;>
  first
    | exact Bool.noConfusion hq
    | exact ⟨_, (Quad.mem_kids _ _ _).2 ⟨('A', 'C'), by decide, rfl, rfl⟩, rfl⟩
    | exact ⟨_, (Quad.mem_kids _ _ _).2 ⟨('A', 'B'), by decide, rfl, rfl⟩, rfl⟩

theorem iteration_false_good (q : Quad) (hq : q.balanced = true) (rand : Nat)
    (rest printed : List State) :
    iteration false rand { breadth_first := q.toState :: rest, printed := printed } = .ok
      { breadth_first := rest ++
          ((q.kids (rotated (rand % swaps.length))).filter (fun k => !k.isEnd)).map Quad.toState,
        printed := printed ++
          ((q.kids (rotated (rand % swaps.length))).filter (fun k => k.isEnd)).map
            Quad.toState } := by
  rw [iteration_cons, tryList_false q hq _ (fun sw h => (mem_rotated rand sw).1 h)]

theorem allGood_kids (q : Quad) (hq : q.balanced = true) (sws : List (Char × Char))
    (P : Quad → Bool) : AllGood (((q.kids sws).filter P).map Quad.toState) := by
  intro t ht
  obtain ⟨k, hk, rfl⟩ := List.mem_map.1 ht
  exact ⟨k, Quad.kids_balanced q hq sws k (List.mem_filter.1 hk).1, rfl⟩

theorem run_false_nonempty (n : Nat) (rands : Nat → Nat) (Q : Search)
    (hg : AllGood Q.breadth_first) (hne : Q.breadth_first ≠ []) :
    ∃ Q', run false n rands Q = .ok Q' ∧ AllGood Q'.breadth_first ∧ Q'.breadth_first ≠ [] := by
  induction n generalizing rands Q with
  | zero => exact ⟨Q, rfl, hg, hne⟩
  | succ n ih =>
    obtain ⟨bf, printed⟩ := Q
    cases bf with
    | nil => exact absurd rfl hne
    | cons s rest =>
      obtain ⟨q, hq, rfl⟩ := hg s (List.mem_cons_self _ _)
      unfold run
      rw [iteration_false_good q hq]
      apply ih
      · intro t ht
        rcases List.mem_append.1 ht with h | h
        · exact hg t (List.mem_cons_of_mem _ h)
        · exact allGood_kids q hq _ _ t h
      · obtain ⟨k, hk, he⟩ := Quad.exists_kid_not_end q hq
        have hk' := (Quad.mem_kids_rotated q (rands 0) k).2 hk
        intro hnil
        have hmem : k.toState ∈ rest ++
            ((q.kids (rotated (rands 0 % swaps.length))).filter (fun k => !k.isEnd)).map
              Quad.toState :=
          List.mem_append_right _
            (List.mem_map.2 ⟨k, List.mem_filter.2 ⟨hk', by simp [he]⟩, rfl⟩)
        simp only at hnil
        rw [hnil] at hmem
        cases hmem

theorem seed_eq : seed = .ok Quad.seed.toState := rfl

theorem search_eq (eofs : Bool) (n : Nat) (rands : Nat → Nat) :
    search eofs n rands =
      run eofs n rands { breadth_first := [Quad.seed.toState], printed := [] } := rfl

theorem allGood_seed : AllGood [Quad.seed.toState] := by
  intro t ht
  rw [List.mem_singleton] at ht
  exact ⟨Quad.seed, rfl, ht⟩

/-- Claim C8, amended. With early exit disabled the main loop never reaches
an empty worklist: for every sequence of `rand()` values and every number
`n`, the first `n` passes of the loop run without fault or exit and leave a
non-empty worklist. -/
theorem search_never_drains (rands : Nat → Nat) (n : Nat) :
    ∃ Q, search false n rands = .ok Q ∧ Q.breadth_first ≠ [] := by
  obtain ⟨Q', h, -, hne⟩ := run_false_nonempty n rands
    { breadth_first := [Quad.seed.toState], printed := [] } allGood_seed (by simp)
  exact ⟨Q', by rw [search_eq]; exact h, hne⟩

/-- Claim C8 as stated fails. With `rand()` always returning `0` the
worklist is never empty, after any number of passes. -/
theorem search_drains_refuted :
    ¬ ∃ n Q, search false n (fun _ => 0) = .ok Q ∧ Q.breadth_first = [] := by
  rintro ⟨n, Q, h, he⟩
  obtain ⟨Q', h', -, hne⟩ := run_false_nonempty n (fun _ => 0)
    { breadth_first := [Quad.seed.toState], printed := [] } allGood_seed (by simp)
  rw [search_eq, h'] at h
  cases h
  exact hne he

/-! ## The order of expansion does not matter -/

theorem Quad.Enq.balanced {q : Quad} (h : Quad.Enq q) : q.balanced = true := by
  induction h with
  | seed => rfl
  | step q sw _ _ hl _ ih =>
    obtain ⟨b1, b2, h1, h2, hb⟩ := (Quad.legal_iff q sw).1 hl
    exact Quad.swap_balanced q ih sw.1 sw.2 b1 b2 h1 h2 hb

theorem run_succ (eofs : Bool) (a : Nat) (rands : Nat → Nat) (Q : Search) :
    run eofs (a + 1) rands Q =
      match run eofs a rands Q with
      | .ok Q1 => iteration eofs (rands a) Q1
      | .error e => .error e := by
  rw [run_add]
  cases run eofs a rands Q with
  | error e => rfl
  | ok Q1 =>
    simp only [run, Nat.zero_add]
    cases iteration eofs (rands a) Q1 <;> rfl

/-- One pass of the exhaustive search on a sound state with `q` at the head:
the pass returns, the state stays sound, the rest of the deque keeps its
place, and every result of a legal catalog swap on `q` is printed or
enqueued. -/
theorem expand_false (q : Quad) (hq : q.balanced = true) (he : Quad.Enq q) (rand : Nat)
    (rest printed : List State)
    (hs : Sound { breadth_first := q.toState :: rest, printed := printed }) :
    ∃ Q', iteration false rand { breadth_first := q.toState :: rest, printed := printed } =
        .ok Q' ∧ Sound Q' ∧ (∃ more, Q'.breadth_first = rest ++ more) ∧
      (∀ k ∈ q.kids swaps, (k.isEnd = false → k.toState ∈ Q'.breadth_first) ∧
        (k.isEnd = true → k.toState ∈ Q'.printed)) := by
  refine ⟨_, iteration_false_good q hq rand rest printed, ⟨?_, ?_⟩, ⟨_, rfl⟩, ?_⟩
  · intro t ht
    rcases List.mem_append.1 ht with h | h
    · exact hs.1 t (List.mem_cons_of_mem _ h)
    · obtain ⟨k, hk, rfl⟩ := List.mem_map.1 h
      obtain ⟨hk1, hk2⟩ := List.mem_filter.1 hk
      obtain ⟨sw, hsw, hl, rfl⟩ := (Quad.mem_kids q swaps k).1
        ((Quad.mem_kids_rotated q rand k).1 hk1)
      have hend : (q.swap sw.1 sw.2).isEnd = false := by simpa using hk2
      have hen := Quad.Enq.step q sw he hsw hl hend
      exact ⟨_, hen.balanced, hen, rfl⟩
  · intro t ht
    rcases List.mem_append.1 ht with h | h
    · exact hs.2 t h
    · obtain ⟨k, hk, rfl⟩ := List.mem_map.1 h
      obtain ⟨hk1, hk2⟩ := List.mem_filter.1 hk
      obtain ⟨sw, hsw, hl, rfl⟩ := (Quad.mem_kids q swaps k).1
        ((Quad.mem_kids_rotated q rand k).1 hk1)
      exact ⟨_, ⟨q, sw, he, hsw, hl, rfl, hk2⟩, rfl⟩
  · intro k hk
    have hk' := (Quad.mem_kids_rotated q rand k).2 hk
    constructor
    · intro hend
      exact List.mem_append_right _
        (List.mem_map.2 ⟨k, List.mem_filter.2 ⟨hk', by simp [hend]⟩, rfl⟩)
    · intro hend
      exact List.mem_append_right _
        (List.mem_map.2 ⟨k, List.mem_filter.2 ⟨hk', hend⟩, rfl⟩)

/-- The exhaustive search never faults and stays sound. -/
theorem run_false_sound (n : Nat) (rands : Nat → Nat) (Q : Search) (hs : Sound Q) :
    ∃ Q', run false n rands Q = .ok Q' ∧ Sound Q' := by
  induction n generalizing rands Q with
  | zero => exact ⟨Q, rfl, hs⟩
  | succ n ih =>
    obtain ⟨bf, printed⟩ := Q
    cases bf with
    | nil =>
      obtain ⟨Q', h, hs'⟩ := ih (fun i => rands (i + 1)) _ hs
      exact ⟨Q', by simpa [run, iteration] using h, hs'⟩
    | cons s rest =>
      obtain ⟨q, hq, he, rfl⟩ := hs.1 s (List.mem_cons_self _ _)
      obtain ⟨Q1, h1, hs1, -, -⟩ := expand_false q hq he (rands 0) rest printed hs
      obtain ⟨Q', h, hs'⟩ := ih (fun i => rands (i + 1)) Q1 hs1
      refine ⟨Q', ?_, hs'⟩
      unfold run
      rw [h1]
      exact h

/-- A state in the deque reaches the head after as many passes as there are
states before it. -/
theorem head_false (pre : List State) (t : State) (post printed : List State)
    (rands : Nat → Nat)
    (hs : Sound { breadth_first := pre ++ t :: post, printed := printed }) :
    ∃ Q' post', run false pre.length rands
        { breadth_first := pre ++ t :: post, printed := printed } = .ok Q' ∧
      Sound Q' ∧ Q'.breadth_first = t :: post' := by
  induction pre generalizing post printed rands with
  | nil => exact ⟨_, post, rfl, hs, rfl⟩
  | cons s pre ih =>
    obtain ⟨q, hq, he, rfl⟩ := hs.1 s (List.mem_cons_self _ _)
    obtain ⟨Q1, h1, hs1, ⟨more, hm⟩, -⟩ :=
      expand_false q hq he (rands 0) (pre ++ t :: post) printed hs
    obtain ⟨bf1, pr1⟩ := Q1
    simp only at hm
    subst hm
    rw [List.append_assoc, List.cons_append] at hs1 h1
    obtain ⟨Q', post', h, hs', hb⟩ := ih (post ++ more) pr1 (fun i => rands (i + 1)) hs1
    refine ⟨Q', post', ?_, hs', hb⟩
    simp only [List.length_cons, List.cons_append, run]
    rw [h1]
    exact h

theorem sound_start : Sound Search.start := by
  refine ⟨?_, ?_⟩
  · intro t ht
    simp only [Search.start, List.mem_singleton] at ht
    exact ⟨Quad.seed, rfl, Quad.Enq.seed, ht⟩
  · intro t ht
    simp [Search.start] at ht

/-- After some number of passes, a state of the deque has been expanded. -/
theorem expanded_false (q : Quad) (he : Quad.Enq q) (rands : Nat → Nat) (n : Nat) (Q : Search)
    (hr : run false n rands Search.start = .ok Q) (hs : Sound Q)
    (hm : q.toState ∈ Q.breadth_first) :
    ∃ m Q', run false m rands Search.start = .ok Q' ∧ Sound Q' ∧
      (∀ k ∈ q.kids swaps, (k.isEnd = false → k.toState ∈ Q'.breadth_first) ∧
        (k.isEnd = true → k.toState ∈ Q'.printed)) := by
  obtain ⟨pre, post, hsplit⟩ := List.append_of_mem hm
  obtain ⟨bf, printed⟩ := Q
  simp only at hsplit
  subst hsplit
  obtain ⟨Q1, post', h1, hs1, hb⟩ :=
    head_false pre q.toState post printed (fun i => rands (i + n)) hs
  obtain ⟨bf1, pr1⟩ := Q1
  simp only at hb
  subst hb
  obtain ⟨Q2, h2, hs2, -, hk⟩ :=
    expand_false q he.balanced he (rands (n + pre.length)) post' pr1 hs1
  refine ⟨n + pre.length + 1, Q2, ?_, hs2, hk⟩
  rw [run_succ, run_add, hr]
  simp only
  rw [h1]
  simpa [Nat.add_comm] using h2

/-- Every state listed by `Quad.Enq` gets into the deque, for every order of
expansion. -/
theorem enq_complete (q : Quad) (he : Quad.Enq q) (rands : Nat → Nat) :
    ∃ n Q, run false n rands Search.start = .ok Q ∧ Sound Q ∧
      q.toState ∈ Q.breadth_first := by
  induction he with
  | seed => exact ⟨0, Search.start, rfl, sound_start, by simp [Search.start]⟩
  | step q sw hq hsw hl hend ih =>
    obtain ⟨n, Q, hr, hs, hm⟩ := ih
    obtain ⟨m, Q', hr', hs', hk⟩ := expanded_false q hq rands n Q hr hs hm
    exact ⟨m, Q', hr', hs',
      (hk _ ((Quad.mem_kids q swaps _).2 ⟨sw, hsw, hl, rfl⟩)).1 hend⟩

/-- Every state listed by `Quad.Rep` gets printed, for every order of
expansion. -/
theorem rep_complete (k : Quad) (hk : Quad.Rep k) (rands : Nat → Nat) :
    ∃ n Q, run false n rands Search.start = .ok Q ∧ k.toState ∈ Q.printed := by
  obtain ⟨q, sw, he, hsw, hl, rfl, hend⟩ := hk
  obtain ⟨n, Q, hr, hs, hm⟩ := enq_complete q he rands
  obtain ⟨m, Q', hr', -, hk⟩ := expanded_false q he rands n Q hr hs hm
  exact ⟨m, Q', hr', (hk _ ((Quad.mem_kids q swaps _).2 ⟨sw, hsw, hl, rfl⟩)).2 hend⟩

theorem reported_iff (rands : Nat → Nat) (t : State) :
    t ∈ reported rands ↔ ∃ k, Quad.Rep k ∧ t = k.toState := by
  constructor
  · rintro ⟨n, Q, hr, ht⟩
    obtain ⟨Q', hr', hs'⟩ := run_false_sound n rands Search.start sound_start
    rw [search_eq] at hr
    have : Q' = Q := by
      have := hr'.symm.trans hr
      exact Except.ok.inj this
    subst this
    exact hs'.2 t ht
  · rintro ⟨k, hk, rfl⟩
    obtain ⟨n, Q, hr, hm⟩ := rep_complete k hk rands
    exact ⟨n, Q, by rw [search_eq]; exact hr, hm⟩

theorem enqueued_iff (rands : Nat → Nat) (t : State) :
    t ∈ enqueued rands ↔ ∃ q, Quad.Enq q ∧ t = q.toState := by
  constructor
  · rintro ⟨n, Q, hr, ht⟩
    obtain ⟨Q', hr', hs'⟩ := run_false_sound n rands Search.start sound_start
    rw [search_eq] at hr
    have : Q' = Q := by
      have := hr'.symm.trans hr
      exact Except.ok.inj this
    subst this
    obtain ⟨q, -, he, rfl⟩ := hs'.1 t ht
    exact ⟨q, he, rfl⟩
  · rintro ⟨q, he, rfl⟩
    obtain ⟨n, Q, hr, -, hm⟩ := enq_complete q he rands
    exact ⟨n, Q, by rw [search_eq]; exact hr, hm⟩

theorem enq_of_quiet (path : List (Char × Char)) (q : Quad) (he : Quad.Enq q)
    (hq : q.quiet path = true) : Quad.Enq (q.after path) := by
  induction path generalizing q with
  | nil => exact he
  | cons sw rest ih =>
    unfold Quad.quiet at hq
    simp only [Bool.and_eq_true, decide_eq_true_eq, Bool.not_eq_true'] at hq
    obtain ⟨⟨⟨h1, h2⟩, h3⟩, h4⟩ := hq
    exact ih _ (Quad.Enq.step q sw he h1 h2 h3) h4

/-- The twelve-swap solution is reported whatever the order of expansion. -/
theorem twelve_reported (rands : Nat → Nat) :
    ∃ t ∈ reported rands, t.swap_history = twelve := by
  have he : Quad.Enq (Quad.seed.after twelve.tail.dropLast) :=
    enq_of_quiet twelve.tail.dropLast Quad.seed Quad.Enq.seed rfl
  have hr : Quad.Rep ((Quad.seed.after twelve.tail.dropLast).swap 'A' 'D') :=
    ⟨_, ('A', 'D'), he, by decide, rfl, rfl, rfl⟩
  exact ⟨_, (reported_iff rands _).2 ⟨_, hr, rfl⟩, rfl⟩

/-- Claim C9. Randomized exploration order is cosmetic: with early exit
disabled, for any two sequences of `rand()` values the search runs without
fault for any number of passes, and the set of reported states, the set of
their swap histories, and the set of states ever enqueued are the same; in
particular, for every `n`, the reported states and the enqueued states with
a history of length `n` are the same.  The sets are not empty: the
twelve-swap solution is always among the reported states. -/
theorem order_is_cosmetic (r1 r2 : Nat → Nat) :
    (∀ n, ∃ Q, search false n r1 = .ok Q) ∧ (∃ t ∈ reported r1, t.swap_history = twelve) ∧
    reported r1 = reported r2 ∧ enqueued r1 = enqueued r2 ∧
    (fun t : State => t.swap_history) '' reported r1 =
      (fun t : State => t.swap_history) '' reported r2 ∧
    (∀ n, {t | t ∈ reported r1 ∧ t.swap_history.length = n} =
      {t | t ∈ reported r2 ∧ t.swap_history.length = n}) ∧
    (∀ n, {t | t ∈ enqueued r1 ∧ t.swap_history.length = n} =
      {t | t ∈ enqueued r2 ∧ t.swap_history.length = n}) := by
  have hr : reported r1 = reported r2 := by
    ext t; rw [reported_iff, reported_iff]
  have he : enqueued r1 = enqueued r2 := by
    ext t; rw [enqueued_iff, enqueued_iff]
  refine ⟨?_, twelve_reported r1, hr, he, by rw [hr], fun n => by rw [hr],
    fun n => by rw [he]⟩
  intro n
  obtain ⟨Q, h, -⟩ := run_false_sound n r1 Search.start sound_start
  exact ⟨Q, by rw [search_eq]; exact h⟩

/-! ## The search with early exit -/

theorem iteration_true_good (q : Quad) (hq : q.balanced = true) (rand : Nat)
    (rest printed : List State) :
    iteration true rand { breadth_first := q.toState :: rest, printed := printed } =
      match (q.kids (rotated (rand % swaps.length))).find? (fun k => k.isEnd) with
      | some k => .error (.exit0 (printed ++ [k.toState]))
      | none => .ok { breadth_first := rest ++
                        (q.kids (rotated (rand % swaps.length))).map Quad.toState,
                      printed := printed } := by
  rw [iteration_cons, tryList_true q hq _ (fun sw h => (mem_rotated rand sw).1 h)]

/-- One pass with early exit on a balanced state `q` at the head: either
the run exits with one end state printed, or no result of a legal catalog
swap on `q` is an end state and all of them are enqueued. -/
theorem step_true (q : Quad) (hq : q.balanced = true) (rand : Nat) (rest : List State)
    (hg : AllGood rest) :
    (∃ k : Quad, iteration true rand { breadth_first := q.toState :: rest, printed := [] } =
        .error (.exit0 [k.toState]) ∧ k.balanced = true ∧ k.isEnd = true) ∨
      (∃ bf, iteration true rand { breadth_first := q.toState :: rest, printed := [] } =
        .ok { breadth_first := bf, printed := [] } ∧ AllGood bf ∧
        ∀ k ∈ q.kids swaps, k.isEnd = false ∧ k.toState ∈ bf) := by
  rw [iteration_true_good q hq]
  cases hf : (q.kids (rotated (rand % swaps.length))).find? (fun k => k.isEnd) with
  | some k =>
    left
    refine ⟨k, rfl, Quad.kids_balanced q hq _ k (List.mem_of_find?_eq_some hf), ?_⟩
    exact List.find?_some hf
  | none =>
    right
    refine ⟨_, rfl, ?_, ?_⟩
    · intro t ht
      rcases List.mem_append.1 ht with h | h
      · exact hg t h
      · obtain ⟨k, hk, rfl⟩ := List.mem_map.1 h
        exact ⟨k, Quad.kids_balanced q hq _ k hk, rfl⟩
    · intro k hk
      have hk' := (Quad.mem_kids_rotated q rand k).2 hk
      have := List.find?_eq_none.1 hf k hk'
      exact ⟨by simpa using this, List.mem_append_right _ (List.mem_map.2 ⟨k, hk', rfl⟩)⟩

theorem exits_of_run (rands : Nat → Nat) (m : Nat) (bf bf' : List State)
    (hr : run true m rands { breadth_first := bf, printed := [] } =
      .ok { breadth_first := bf', printed := [] })
    (he : Exits (fun i => rands (i + m)) bf') : Exits rands bf := by
  obtain ⟨n, k, h, hb, hk⟩ := he
  refine ⟨m + n, k, ?_, hb, hk⟩
  rw [run_add, hr]
  exact h

/-- With early exit, a state in the deque reaches the head unless the run
exits before. -/
theorem head_true (pre : List State) (t : State) (post : List State) (rands : Nat → Nat)
    (hg : AllGood (pre ++ t :: post)) :
    Exits rands (pre ++ t :: post) ∨
      ∃ post', run true pre.length rands { breadth_first := pre ++ t :: post, printed := [] } =
        .ok { breadth_first := t :: post', printed := [] } ∧ AllGood (t :: post') := by
  induction pre generalizing post rands with
  | nil => exact Or.inr ⟨post, rfl, hg⟩
  | cons s pre ih =>
    obtain ⟨q, hq, rfl⟩ := hg s (List.mem_cons_self _ _)
    have hg' : AllGood (pre ++ t :: post) := fun x hx => hg x (List.mem_cons_of_mem _ hx)
    rcases step_true q hq (rands 0) (pre ++ t :: post) hg' with ⟨k, h, hb, hk⟩ | ⟨bf, h, hgb, hkids⟩
    · left
      refine ⟨1, k, ?_, hb, hk⟩
      simp only [List.cons_append, run]
      rw [h]
    · have hbf : ∃ more, bf = pre ++ t :: (post ++ more) := by
        rw [iteration_true_good q hq] at h
        cases hf : (q.kids (rotated (rands 0 % swaps.length))).find? (fun k => k.isEnd) with
        | some k => rw [hf] at h; cases h
        | none =>
          rw [hf] at h
          simp only [Except.ok.injEq, Search.mk.injEq, and_true] at h
          exact ⟨_, by rw [← h, List.append_assoc, List.cons_append]⟩
      obtain ⟨more, rfl⟩ := hbf
      have h1 : run true 1 rands (Search.mk ((q.toState :: pre) ++ t :: post) []) =
          .ok (Search.mk (pre ++ t :: (post ++ more)) []) := by
        simp only [List.cons_append, run]
        rw [h]
      rcases ih (post ++ more) (fun i => rands (i + 1)) hgb with he | ⟨post', hr, hgp⟩
      · exact Or.inl (exits_of_run rands 1 _ _ h1 he)
      · right
        refine ⟨post', ?_, hgp⟩
        have e : (q.toState :: pre).length = 1 + pre.length := by
          simp [Nat.add_comm]
        rw [e, run_add, h1]
        exact hr

/-- With early exit, a state in the deque from which some sequence of legal
catalog swaps leads to an end state makes the run exit. -/
theorem exits_of_path (path : List (Char × Char)) (q qf : Quad) (hq : q.balanced = true)
    (hp : ∀ sw ∈ path, sw ∈ swaps) (hne : path ≠ []) (ha : q.apply path = some qf)
    (hf : qf.isEnd = true) (bf : List State) (rands : Nat → Nat) (hg : AllGood bf)
    (hm : q.toState ∈ bf) : Exits rands bf := by
  induction path generalizing q bf rands with
  | nil => exact absurd rfl hne
  | cons sw rest ih =>
    have hsw : sw ∈ swaps := hp sw (List.mem_cons_self _ _)
    have hp' : ∀ x ∈ rest, x ∈ swaps := fun x hx => hp x (List.mem_cons_of_mem _ hx)
    -- the first swap of the path is legal
    obtain ⟨hl, ha'⟩ : q.legal sw = true ∧ (q.swap sw.1 sw.2).apply rest = some qf := by
      obtain ⟨n1, n2⟩ := sw
      unfold Quad.apply at ha
      unfold Quad.legal
      cases h1 : q.station n1 with
      | none => simp [h1] at ha
      | some b1 =>
        cases h2 : q.station n2 with
        | none => simp [h1, h2] at ha
        | some b2 =>
          by_cases hb : b1 = b2
          · simp [h1, h2, hb] at ha
          · simp only [h1, h2, hb, if_false] at ha
            exact ⟨by simpa using hb, ha⟩
    have hkid : q.swap sw.1 sw.2 ∈ q.kids swaps :=
      (Quad.mem_kids q swaps _).2 ⟨sw, hsw, hl, rfl⟩
    obtain ⟨pre, post, rfl⟩ := List.append_of_mem hm
    rcases head_true pre q.toState post rands hg with he | ⟨post', hr, hgp⟩
    · exact he
    · have hgp' : AllGood post' := fun x hx => hgp x (List.mem_cons_of_mem _ hx)
      rcases step_true q hq (rands pre.length) post' hgp' with
        ⟨k, h, hb, hk⟩ | ⟨bf', h, hgb, hkids⟩
      · refine ⟨pre.length + 1, k, ?_, hb, hk⟩
        rw [run_succ, hr]
        exact h
      · obtain ⟨hend, hmem⟩ := hkids _ hkid
        have hrest : rest ≠ [] := by
          rintro rfl
          simp only [Quad.apply, Option.some.injEq] at ha'
          rw [ha', hf] at hend
          cases hend
        have hbal : (q.swap sw.1 sw.2).balanced = true := Quad.kids_balanced q hq _ _ hkid
        have hrun : run true (pre.length + 1) rands
            { breadth_first := pre ++ q.toState :: post, printed := [] } =
            .ok { breadth_first := bf', printed := [] } := by
          rw [run_succ, hr]
          exact h
        exact exits_of_run rands (pre.length + 1) _ _ hrun
          (ih (q.swap sw.1 sw.2) hbal hp' hrest ha' bf' _ hgb hmem)

/-- What the goal test says of an accepted state in normal form. -/
theorem Quad.isEnd_props (k : Quad) (h : k.isEnd = true) :
    (∀ e ∈ k.toState.rangers, e.2.is_end_state = true ∧ e.2.north_count = e.2.south_count ∧
        ∀ x ∈ e.2.paired_count, ∀ y ∈ e.2.paired_count, x.2 = y.2) ∧
      (∃ ra rb, mapFind k.toState.rangers 'A' = some ra ∧
        mapFind k.toState.rangers 'B' = some rb ∧ ra.is_north = true ∧ rb.is_north = true) ∧
      (∀ e ∈ k.toState.rangers, ∀ e' ∈ k.toState.rangers,
        e.2.moved_count = e'.2.moved_count) := by
  unfold Quad.isEnd at h
  simp only [Bool.and_eq_true, decide_eq_true_eq] at h
  obtain ⟨⟨⟨⟨⟨⟨⟨⟨na, nb⟩, fa⟩, fb⟩, fc⟩, fd⟩, m1⟩, m2⟩, m3⟩ := h
  have fair : ∀ (x : Cell) (name k1 k2 k3 : Char), x.fair = true →
      (x.toRanger name k1 k2 k3).is_end_state = true ∧
      (x.toRanger name k1 k2 k3).north_count = (x.toRanger name k1 k2 k3).south_count ∧
      ∀ u ∈ (x.toRanger name k1 k2 k3).paired_count,
        ∀ v ∈ (x.toRanger name k1 k2 k3).paired_count, u.2 = v.2 := by
    intro x name k1 k2 k3 hx
    refine ⟨by rw [Cell.fair_toRanger]; exact hx, ?_⟩
    unfold Cell.fair at hx
    simp only [Bool.and_eq_true, decide_eq_true_eq] at hx
    obtain ⟨⟨e1, e2⟩, e3⟩ := hx
    refine ⟨e1, ?_⟩
    intro u hu v hv
    simp only [Cell.toRanger, List.mem_cons, List.mem_singleton, List.not_mem_nil,
      or_false] at hu hv
    rcases hu with rfl | rfl | rfl <;> rcases hv with rfl | rfl | rfl <;> simp only <;> omega
  refine ⟨?_, ⟨_, _, rfl, rfl, na, nb⟩, ?_⟩
  · intro e he
    simp only [Quad.toState, List.mem_cons, List.mem_singleton, List.not_mem_nil,
      or_false] at he
    rcases he with rfl | rfl | rfl | rfl
    · exact fair _ _ _ _ _ fa
    · exact fair _ _ _ _ _ fb
    · exact fair _ _ _ _ _ fc
    · exact fair _ _ _ _ _ fd
  · intro e he e' he'
    simp only [Quad.toState, List.mem_cons, List.mem_singleton, List.not_mem_nil,
      or_false] at he he'
    rcases he with rfl | rfl | rfl | rfl <;> rcases he' with rfl | rfl | rfl | rfl <;>
      simp only [Cell.toRanger] <;> omega

theorem twelve_tail_in_swaps : ∀ sw ∈ twelve.tail, sw ∈ swaps := by decide

/-- Claim C7. First-solution scenario: with `end_on_first_solution` enabled,
for every sequence of `rand()` values the search started from the seeded
worklist exits after finitely many passes of the loop, having reported
exactly one state; that state is accepted by `is_end_state({A, B})`, every
ranger in it satisfies `Ranger::is_end_state` (its `north_count` equals its
`south_count` and all its `paired_count` values are equal), `A` and `B` are
north, and all `moved_count` values are equal. -/
theorem first_solution (rands : Nat → Nat) :
    ∃ n t, search true n rands = .error (.exit0 [t]) ∧
      t.is_end_state end_north = .ok true ∧ mapKeys t.rangers = names ∧
      (∀ e ∈ t.rangers, e.2.is_end_state = true ∧ e.2.north_count = e.2.south_count ∧
        ∀ x ∈ e.2.paired_count, ∀ y ∈ e.2.paired_count, x.2 = y.2) ∧
      (∃ ra rb, mapFind t.rangers 'A' = some ra ∧ mapFind t.rangers 'B' = some rb ∧
        ra.is_north = true ∧ rb.is_north = true) ∧
      (∀ e ∈ t.rangers, ∀ e' ∈ t.rangers, e.2.moved_count = e'.2.moved_count) := by
  obtain ⟨n, k, hr, -, hk⟩ := exits_of_path twelve.tail Quad.seed
    ((Quad.seed.apply twelve.tail).getD Quad.seed) rfl twelve_tail_in_swaps (by decide) rfl rfl
    [Quad.seed.toState] rands allGood_seed (List.mem_singleton.2 rfl)
  obtain ⟨p1, p2, p3⟩ := Quad.isEnd_props k hk
  refine ⟨n, k.toState, by rw [search_eq]; exact hr, ?_, rfl, p1, p2, p3⟩
  rw [Quad.isEnd_toState, hk]

/-! ## The seed -/

/-- Claim C11. Seed scenario: from the state with `A` and `B` north, `C` and
`D` south and all counters zero (`initial` is that state), the forced
opening call `swap('A', 'C')` returns `true`, as `A` and `C` are at
different stations; the resulting state is the only element of the initial
worklist, nothing has been printed, and `is_end_state({A, B})` returns
`false` on it. -/
theorem seed_scenario :
    initial = Quad.initial.toState ∧
      (∃ ra rc, mapFind initial.rangers 'A' = some ra ∧ mapFind initial.rangers 'C' = some rc ∧
        ra.is_north = true ∧ rc.is_north = false) ∧
      ∃ s, initial.swap 'A' 'C' = .ok (true, s) ∧ seed = .ok s ∧
        s.swap_history = [('A', 'C')] ∧
        (∀ eofs rands, search eofs 0 rands = .ok { breadth_first := [s], printed := [] }) ∧
        s.is_end_state end_north = .ok false :=
  ⟨rfl, ⟨_, _, rfl, rfl, rfl, rfl⟩, Quad.seed.toState, rfl, rfl, rfl, fun _ _ => rfl, rfl⟩

/-! ## The fairness test of one ranger -/

/-- The loop of `Ranger::is_end_state` accepts exactly when all values are
equal to one another and, unless `first` is set, to the value carried in. -/
theorem Ranger.pairedLoop_iff (l : List (Char × Int)) (first : Bool) (count : Int) :
    Ranger.pairedLoop l first count = true ↔
      (∀ x ∈ l, ∀ y ∈ l, x.2 = y.2) ∧ (first = false → ∀ x ∈ l, x.2 = count) := by
  induction l generalizing first count with
  | nil => simp [Ranger.pairedLoop]
  | cons e rest ih =>
    obtain ⟨n, c⟩ := e
    unfold Ranger.pairedLoop
    cases first with
    | true =>
      simp only [if_true, ih]
      constructor
      · rintro ⟨h2, h3⟩
        have h3 := h3 trivial
        refine ⟨?_, fun h => absurd h (by simp)⟩
        intro x hx y hy
        rcases List.mem_cons.1 hx with rfl | hx <;> rcases List.mem_cons.1 hy with rfl | hy
        · rfl
        · exact (h3 y hy).symm
        · exact h3 x hx
        · exact h2 x hx y hy
      · rintro ⟨h2, -⟩
        exact ⟨fun x hx y hy => h2 x (List.mem_cons_of_mem _ hx) y (List.mem_cons_of_mem _ hy),
          fun _ x hx => h2 x (List.mem_cons_of_mem _ hx) (n, c) (List.mem_cons_self _ _)⟩
    | false =>
      by_cases hm : count = c
      · subst hm
        simp only [Bool.false_eq_true, if_false, bne_self_eq_false, ih]
        constructor
        · rintro ⟨h2, h3⟩
          have h3 := h3 trivial
          refine ⟨?_, ?_⟩
          · intro x hx y hy
            rcases List.mem_cons.1 hx with rfl | hx <;> rcases List.mem_cons.1 hy with rfl | hy
            · rfl
            · exact (h3 y hy).symm
            · exact h3 x hx
            · exact h2 x hx y hy
          · intro _ x hx
            rcases List.mem_cons.1 hx with rfl | hx
            · rfl
            · exact h3 x hx
        · rintro ⟨h2, h3⟩
          exact ⟨fun x hx y hy => h2 x (List.mem_cons_of_mem _ hx) y (List.mem_cons_of_mem _ hy),
            fun _ x hx => h3 trivial x (List.mem_cons_of_mem _ hx)⟩
      · have hm' : (count != c) = true := by simpa using hm
        simp only [Bool.false_eq_true, if_false, hm', if_true]
        constructor
        · intro h; exact absurd h (by simp)
        · rintro ⟨-, h3⟩
          exact absurd (h3 trivial (n, c) (List.mem_cons_self _ _)).symm hm

/-- Claim C12. `Ranger::is_end_state` equals its specification: for every
ranger record the call returns `true` exactly when `north_count` equals
`south_count` and all values stored in `paired_count` are equal to one
another; with an empty `paired_count` the result is exactly
`north_count == south_count`. -/
theorem ranger_is_end_state_iff (r : Ranger) :
    (r.is_end_state = true ↔
      (r.north_count = r.south_count ∧
        ∀ x ∈ r.paired_count, ∀ y ∈ r.paired_count, x.2 = y.2)) ∧
    (r.paired_count = [] → (r.is_end_state = true ↔ r.north_count = r.south_count)) := by
  have key : r.is_end_state = true ↔
      (r.north_count = r.south_count ∧
        ∀ x ∈ r.paired_count, ∀ y ∈ r.paired_count, x.2 = y.2) := by
    unfold Ranger.is_end_state
    by_cases h : r.north_count = r.south_count
    · simp [h, Ranger.pairedLoop_iff]
    · have h' : (r.north_count != r.south_count) = true := by simpa using h
      simp [h', h]
  refine ⟨key, fun he => ?_⟩
  rw [key, he]
  simp

theorem ranger_is_end_state_iff_witness :
    ((Ranger.new 'A' true).is_end_state = true ↔
      (Ranger.new 'A' true).north_count = (Ranger.new 'A' true).south_count) :=
  (ranger_is_end_state_iff (Ranger.new 'A' true)).2 rfl

/-! ## Incrementing a pair counter -/

/-- Claim C17, amended. `Ranger::increment_paired_count` fails exactly on
unregistered names: for every ranger record and every name `n` the call hits
the failing assertion exactly when `paired_count` has no entry for `n`; when
there is an entry the call returns, the lookup of every other name is as
before, the names with an entry are the same, and every other field of the
ranger is unchanged; and when the value of the entry is an `int` below
`INT_MAX`, the entry is one higher afterwards. -/
theorem increment_paired_count_spec (r : Ranger) (n : Char) :
    (r.increment_paired_count n = .error .assertion ↔ mapFind r.paired_count n = none) ∧
    (∀ c, mapFind r.paired_count n = some c →
      ∃ r', r.increment_paired_count n = .ok r' ∧
        (INT_MIN ≤ c → c < INT_MAX → mapFind r'.paired_count n = some (c + 1)) ∧
        (∀ m, m ≠ n → mapFind r'.paired_count m = mapFind r.paired_count m) ∧
        mapKeys r'.paired_count = mapKeys r.paired_count ∧
        r'.name = r.name ∧ r'.is_north = r.is_north ∧ r'.north_count = r.north_count ∧
        r'.south_count = r.south_count ∧ r'.moved_count = r.moved_count) := by
  unfold Ranger.increment_paired_count
  constructor
  · cases h : mapFind r.paired_count n with
    | none => simp
    | some c => simp
  · intro c hc
    rw [hc]
    refine ⟨_, rfl, ?_, ?_, mapKeys_mapModify _ _ _, rfl, rfl, rfl, rfl, rfl⟩
    · intro h0 h1
      simp only
      rw [mapFind_mapModify, if_pos rfl, hc, ← incr_eq c h0 h1]; rfl
    · intro m hm
      simp only
      rw [mapFind_mapModify, if_neg (fun e => hm e.symm)]

theorem increment_paired_count_spec_witness :
    ∃ r', (Quad.initial.a.toRanger 'A' 'B' 'C' 'D').increment_paired_count 'C' = .ok r' ∧
      mapFind r'.paired_count 'C' = some 1 ∧ mapFind r'.paired_count 'B' = some 0 := by
  obtain ⟨r', h, h1, h2, -⟩ :=
    (increment_paired_count_spec (Quad.initial.a.toRanger 'A' 'B' 'C' 'D') 'C').2 0 rfl
  exact ⟨r', h, h1 (by decide) (by decide), by rw [h2 'B' (by decide)]; rfl⟩

/-! ## The catalog and its rotation -/

/-- Claim C16. The move catalog and its rotation: `swaps` has six entries,
each a pair of distinct names of the puzzle, no entry twice, and each
unordered pair of distinct names occurs exactly once (in one of its two
orders); for every start offset below six the indices run through by the two
loops are the indices `0..5`, each once, so the pairs tried are the catalog
entries, each once; the pairs tried for two offsets differ only in their
order; and one pass of the loop is the loop over these pairs. -/
theorem catalog_rotation :
    swaps.length = 6 ∧ swaps.Nodup ∧
    (∀ sw ∈ swaps, sw.1 ∈ names ∧ sw.2 ∈ names ∧ sw.1 ≠ sw.2) ∧
    (∀ a ∈ names, ∀ b ∈ names, a ≠ b → swaps.count (a, b) + swaps.count (b, a) = 1) ∧
    (∀ start_i, start_i < swaps.length →
      (List.range' start_i (swaps.length - start_i) ++ List.range' 0 start_i).Perm
          (List.range swaps.length) ∧
        (rotated start_i).Perm swaps) ∧
    (∀ i j, i < swaps.length → j < swaps.length → (rotated i).Perm (rotated j)) ∧
    (∀ eofs rand s rest printed,
      iteration eofs rand { breadth_first := s :: rest, printed := printed } =
        tryList eofs s (rotated (rand % swaps.length))
          { breadth_first := rest, printed := printed }) := by
  refine ⟨rfl, by decide, by decide, by decide, ?_, ?_, ?_⟩
  · intro k hk
    refine ⟨?_, rotated_perm k hk⟩
    have hk' : k < 6 := hk
    interval_cases k <;> decide
  · intro i j hi hj
    exact (rotated_perm i hi).trans (rotated_perm j hj).symm
  · intro eofs rand s rest printed
    exact iteration_cons eofs rand s rest printed

theorem catalog_rotation_witness :
    (List.range' 4 (swaps.length - 4) ++ List.range' 0 4).Perm (List.range swaps.length) ∧
      (rotated 4).Perm swaps ∧
      rotated 4 = [('A', 'C'), ('A', 'D'), ('A', 'B'), ('B', 'C'), ('B', 'D'), ('C', 'D')] :=
  ⟨(catalog_rotation.2.2.2.2.1 4 (by decide)).1, (catalog_rotation.2.2.2.2.1 4 (by decide)).2,
    rfl⟩

/-! ## A goal check on an unknown name -/

/-- Claim C13, amended. A goal check that names an unknown ranger is not
detected: `State::is_end_state` never hits an assertion.  It looks at the
first two names of `end_north` only.  When the first is a ranger stationed
south it returns `false` without touching the second; when both are rangers
it returns the answer it gives for these two names alone; when the first is
unknown, or the first is north and the second unknown, it reads through an
`end()` iterator, which is undefined behaviour and not an abort. -/
theorem is_end_state_unknown (s : State) :
    (∀ en, s.is_end_state en ≠ .error .assertion) ∧
    (∀ n1 n2 rest r1, mapFind s.rangers n1 = some r1 → r1.is_north = false →
      s.is_end_state (n1 :: n2 :: rest) = .ok false) ∧
    (∀ n1 n2 rest r1 r2, mapFind s.rangers n1 = some r1 → mapFind s.rangers n2 = some r2 →
      ∃ b, s.is_end_state (n1 :: n2 :: rest) = .ok b ∧ s.is_end_state [n1, n2] = .ok b) ∧
    (∀ n1 n2 rest, mapFind s.rangers n1 = none →
      s.is_end_state (n1 :: n2 :: rest) = .error .derefEnd) ∧
    (∀ n1 n2 rest r1, mapFind s.rangers n1 = some r1 → r1.is_north = true →
      mapFind s.rangers n2 = none → s.is_end_state (n1 :: n2 :: rest) = .error .derefEnd) := by
  have p2 : ∀ n1 n2 rest r1, mapFind s.rangers n1 = some r1 → r1.is_north = false →
      s.is_end_state (n1 :: n2 :: rest) = .ok false := by
    intro n1 n2 rest r1 h1 hn1
    simp [State.is_end_state, h1, hn1]
  have p3 : ∀ n1 n2 rest r1 r2, mapFind s.rangers n1 = some r1 →
      mapFind s.rangers n2 = some r2 →
      ∃ b, s.is_end_state (n1 :: n2 :: rest) = .ok b ∧ s.is_end_state [n1, n2] = .ok b := by
    intro n1 n2 rest r1 r2 h1 h2
    cases hn1 : r1.is_north with
    | false => exact ⟨false, by simp [State.is_end_state, h1, hn1], by
        simp [State.is_end_state, h1, hn1]⟩
    | true =>
      cases hn2 : r2.is_north with
      | false => exact ⟨false, by simp [State.is_end_state, h1, h2, hn1, hn2], by
          simp [State.is_end_state, h1, h2, hn1, hn2]⟩
      | true => exact ⟨State.endLoop s.rangers true (-1), by
          simp [State.is_end_state, h1, h2, hn1, hn2], by
          simp [State.is_end_state, h1, h2, hn1, hn2]⟩
  have p4 : ∀ n1 n2 rest, mapFind s.rangers n1 = none →
      s.is_end_state (n1 :: n2 :: rest) = .error .derefEnd := by
    intro n1 n2 rest h1
    simp [State.is_end_state, h1]
  have p5 : ∀ n1 n2 rest r1, mapFind s.rangers n1 = some r1 → r1.is_north = true →
      mapFind s.rangers n2 = none → s.is_end_state (n1 :: n2 :: rest) = .error .derefEnd := by
    intro n1 n2 rest r1 h1 hn1 h2
    simp [State.is_end_state, h1, hn1, h2]
  refine ⟨?_, p2, p3, p4, p5⟩
  intro en h
  match en, h with
  | [], h => simp [State.is_end_state] at h
  | [_], h => simp [State.is_end_state] at h
  | n1 :: n2 :: rest, h =>
    cases h1 : mapFind s.rangers n1 with
    | none => rw [p4 n1 n2 rest h1] at h; cases h
    | some r1 =>
      cases hn1 : r1.is_north with
      | false => rw [p2 n1 n2 rest r1 h1 hn1] at h; cases h
      | true =>
        cases h2 : mapFind s.rangers n2 with
        | none => rw [p5 n1 n2 rest r1 h1 hn1 h2] at h; cases h
        | some r2 =>
          obtain ⟨b, hb, -⟩ := p3 n1 n2 rest r1 r2 h1 h2
          rw [hb] at h; cases h

theorem is_end_state_unknown_witness :
    Quad.seed.toState.is_end_state ['A', 'D', 'Z'] = .ok false ∧
      Quad.seed.toState.is_end_state ['@', 'A'] = .error .derefEnd ∧
      initial.is_end_state ['A', 'Z'] = .error .derefEnd :=
  ⟨(is_end_state_unknown Quad.seed.toState).2.1 'A' 'D' ['Z'] _ rfl rfl,
   (is_end_state_unknown Quad.seed.toState).2.2.2.1 '@' 'A' [] rfl,
   (is_end_state_unknown initial).2.2.2.2 'A' 'Z' [] _ rfl rfl rfl⟩

/-- Claim C13 as stated fails. On the seeded state, where `A` is south, the
goal check for `{A, Z}` returns `false` although `Z` is no ranger; and on the
initial state the goal check for `{A, B, Z}` returns `true`. -/
theorem is_end_state_unknown_returns :
    seed = .ok Quad.seed.toState ∧ mapFind Quad.seed.toState.rangers 'Z' = none ∧
      Quad.seed.toState.is_end_state ['A', 'Z'] = .ok false ∧
      mapFind initial.rangers 'Z' = none ∧ initial.is_end_state ['A', 'B', 'Z'] = .ok true :=
  ⟨rfl, rfl, rfl, rfl, rfl⟩

/-! ## No fault on reachable states -/

/-- The `paired_count` of a ranger of a state in normal form has an entry for
exactly the three other names. -/
theorem Quad.toState_paired_keys (q : Quad) (x : Char) (rx : Ranger)
    (h : mapFind q.toState.rangers x = some rx) :
    mapKeys rx.paired_count = names.filter (fun y => y != x) ∧
      mapFind rx.paired_count x = none ∧
      ∀ y ∈ names, y ≠ x → (mapFind rx.paired_count y).isSome = true := by
  rcases Quad.find_toState q x rx h with ⟨rfl, rfl⟩ | ⟨rfl, rfl⟩ | ⟨rfl, rfl⟩ | ⟨rfl, rfl⟩ <;>
  · refine ⟨rfl, rfl, ?_⟩
    intro y hy hne
    simp only [names, List.mem_cons, List.mem_singleton, List.not_mem_nil, or_false] at hy
    rcases hy with rfl | rfl | rfl | rfl <;> first | exact absurd rfl hne | rfl

/-- On a balanced state in normal form the loop of `swap` fills both arrays
exactly. -/
theorem Quad.swapLoop_fills (q : Quad) (hq : q.balanced = true) :
    ∃ rs na nb sa sb, State.swapLoop q.toState.rangers [] [] = .ok (rs, [na, nb], [sa, sb]) := by
  obtain ⟨hN, hS⟩ := Quad.toState_counts q hq
  obtain ⟨na, nb, eN⟩ := List.length_eq_two.1 hN
  obtain ⟨sa, sb, eS⟩ := List.length_eq_two.1 hS
  refine ⟨q.toState.rangers.map (fun e => (e.1, e.2.noteStationed)), na, nb, sa, sb, ?_⟩
  rw [State.swapLoop_eq q.toState.rangers [] [] (by rw [eN]; simp) (by rw [eS]; simp), eN, eS]
  rfl

/-- Claim C14. No internal defect is reachable: every sequence of `swap`
calls on the four names, started from the initial state, returns; in the
state reached the rangers are `A`, `B`, `C`, `D` and every ranger's
`paired_count` has an entry for each of the three others and none for itself;
so in a further `swap` call the loop fills exactly `norths[0..1]` and
`souths[0..1]`, a call on known names returns, and no call hits the
assertion of `increment_paired_count`, writes past the arrays or reads an
unset pointer. -/
theorem no_internal_defect (calls : List (Char × Char))
    (hk : ∀ c ∈ calls, c.1 ∈ names ∧ c.2 ∈ names) :
    ∃ s, runCalls initial calls = .ok s ∧ mapKeys s.rangers = names ∧
      (∀ x rx, mapFind s.rangers x = some rx →
        mapKeys rx.paired_count = names.filter (fun y => y != x) ∧
        mapFind rx.paired_count x = none ∧
        ∀ y ∈ names, y ≠ x → (mapFind rx.paired_count y).isSome = true) ∧
      (∃ rs na nb sa sb, State.swapLoop s.rangers [] [] = .ok (rs, [na, nb], [sa, sb])) ∧
      (∀ n1 n2, n1 ∈ names → n2 ∈ names → ∃ b s', s.swap n1 n2 = .ok (b, s')) ∧
      (∀ n1 n2, s.swap n1 n2 ≠ .error .assertion ∧ s.swap n1 n2 ≠ .error .outOfBounds ∧
        s.swap n1 n2 ≠ .error .unsetPointer) := by
  obtain ⟨s, hs⟩ := runCalls_known calls hk Quad.initial rfl
  obtain ⟨q, hq, -, rfl⟩ := runCalls_inv (fun _ => True)
    (fun _ _ _ _ _ _ _ _ _ _ => trivial) calls Quad.initial rfl trivial s hs
  refine ⟨q.toState, hs, rfl, Quad.toState_paired_keys q, Quad.swapLoop_fills q hq, ?_, ?_⟩
  · intro n1 n2 k1 k2
    obtain ⟨b1, s1⟩ := Quad.station_isSome q n1 (by simpa [names] using k1)
    obtain ⟨b2, s2⟩ := Quad.station_isSome q n2 (by simpa [names] using k2)
    rcases Quad.swap_cases q hq n1 n2 with ⟨h, -⟩ | ⟨-, e⟩ | ⟨-, e, -⟩
    · rcases h with h | h
      · rw [s1] at h; cases h
      · rw [s2] at h; cases h
    · exact ⟨_, _, e⟩
    · exact ⟨_, _, e⟩
  · intro n1 n2
    rcases Quad.swap_cases q hq n1 n2 with ⟨-, e⟩ | ⟨-, e⟩ | ⟨-, e, -⟩ <;>
      rw [e] <;> refine ⟨?_, ?_, ?_⟩ <;> intro h <;> cases h

theorem no_internal_defect_witness :
    ∃ s, runCalls initial [('A', 'C'), ('C', 'C'), ('D', 'C')] = .ok s ∧
      mapKeys s.rangers = names ∧
      ∃ rs na nb sa sb, State.swapLoop s.rangers [] [] = .ok (rs, [na, nb], [sa, sb]) := by
  obtain ⟨s, h1, h2, -, h3, -⟩ :=
    no_internal_defect [('A', 'C'), ('C', 'C'), ('D', 'C')] (by decide)
  exact ⟨s, h1, h2, h3⟩

/-! ## Adding a ranger -/

theorem mapWF_cons {V : Type} (k : Char) (v : V) (m : List (Char × V)) :
    mapWF ((k, v) :: m) ↔ (∀ e ∈ m, k < e.1) ∧ mapWF m := by
  unfold mapWF mapKeys
  simp only [List.map_cons, List.pairwise_cons, List.mem_map, forall_exists_index, and_imp]
  constructor
  · rintro ⟨h1, h2⟩
    exact ⟨fun e he => h1 e.1 e he rfl, h2⟩
  · rintro ⟨h1, h2⟩
    exact ⟨fun a e he ha => ha ▸ h1 e he, h2⟩

theorem mapFind_none_of_lt {V : Type} (m : List (Char × V)) (k : Char)
    (h : ∀ e ∈ m, k < e.1) : mapFind m k = none := by
  induction m with
  | nil => rfl
  | cons e rest ih =>
    obtain ⟨k', v'⟩ := e
    have h1 : k < k' := h (k', v') (List.mem_cons_self _ _)
    have hne : ¬ k' = k := fun e => by subst e; exact lt_irrefl _ h1
    simp only [mapFind, hne, if_false]
    exact ih (fun e he => h e (List.mem_cons_of_mem _ he))

theorem mem_mapInsert {V : Type} (m : List (Char × V)) (k : Char) (v : V) (e : Char × V)
    (he : e ∈ mapInsert m k v) : e = (k, v) ∨ e ∈ m := by
  induction m with
  | nil =>
    simp only [mapInsert, List.mem_singleton] at he
    exact Or.inl he
  | cons e' rest ih =>
    obtain ⟨k', v'⟩ := e'
    unfold mapInsert at he
    split_ifs at he with h1 h2
    · rcases List.mem_cons.1 he with h | h
      · exact Or.inl h
      · exact Or.inr h
    · exact Or.inr he
    · rcases List.mem_cons.1 he with h | h
      · exact Or.inr (h ▸ List.mem_cons_self _ _)
      · rcases ih h with h | h
        · exact Or.inl h
        · exact Or.inr (List.mem_cons_of_mem _ h)

/-- Insertion keeps a map a map. -/
theorem mapWF_mapInsert {V : Type} (m : List (Char × V)) (k : Char) (v : V) (hwf : mapWF m) :
    mapWF (mapInsert m k v) := by
  induction m with
  | nil => simp [mapInsert, mapWF, mapKeys]
  | cons e' rest ih =>
    obtain ⟨k', v'⟩ := e'
    obtain ⟨h1, h2⟩ := (mapWF_cons k' v' rest).1 hwf
    unfold mapInsert
    split_ifs with c1 c2
    · refine (mapWF_cons k v _).2 ⟨?_, hwf⟩
      intro e he
      rcases List.mem_cons.1 he with rfl | he
      · exact c1
      · exact lt_trans c1 (h1 e he)
    · exact hwf
    · refine (mapWF_cons k' v' _).2 ⟨?_, ih h2⟩
      intro e he
      rcases mem_mapInsert rest k v e he with rfl | he
      · rcases lt_trichotomy k k' with h | h | h
        · exact absurd h c1
        · exact absurd h c2
        · exact h
      · exact h1 e he

/-- Lookups after an insertion: an existing entry for the key is kept. -/
theorem mapFind_mapInsert {V : Type} (m : List (Char × V)) (k n : Char) (v : V)
    (hwf : mapWF m) :
    mapFind (mapInsert m k v) n =
      if k = n then some ((mapFind m k).getD v) else mapFind m n := by
  induction m with
  | nil =>
    by_cases h : k = n <;> simp [mapInsert, mapFind, h]
  | cons e' rest ih =>
    obtain ⟨k', v'⟩ := e'
    obtain ⟨h1, h2⟩ := (mapWF_cons k' v' rest).1 hwf
    unfold mapInsert
    by_cases c1 : k < k'
    · -- inserted in front; `k` was absent
      have hnone : mapFind ((k', v') :: rest) k = none :=
        mapFind_none_of_lt _ k (by
          intro e he
          rcases List.mem_cons.1 he with rfl | he
          · exact c1
          · exact lt_trans c1 (h1 e he))
      rw [if_pos c1, hnone]
      by_cases c3 : k = n <;> simp [mapFind, c3]
    · rw [if_neg c1]
      by_cases c2 : k = k'
      · subst c2
        rw [if_pos rfl]
        by_cases c3 : k = n <;> simp [mapFind, c3]
      · rw [if_neg c2]
        have hne : ¬ k' = k := fun e => c2 e.symm
        by_cases c3 : k = n
        · subst c3
          simp only [mapFind, hne, if_false, if_true]
          rw [ih h2, if_pos rfl]
        · by_cases c4 : k' = n
          · simp [mapFind, c4, c3]
          · simp only [mapFind, c4, if_false, c3]
            rw [ih h2, if_neg c3]

theorem State.addLoop_eq (name : Char) (rs : List (Char × Ranger)) (new_r : Ranger) :
    State.addLoop name rs new_r =
      (rs.map (fun e => (e.1, e.2.init_paired_count name)),
        rs.foldl (fun acc e => acc.init_paired_count e.1) new_r) := by
  induction rs generalizing new_r with
  | nil => rfl
  | cons e rest ih =>
    obtain ⟨n, r⟩ := e
    simp only [State.addLoop, ih, List.map_cons, List.foldl_cons]

/-- The new ranger after the loop of `add_ranger`: only `paired_count` has
changed, it is a map, and it has gained a zero entry for every key of the
loop that had none. -/
theorem foldl_init_paired (rs : List (Char × Ranger)) (new_r : Ranger)
    (hwf : mapWF new_r.paired_count) :
    let r := rs.foldl (fun acc e => acc.init_paired_count e.1) new_r
    r.name = new_r.name ∧ r.is_north = new_r.is_north ∧ r.north_count = new_r.north_count ∧
      r.south_count = new_r.south_count ∧ r.moved_count = new_r.moved_count ∧
      mapWF r.paired_count ∧
      ∀ y, mapFind r.paired_count y =
        if (mapFind new_r.paired_count y).isSome then mapFind new_r.paired_count y
        else if (mapFind rs y).isSome then some 0 else none := by
  induction rs generalizing new_r with
  | nil =>
    refine ⟨rfl, rfl, rfl, rfl, rfl, hwf, fun y => ?_⟩
    cases h : mapFind new_r.paired_count y <;> simp [mapFind, h]
  | cons e rest ih =>
    obtain ⟨n, r0⟩ := e
    have hwf' : mapWF (new_r.init_paired_count n).paired_count :=
      mapWF_mapInsert _ _ _ hwf
    obtain ⟨a1, a2, a3, a4, a5, a6, a7⟩ := ih (new_r.init_paired_count n) hwf'
    refine ⟨a1, a2, a3, a4, a5, a6, fun y => ?_⟩
    simp only [List.foldl_cons]
    rw [a7 y]
    simp only [Ranger.init_paired_count]
    rw [mapFind_mapInsert _ _ _ _ hwf]
    by_cases hy : n = y
    · subst hy
      cases h : mapFind new_r.paired_count n <;> simp [mapFind]
    · cases h : mapFind new_r.paired_count y <;> simp [mapFind, hy]

/-- What `add_ranger` does to a well-formed state in which the new name is
no ranger and no ranger holds a `paired_count` entry for it. -/
theorem State.add_ranger_post (s : State) (name : Char) (is_north : Bool)
    (hwf : s.WF) (hnew : mapFind s.rangers name = none)
    (hfresh : ∀ n r, mapFind s.rangers n = some r → mapFind r.paired_count name = none) :
    (s.add_ranger name is_north).WF ∧
    (s.add_ranger name is_north).swap_history = s.swap_history ∧
    (∃ rn, mapFind (s.add_ranger name is_north).rangers name = some rn ∧
      rn.name = name ∧ rn.is_north = is_north ∧ rn.north_count = 0 ∧ rn.south_count = 0 ∧
      rn.moved_count = 0 ∧
      ∀ y, mapFind rn.paired_count y = if (mapFind s.rangers y).isSome then some 0 else none) ∧
    (∀ n r, mapFind s.rangers n = some r →
      ∃ r', mapFind (s.add_ranger name is_north).rangers n = some r' ∧
        r'.name = r.name ∧ r'.is_north = r.is_north ∧ r'.north_count = r.north_count ∧
        r'.south_count = r.south_count ∧ r'.moved_count = r.moved_count ∧
        ∀ y, mapFind r'.paired_count y =
          if name = y then some 0 else mapFind r.paired_count y) ∧
    (∀ n, n ≠ name → mapFind s.rangers n = none →
      mapFind (s.add_ranger name is_north).rangers n = none) := by
  obtain ⟨hkeys, hrs⟩ := hwf
  have hadd : (s.add_ranger name is_north).rangers =
      mapInsert (s.rangers.map (fun e => (e.1, e.2.init_paired_count name))) name
        (s.rangers.foldl (fun acc e => acc.init_paired_count e.1) (Ranger.new name is_north)) := by
    simp only [State.add_ranger, State.addLoop_eq]
  generalize hold : s.rangers.map (fun e => (e.1, e.2.init_paired_count name)) = old at hadd
  generalize hnr : s.rangers.foldl (fun acc e => acc.init_paired_count e.1)
    (Ranger.new name is_north) = new_r at hadd
  have hnew_r := foldl_init_paired s.rangers (Ranger.new name is_north)
    (by simp [Ranger.new, mapWF, mapKeys])
  simp only [hnr] at hnew_r
  obtain ⟨a1, a2, a3, a4, a5, a6, a7⟩ := hnew_r
  have hold_wf : mapWF old := by
    rw [← hold]
    unfold mapWF mapKeys at hkeys ⊢
    rw [List.map_map]
    exact hkeys
  have hold_find : ∀ n, mapFind old n =
      (mapFind s.rangers n).map (fun r => r.init_paired_count name) := by
    intro n; rw [← hold]
    exact mapFind_map_val s.rangers (fun r => r.init_paired_count name) n
  have hfind : ∀ n, mapFind (s.add_ranger name is_north).rangers n =
      if name = n then some new_r
      else (mapFind s.rangers n).map (fun r => r.init_paired_count name) := by
    intro n
    rw [hadd, mapFind_mapInsert old name n new_r hold_wf, hold_find, hold_find, hnew]
    rfl
  refine ⟨⟨?_, ?_⟩, rfl, ⟨new_r, ?_, a1, a2, a3, a4, a5, ?_⟩, ?_, ?_⟩
  · rw [hadd]; exact mapWF_mapInsert old name new_r hold_wf
  · intro e he
    rw [hadd] at he
    rcases mem_mapInsert old name new_r e he with rfl | he
    · exact ⟨a1, a6⟩
    · rw [← hold] at he
      obtain ⟨e0, he0, rfl⟩ := List.mem_map.1 he
      exact ⟨(hrs e0 he0).1, mapWF_mapInsert _ _ _ (hrs e0 he0).2⟩
  · rw [hfind, if_pos rfl]
  · intro y
    rw [a7 y]
    simp [Ranger.new, mapFind]
  · intro n r hr
    have hne : ¬ name = n := fun e => by rw [← e, hnew] at hr; cases hr
    refine ⟨r.init_paired_count name, ?_, rfl, rfl, rfl, rfl, rfl, fun y => ?_⟩
    · rw [hfind, if_neg hne, hr]; rfl
    · simp only [Ranger.init_paired_count]
      rw [mapFind_mapInsert _ _ _ _ (hrs (n, r) (mem_of_mapFind _ _ _ hr)).2,
        hfresh n r hr]
      rfl
  · intro n hn hnone
    rw [hfind, if_neg (fun e => hn e.symm), hnone]
    rfl

/-! ## Counter accounting -/

@[simp] theorem Cell.move_nc (x : Cell) (me n1 n2 : Char) : (x.move me n1 n2).nc = x.nc := by
  unfold Cell.move; split <;> rfl

@[simp] theorem Cell.move_sc (x : Cell) (me n1 n2 : Char) : (x.move me n1 n2).sc = x.sc := by
  unfold Cell.move; split <;> rfl

theorem Cell.move_mc (x : Cell) (me n1 n2 : Char) :
    (x.move me n1 n2).mc = if me = n1 ∨ me = n2 then incr x.mc else x.mc := by
  unfold Cell.move; split <;> simp

/-- One swap keeps the accounts of a ranger that had exactly one partner at
its station, as long as fewer than `INT_MAX` swaps have been made. -/
theorem Cell.accounted_step (x : Cell) (k : Int) (start o1 o2 o3 : Bool) (me n1 n2 : Char)
    (hx : x.accounted k start) (hk : k < INT_MAX)
    (hone : ((if x.north = o1 then 1 else 0) + (if x.north = o2 then 1 else 0) +
      (if x.north = o3 then 1 else 0) : Int) = 1) :
    ((x.credit o1 o2 o3).move me n1 n2).accounted (k + 1) start ∧
      ((x.credit o1 o2 o3).move me n1 n2).mc = x.mc + (if me = n1 ∨ me = n2 then 1 else 0) := by
  obtain ⟨n, nc, sc, mc, p1, p2, p3⟩ := x
  obtain ⟨⟨h1, h2, h3⟩, ⟨h4, h5, h6, h7⟩, ⟨h8, h9, h10⟩⟩ := hx
  simp only at h1 h2 h3 h4 h5 h6 h7 h8 h9 h10 hone
  have e : ∀ v : Int, 0 ≤ v → v ≤ k → incr v = v + 1 := fun v a b =>
    incr_eq v (by unfold INT_MIN; omega) (by omega)
  have enc := e nc h1 (by omega)
  have esc := e sc h2 (by omega)
  have ep1 := e p1 h4 (by omega)
  have ep2 := e p2 h5 (by omega)
  have ep3 := e p3 h6 (by omega)
  have emc := e mc h8 h9
  refine ⟨⟨?_, ?_, ?_⟩, ?_⟩
  · simp only [Cell.move_nc, Cell.move_sc, Cell.credit, enc, esc]
    cases n <;> simp <;> omega
  · simp only [Cell.move_p1, Cell.move_p2, Cell.move_p3, Cell.credit, ep1, ep2, ep3]
    split_ifs at hone ⊢ <;> omega
  · unfold Cell.move Cell.credit
    by_cases c : me = n1 ∨ me = n2
    · simp only [c, if_true, emc]
      cases n <;> cases start <;> simp at h10 ⊢ <;> omega
    · simp only [c, if_false]
      exact ⟨h8, by omega, h10⟩
  · simp only [Cell.move_mc, Cell.credit, emc]
    split_ifs <;> omega

theorem Quad.swap_accounted (q : Quad) (hq : q.balanced = true) (n1 n2 : Char) (s1 s2 : Bool)
    (h1 : q.station n1 = some s1) (h2 : q.station n2 = some s2) (hne : s1 ≠ s2)
    (ha : q.accounted) (hk : (q.hist.length : Int) < INT_MAX) : (q.swap n1 n2).accounted := by
  obtain ⟨ha1, ha2, ha3, ha4, ha5⟩ := ha
  have hlen : (((q.swap n1 n2).hist.length : Nat) : Int) = (q.hist.length : Int) + 1 := by
    simp [Quad.swap]
  have hones : ((if q.a.north = q.b.north then 1 else 0) + (if q.a.north = q.c.north then 1 else 0) +
        (if q.a.north = q.d.north then 1 else 0) : Int) = 1 ∧
      ((if q.b.north = q.a.north then 1 else 0) + (if q.b.north = q.c.north then 1 else 0) +
        (if q.b.north = q.d.north then 1 else 0) : Int) = 1 ∧
      ((if q.c.north = q.a.north then 1 else 0) + (if q.c.north = q.b.north then 1 else 0) +
        (if q.c.north = q.d.north then 1 else 0) : Int) = 1 ∧
      ((if q.d.north = q.a.north then 1 else 0) + (if q.d.north = q.b.north then 1 else 0) +
        (if q.d.north = q.c.north then 1 else 0) : Int) = 1 := by
    have key : ∀ an bn cn dn : Bool, (an.toNat + bn.toNat + cn.toNat + dn.toNat == 2) = true →
        ((if an = bn then 1 else 0) + (if an = cn then 1 else 0) +
          (if an = dn then 1 else 0) : Int) = 1 ∧
        ((if bn = an then 1 else 0) + (if bn = cn then 1 else 0) +
          (if bn = dn then 1 else 0) : Int) = 1 ∧
        ((if cn = an then 1 else 0) + (if cn = bn then 1 else 0) +
          (if cn = dn then 1 else 0) : Int) = 1 ∧
        ((if dn = an then 1 else 0) + (if dn = bn then 1 else 0) +
          (if dn = cn then 1 else 0) : Int) = 1 := by decide
    exact key _ _ _ _ hq
  obtain ⟨o1, o2, o3, o4⟩ := hones
  obtain ⟨sa, ma⟩ := Cell.accounted_step q.a _ true _ _ _ 'A' n1 n2 ha1 hk o1
  obtain ⟨sb, mb⟩ := Cell.accounted_step q.b _ true _ _ _ 'B' n1 n2 ha2 hk o2
  obtain ⟨sc, mc⟩ := Cell.accounted_step q.c _ false _ _ _ 'C' n1 n2 ha3 hk o3
  obtain ⟨sd, md⟩ := Cell.accounted_step q.d _ false _ _ _ 'D' n1 n2 ha4 hk o4
  unfold Quad.accounted
  rw [hlen]
  refine ⟨sa, sb, sc, sd, ?_⟩
  simp only [Quad.swap]
  rw [ma, mb, mc, md]
  have hsum : ((if 'A' = n1 ∨ 'A' = n2 then 1 else 0) + (if 'B' = n1 ∨ 'B' = n2 then 1 else 0) +
      (if 'C' = n1 ∨ 'C' = n2 then 1 else 0) + (if 'D' = n1 ∨ 'D' = n2 then 1 else 0) : Int) = 2 := by
    rcases Quad.station_some _ _ _ h1 with ⟨rfl, e1⟩ | ⟨rfl, e1⟩ | ⟨rfl, e1⟩ | ⟨rfl, e1⟩ <;>
    rcases Quad.station_some _ _ _ h2 with ⟨rfl, e2⟩ | ⟨rfl, e2⟩ | ⟨rfl, e2⟩ | ⟨rfl, e2⟩ <;>
    first
      | exact absurd (e1.trans e2.symm) hne
      | decide
  omega

theorem Quad.swap_accountedShort (q : Quad) (hq : q.balanced = true) (n1 n2 : Char)
    (s1 s2 : Bool) (h1 : q.station n1 = some s1) (h2 : q.station n2 = some s2) (hne : s1 ≠ s2)
    (ha : q.accountedShort) : (q.swap n1 n2).accountedShort := by
  intro hk
  have hlen : (((q.swap n1 n2).hist.length : Nat) : Int) = (q.hist.length : Int) + 1 := by
    simp [Quad.swap]
  rw [hlen] at hk
  exact Quad.swap_accounted q hq n1 n2 s1 s2 h1 h2 hne (ha (by omega)) (by omega)

theorem Quad.initial_accounted : Quad.initial.accounted := by
  simp [Quad.accounted, Cell.accounted, Quad.initial]

theorem Quad.initial_accountedShort : Quad.initial.accountedShort :=
  fun _ => Quad.initial_accounted

/-- A property of the numbers kept by every legal swap holds after every
sequence of successful swaps on the numbers. -/
theorem Quad.apply_inv (P : Quad → Prop)
    (hstep : ∀ q n1 n2 b1 b2, q.balanced = true → P q → q.station n1 = some b1 →
      q.station n2 = some b2 → b1 ≠ b2 → P (q.swap n1 n2))
    (h : List (Char × Char)) (q q' : Quad) (hq : q.balanced = true) (hP : P q)
    (he : q.apply h = some q') : P q' := by
  induction h generalizing q with
  | nil => simp only [Quad.apply, Option.some.injEq] at he; rw [← he]; exact hP
  | cons c rest ih =>
    obtain ⟨n1, n2⟩ := c
    unfold Quad.apply at he
    cases h1 : q.station n1 with
    | none => simp [h1] at he
    | some b1 =>
      cases h2 : q.station n2 with
      | none => simp [h1, h2] at he
      | some b2 =>
        by_cases hb : b1 = b2
        · simp [h1, h2, hb] at he
        · simp only [h1, h2, hb, if_false] at he
          exact ih _ (Quad.swap_balanced q hq n1 n2 b1 b2 h1 h2 hb)
            (hstep q n1 n2 b1 b2 hq hP h1 h2 hb) he

theorem Quad.apply_hist (h : List (Char × Char)) (q q' : Quad) (he : q.apply h = some q') :
    q'.hist = q.hist ++ h := by
  induction h generalizing q with
  | nil => simp only [Quad.apply, Option.some.injEq] at he; rw [← he]; simp
  | cons c rest ih =>
    obtain ⟨n1, n2⟩ := c
    unfold Quad.apply at he
    cases h1 : q.station n1 with
    | none => simp [h1] at he
    | some b1 =>
      cases h2 : q.station n2 with
      | none => simp [h1, h2] at he
      | some b2 =>
        by_cases hb : b1 = b2
        · simp [h1, h2, hb] at he
        · simp only [h1, h2, hb, if_false] at he
          rw [ih _ he]
          simp [Quad.swap]

/-- The state reached by a sequence of successful swaps from the initial
state, as numbers. -/
theorem applySwaps_initial (h : List (Char × Char)) (s : State)
    (hs : applySwaps initial h = some s) :
    ∃ q, Quad.initial.apply h = some q ∧ s = q.toState ∧ q.balanced = true ∧
      q.accountedShort ∧ q.hist = h := by
  rw [initial_eq, applySwaps_toState h Quad.initial rfl] at hs
  cases he : Quad.initial.apply h with
  | none => rw [he] at hs; cases hs
  | some q =>
    rw [he] at hs
    refine ⟨q, rfl, (Option.some.inj hs).symm, Quad.apply_balanced h Quad.initial q rfl he, ?_, ?_⟩
    · exact Quad.apply_inv Quad.accountedShort
        (fun q n1 n2 b1 b2 hq hP h1 h2 hb =>
          Quad.swap_accountedShort q hq n1 n2 b1 b2 h1 h2 hb hP)
        h Quad.initial q rfl Quad.initial_accountedShort he
    · rw [Quad.apply_hist h _ q he]; rfl

/-- The accounts read off the state. -/
theorem Quad.accounted_props (q : Quad) (ha : q.accounted) :
    (∀ e ∈ q.toState.rangers,
      e.2.north_count + e.2.south_count = q.hist.length ∧
      (e.2.paired_count.map Prod.snd).sum = q.hist.length ∧ e.2.paired_count.length = 3) ∧
    (q.toState.rangers.map (fun e => e.2.moved_count)).sum = 2 * (q.hist.length : Int) ∧
    q.toState.rangers.length = 4 ∧
    (∀ n r r0, mapFind q.toState.rangers n = some r →
      mapFind Rangers.initial.rangers n = some r0 →
      (r.is_north = r0.is_north ↔ r.moved_count % 2 = 0)) := by
  obtain ⟨⟨⟨-, -, a1⟩, ⟨-, -, -, a2⟩, ⟨-, -, a3⟩⟩, ⟨⟨-, -, b1⟩, ⟨-, -, -, b2⟩, ⟨-, -, b3⟩⟩,
    ⟨⟨-, -, c1⟩, ⟨-, -, -, c2⟩, ⟨-, -, c3⟩⟩, ⟨⟨-, -, d1⟩, ⟨-, -, -, d2⟩, ⟨-, -, d3⟩⟩, hm⟩ := ha
  have par : ∀ (x : Cell) (start : Bool),
      x.mc % 2 = (if x.north = start then 0 else 1) → (x.north = start ↔ x.mc % 2 = 0) := by
    intro x start h
    by_cases c : x.north = start
    · rw [if_pos c] at h; exact ⟨fun _ => h, fun _ => c⟩
    · rw [if_neg c] at h; exact ⟨fun c' => absurd c' c, fun h' => by omega⟩
  refine ⟨?_, ?_, rfl, ?_⟩
  · intro e he
    simp only [Quad.toState, List.mem_cons, List.mem_singleton, List.not_mem_nil,
      or_false] at he
    rcases he with rfl | rfl | rfl | rfl <;>
      simp only [Cell.toRanger, List.map_cons, List.map_nil, List.sum_cons, List.sum_nil,
        List.length_cons, List.length_nil] <;>
      refine ⟨by assumption, by omega, by first | rfl | trivial⟩
  · simp only [Quad.toState, Cell.toRanger, List.map_cons, List.map_nil, List.sum_cons,
      List.sum_nil]
    omega
  · intro n r r0 hr hr0
    rw [initial_eq] at hr0
    rcases Quad.find_toState q n r hr with ⟨rfl, rfl⟩ | ⟨rfl, rfl⟩ | ⟨rfl, rfl⟩ | ⟨rfl, rfl⟩ <;>
      · have := (Option.some.inj hr0).symm
        subst this
        first
          | exact par _ _ a3
          | exact par _ _ b3
          | exact par _ _ c3
          | exact par _ _ d3

/-- Claim C20, amended. Counter accounting invariant: in every state
obtained from the initial state by a sequence of at most `INT_MAX`
successful swaps, the history is that sequence, and with `k` its length
every ranger has `north_count + south_count = k`, every ranger has three
`paired_count` values, which sum to `k`, the four `moved_count` values sum to
`2 k`, and a ranger is at the station it has in the initial state exactly
when its `moved_count` is even. -/
theorem counter_accounting (h : List (Char × Char)) (s : State)
    (hs : applySwaps initial h = some s) (hk : (h.length : Int) ≤ INT_MAX) :
    s.swap_history = h ∧
    (∀ e ∈ s.rangers,
      e.2.north_count + e.2.south_count = s.swap_history.length ∧
      (e.2.paired_count.map Prod.snd).sum = s.swap_history.length ∧
      e.2.paired_count.length = 3) ∧
    (s.rangers.map (fun e => e.2.moved_count)).sum = 2 * (s.swap_history.length : Int) ∧
    s.rangers.length = 4 ∧
    (∀ n r r0, mapFind s.rangers n = some r → mapFind initial.rangers n = some r0 →
      (r.is_north = r0.is_north ↔ r.moved_count % 2 = 0)) := by
  obtain ⟨q, -, rfl, -, ha, hh⟩ := applySwaps_initial h s hs
  obtain ⟨p1, p2, p3, p4⟩ := Quad.accounted_props q (ha (by rw [hh]; exact hk))
  exact ⟨hh, p1, p2, p3, p4⟩

theorem counter_accounting_witness :
    ∃ s, applySwaps initial [('A', 'C'), ('A', 'B'), ('C', 'D')] = some s ∧
      s.swap_history = [('A', 'C'), ('A', 'B'), ('C', 'D')] ∧
      (s.rangers.map (fun e => e.2.moved_count)).sum = 2 * (s.swap_history.length : Int) := by
  have h := counter_accounting [('A', 'C'), ('A', 'B'), ('C', 'D')]
    (((Quad.initial.swap 'A' 'C').swap 'A' 'B').swap 'C' 'D').toState rfl (by decide)
  exact ⟨_, rfl, h.1, h.2.2.1⟩

/-! ## Solution lengths -/

theorem Quad.Enq.accountedShort {q : Quad} (h : Quad.Enq q) : q.accountedShort := by
  induction h with
  | seed =>
    exact Quad.swap_accountedShort Quad.initial rfl 'A' 'C' true false rfl rfl (by decide)
      Quad.initial_accountedShort
  | step q sw he _ hl _ ih =>
    obtain ⟨b1, b2, h1, h2, hb⟩ := (Quad.legal_iff q sw).1 hl
    exact Quad.swap_accountedShort q he.balanced sw.1 sw.2 b1 b2 h1 h2 hb ih

theorem bits_accepted :
    ∀ bA bB bC bD : Bool, (bA.toNat + bB.toNat + bC.toNat + bD.toNat == 2) = true →
      (swaps.filter (fun sw => bitOf bA bB bC bD sw.1 != bitOf bA bB bC bD sw.2)).length = 4 := by
  decide

theorem swaps_differ :
    ∀ sw ∈ swaps, ∀ sw' ∈ swaps, sw ≠ sw' →
      ∃ x ∈ names, ¬ ((x = sw.1 ∨ x = sw.2) ↔ (x = sw'.1 ∨ x = sw'.2)) := by
  decide

theorem bits_one_end :
    ∀ bA bB bC bD : Bool, (bA.toNat + bB.toNat + bC.toNat + bD.toNat == 2) = true →
      ∀ sw ∈ swaps, ∀ sw' ∈ swaps, sw ≠ sw' →
        bitOf bA bB bC bD sw.1 ≠ bitOf bA bB bC bD sw.2 →
        bitOf bA bB bC bD sw'.1 ≠ bitOf bA bB bC bD sw'.2 →
        ¬ (bitAfter bA bB bC bD sw 'A' = true ∧ bitAfter bA bB bC bD sw 'B' = true ∧
          bitAfter bA bB bC bD sw' 'A' = true ∧ bitAfter bA bB bC bD sw' 'B' = true) := by
  decide

/-- A swap of two known rangers at different stations, with the counters it
needs in place, returns `true`, keeps the names and moves exactly the two. -/
theorem State.swap_stations (s : State) (n1 n2 : Char) (r1 r2 : Ranger)
    (hwf : mapWF s.rangers) (hN : s.northCount = 2) (hS : s.southCount = 2)
    (hpc : ∀ p q rp rq, p ≠ q → mapFind s.rangers p = some rp → mapFind s.rangers q = some rq →
      rp.is_north = rq.is_north → (mapFind rp.paired_count rq.name).isSome = true)
    (h1 : mapFind s.rangers n1 = some r1) (h2 : mapFind s.rangers n2 = some r2)
    (hd : r1.is_north ≠ r2.is_north) :
    ∃ s', s.swap n1 n2 = .ok (true, s') ∧ mapKeys s'.rangers = mapKeys s.rangers ∧
      ∀ n r, mapFind s.rangers n = some r → ∃ r', mapFind s'.rangers n = some r' ∧
        r'.is_north = (if n = n1 ∨ n = n2 then !r.is_north else r.is_north) := by
  obtain ⟨na, nb, sa, sb, ra, rb, rsa, rsb, eN, eS, hab, hsab, d1, d2, d3, d4, fa, fb, fsa,
    fsb, ta, tb, tsa, tsb, -⟩ := stations_of s.rangers hwf hN hS
  have hne : n1 ≠ n2 := fun e => by rw [e, h2] at h1; cases h1; exact hd rfl
  have hsw := State.swap_shape s n1 n2 r1 r2 na nb sa sb ra rb rsa rsb h1 h2 hd eN eS hab hsab
    fa fb fsa fsb ta tb tsa tsb
    (hpc na nb ra rb hab fa fb (by rw [ta, tb]))
    (hpc nb na rb ra (fun e => hab e.symm) fb fa (by rw [ta, tb]))
    (hpc sa sb rsa rsb hsab fsa fsb (by rw [tsa, tsb]))
    (hpc sb sa rsb rsa (fun e => hsab e.symm) fsb fsa (by rw [tsa, tsb]))
  refine ⟨_, hsw, mapKeys_moving_crediting _ _ _ _ _ _ _ _ _ _ _, ?_⟩
  intro n r h
  obtain ⟨r', hf, p1, -⟩ := find_after_swap s.rangers n1 n2 na nb sa sb
    ra.name rb.name rsa.name rsb.name n r hne hab hsab d1 d2 d3 d4 h
  exact ⟨r', hf, p1⟩

theorem four_rangers (rs : List (Char × Ranger)) (hk : mapKeys rs = names) :
    ∃ rA rB rC rD, rs = [('A', rA), ('B', rB), ('C', rC), ('D', rD)] := by
  unfold mapKeys names at hk
  match rs, hk with
  | [(a, rA), (b, rB), (c, rC), (d, rD)], hk =>
    simp only [List.map_cons, List.map_nil, List.cons.injEq, and_true] at hk
    obtain ⟨rfl, rfl, rfl, rfl⟩ := hk
    exact ⟨rA, rB, rC, rD, rfl⟩

theorem mem_stationed_iff (rs : List (Char × Ranger)) (hwf : mapWF rs) (x : Char) (r : Ranger)
    (b : Bool) (h : mapFind rs x = some r) : x ∈ stationed rs b ↔ r.is_north = b := by
  constructor
  · intro hx
    unfold stationed at hx
    obtain ⟨e, he, rfl⟩ := List.mem_map.1 hx
    obtain ⟨he1, he2⟩ := List.mem_filter.1 he
    have := mapFind_of_mem rs hwf e.1 e.2 he1
    rw [h] at this
    cases this
    simpa using he2
  · intro hb
    rw [← hb]
    exact mem_stationed rs x r h

theorem is_end_state_true (s : State) (a b : Char) (h : s.is_end_state [a, b] = .ok true) :
    ∃ ra rb, mapFind s.rangers a = some ra ∧ mapFind s.rangers b = some rb ∧
      ra.is_north = true ∧ rb.is_north = true := by
  unfold State.is_end_state at h
  simp only at h
  cases ha : mapFind s.rangers a with
  | none => rw [ha] at h; cases h
  | some ra =>
    rw [ha] at h
    simp only at h
    cases hna : ra.is_north with
    | false => rw [hna] at h; simp at h
    | true =>
      rw [hna] at h
      simp only [Bool.not_true, Bool.false_eq_true, if_false] at h
      cases hb : mapFind s.rangers b with
      | none => rw [hb] at h; cases h
      | some rb =>
        rw [hb] at h
        simp only at h
        cases hnb : rb.is_north with
        | false => rw [hnb] at h; simp at h
        | true => exact ⟨ra, rb, rfl, rfl, hna, hnb⟩

theorem find_bit (s : State) (rA rB rC rD : Ranger)
    (hs : s.rangers = [('A', rA), ('B', rB), ('C', rC), ('D', rD)]) (x : Char)
    (hx : x ∈ names) :
    ∃ r, mapFind s.rangers x = some r ∧
      r.is_north = bitOf rA.is_north rB.is_north rC.is_north rD.is_north x := by
  simp only [names, List.mem_cons, List.mem_singleton, List.not_mem_nil, or_false] at hx
  rw [hs]
  rcases hx with rfl | rfl | rfl | rfl
  · exact ⟨rA, rfl, rfl⟩
  · exact ⟨rB, rfl, rfl⟩
  · exact ⟨rC, rfl, rfl⟩
  · exact ⟨rD, rfl, rfl⟩

theorem bits_balanced (s : State) (rA rB rC rD : Ranger)
    (hs : s.rangers = [('A', rA), ('B', rB), ('C', rC), ('D', rD)])
    (hN : s.northCount = 2) :
    (rA.is_north.toNat + rB.is_north.toNat + rC.is_north.toNat + rD.is_north.toNat == 2) =
      true := by
  unfold State.northCount stationed at hN
  rw [hs] at hN
  cases hA : rA.is_north <;> cases hB : rB.is_north <;> cases hC : rC.is_north <;>
    cases hD : rD.is_north <;> simp [List.filter, hA, hB, hC, hD] at hN ⊢

/-- The six catalog calls on a state of the rangers `A`, `B`, `C`, `D` with
two at each station and the counters in place: a pair at one station is
rejected, a pair at different stations is accepted and moves just the two. -/
theorem catalog_calls (s : State) (rA rB rC rD : Ranger)
    (hs : s.rangers = [('A', rA), ('B', rB), ('C', rC), ('D', rD)])
    (hnm : ∀ e ∈ s.rangers, e.2.name = e.1)
    (hN : s.northCount = 2) (hS : s.southCount = 2)
    (hall : ∀ p q rp, p ≠ q → mapFind s.rangers p = some rp →
      (mapFind s.rangers q).isSome = true → (mapFind rp.paired_count q).isSome = true)
    (sw : Char × Char) (hsw : sw ∈ swaps) :
    (bitOf rA.is_north rB.is_north rC.is_north rD.is_north sw.1 =
        bitOf rA.is_north rB.is_north rC.is_north rD.is_north sw.2 →
      s.swap sw.1 sw.2 = .ok (false, s)) ∧
    (bitOf rA.is_north rB.is_north rC.is_north rD.is_north sw.1 ≠
        bitOf rA.is_north rB.is_north rC.is_north rD.is_north sw.2 →
      ∃ s', s.swap sw.1 sw.2 = .ok (true, s') ∧ mapKeys s'.rangers = names ∧
        ∀ x ∈ names, ∃ r', mapFind s'.rangers x = some r' ∧
          r'.is_north = bitAfter rA.is_north rB.is_north rC.is_north rD.is_north sw x) := by
  obtain ⟨k1, k2⟩ := swaps_known sw hsw
  obtain ⟨r1, f1, b1⟩ := find_bit s rA rB rC rD hs sw.1 k1
  obtain ⟨r2, f2, b2⟩ := find_bit s rA rB rC rD hs sw.2 k2
  have hkeys : mapKeys s.rangers = names := by rw [hs]; rfl
  have hwf : mapWF s.rangers := by
    unfold mapWF; rw [hkeys]; simp [names]
  constructor
  · intro hb
    exact State.swap_rejected s sw.1 sw.2 r1 r2 f1 f2 (by rw [b1, b2, hb])
  · intro hb
    obtain ⟨s', h1, h2, h3⟩ := State.swap_stations s sw.1 sw.2 r1 r2 hwf hN hS
      (fun p q rp rq hpq hp hq _ => by
        have hn : rq.name = q := hnm (q, rq) (mem_of_mapFind _ _ _ hq)
        rw [hn]
        exact hall p q rp hpq hp (by rw [hq]; rfl))
      f1 f2 (by rw [b1, b2]; exact hb)
    refine ⟨s', h1, by rw [h2, hkeys], ?_⟩
    intro x hx
    obtain ⟨r, fr, br⟩ := find_bit s rA rB rC rD hs x hx
    obtain ⟨r', fr', hr'⟩ := h3 x r fr
    refine ⟨r', fr', ?_⟩
    rw [hr', br]
    unfold bitAfter
    split_ifs <;> rfl

/-- Of the results of the four legal catalog swaps on a balanced state, at
least three do not have both `A` and `B` north. -/
theorem Quad.kids_not_AB (q : Quad) (hq : q.balanced = true) :
    3 ≤ ((q.kids swaps).filter (fun k => !(k.a.north && k.b.north))).length ∧
      (q.kids swaps).length = 4 := by
  obtain ⟨⟨an, a1, a2, a3, a4, a5, a6⟩, ⟨bn, b1, b2, b3, b4, b5, b6⟩,
    ⟨cn, c1, c2, c3, c4, c5, c6⟩, ⟨dn, d1, d2, d3, d4, d5, d6⟩, h⟩ := q
  cases an <;> cases bn <;> cases cn <;> cases dn <;>
  first
    | exact Bool.noConfusion hq
    | exact ⟨Nat.le_of_ble_eq_true rfl, rfl⟩

theorem Quad.kids_not_end (q : Quad) (hq : q.balanced = true) :
    3 ≤ ((q.kids swaps).filter (fun k => !k.isEnd)).length := by
  refine le_trans (Quad.kids_not_AB q hq).1 ?_
  rw [← List.countP_eq_length_filter, ← List.countP_eq_length_filter]
  apply List.countP_mono_left
  intro k _ hk
  have : k.isEnd = false := by
    unfold Quad.isEnd
    cases h : (k.a.north && k.b.north)
    · simp
    · rw [h] at hk; simp at hk
  simp [this]

theorem Quad.kids_perm (q : Quad) (sws : List (Char × Char)) (hp : sws.Perm swaps)
    (f : Quad → Bool) :
    ((q.kids sws).filter f).length = ((q.kids swaps).filter f).length := by
  unfold Quad.kids
  exact (((hp.filter _).map _).filter _).length_eq

/-- One pass of the exhaustive search on a deque of balanced states: the
head is removed and at least three states are appended. -/
theorem iteration_grows (q : Quad) (hq : q.balanced = true) (rand : Nat)
    (rest printed : List State) (hg : AllGood rest) :
    ∃ more printed', iteration false rand
        { breadth_first := q.toState :: rest, printed := printed } =
        .ok { breadth_first := rest ++ more, printed := printed' } ∧
      3 ≤ more.length ∧ AllGood (rest ++ more) := by
  refine ⟨_, _, iteration_false_good q hq rand rest printed, ?_, ?_⟩
  · rw [List.length_map, Quad.kids_perm q _ (rotated_perm _ (Nat.mod_lt _ (by decide)))]
    exact Quad.kids_not_end q hq
  · intro t ht
    rcases List.mem_append.1 ht with h | h
    · exact hg t h
    · exact allGood_kids q hq _ _ t h

theorem run_false_grows (n : Nat) (rands : Nat → Nat) (Q : Search)
    (hg : AllGood Q.breadth_first) (m : Nat) (hm : m ≤ Q.breadth_first.length)
    (hpos : 1 ≤ Q.breadth_first.length) :
    ∃ Q', run false n rands Q = .ok Q' ∧ AllGood Q'.breadth_first ∧
      m + 2 * n ≤ Q'.breadth_first.length ∧ 1 ≤ Q'.breadth_first.length := by
  induction n generalizing rands Q m with
  | zero => exact ⟨Q, rfl, hg, by simpa using hm, hpos⟩
  | succ n ih =>
    obtain ⟨bf, printed⟩ := Q
    cases bf with
    | nil => simp at hpos
    | cons s rest =>
      obtain ⟨q, hq, rfl⟩ := hg s (List.mem_cons_self _ _)
      obtain ⟨more, printed', hit, h3, hg'⟩ := iteration_grows q hq (rands 0) rest printed
        (fun t ht => hg t (List.mem_cons_of_mem _ ht))
      simp only [List.length_cons] at hm
      obtain ⟨Q', hr, hgQ, hlen, hpos'⟩ := ih (fun i => rands (i + 1))
        { breadth_first := rest ++ more, printed := printed' } hg' (m + 2)
        (by simp only [List.length_append]; omega)
        (by simp only [List.length_append]; omega)
      refine ⟨Q', ?_, hgQ, by omega, hpos'⟩
      unfold run
      rw [hit]
      exact hr

/-- The catalog on a state of the rangers `A`, `B`, `C`, `D` with two at
each station and all entries in place: all six calls return, four are
accepted, two different accepted calls give different lists of north
rangers and at most one end state; and the growth of the worklist. -/
theorem catalog_and_growth :
    (∀ s : State, mapKeys s.rangers = names → (∀ e ∈ s.rangers, e.2.name = e.1) →
      s.northCount = 2 → s.southCount = 2 →
      (∀ p q rp, p ≠ q → mapFind s.rangers p = some rp →
        (mapFind s.rangers q).isSome = true → (mapFind rp.paired_count q).isSome = true) →
      (∀ sw ∈ swaps, ∃ b s', s.swap sw.1 sw.2 = .ok (b, s')) ∧
      (swaps.filter s.accepts).length = 4 ∧
      (∀ sw ∈ swaps, ∀ sw' ∈ swaps, sw ≠ sw' → ∀ s1 s2,
        s.swap sw.1 sw.2 = .ok (true, s1) → s.swap sw'.1 sw'.2 = .ok (true, s2) →
        stationed s1.rangers true ≠ stationed s2.rangers true ∧
        ¬ (s1.is_end_state end_north = .ok true ∧ s2.is_end_state end_north = .ok true))) ∧
    (∀ rands n, ∃ Q Q' s rest more, search false n rands = .ok Q ∧
      Q.breadth_first = s :: rest ∧ search false (n + 1) rands = .ok Q' ∧
      Q'.breadth_first = rest ++ more ∧ 3 ≤ more.length) ∧
    (∀ rands n, ∃ Q, search false n rands = .ok Q ∧ 1 + 2 * n ≤ Q.breadth_first.length) := by
  refine ⟨?_, ?_, ?_⟩
  · intro s hk hnm hN hS hall
    obtain ⟨rA, rB, rC, rD, hs⟩ := four_rangers _ hk
    have hbal := bits_balanced s rA rB rC rD hs hN
    have hc := catalog_calls s rA rB rC rD hs hnm hN hS hall
    -- an accepted call is one on a pair at different stations
    have hacc : ∀ sw ∈ swaps, ∀ s1, s.swap sw.1 sw.2 = .ok (true, s1) →
        bitOf rA.is_north rB.is_north rC.is_north rD.is_north sw.1 ≠
          bitOf rA.is_north rB.is_north rC.is_north rD.is_north sw.2 ∧
        mapKeys s1.rangers = names ∧
        ∀ x ∈ names, ∃ r', mapFind s1.rangers x = some r' ∧
          r'.is_north = bitAfter rA.is_north rB.is_north rC.is_north rD.is_north sw x := by
      intro sw hsw s1 h1
      have hb : bitOf rA.is_north rB.is_north rC.is_north rD.is_north sw.1 ≠
          bitOf rA.is_north rB.is_north rC.is_north rD.is_north sw.2 := by
        intro e
        rw [(hc sw hsw).1 e] at h1
        cases h1
      obtain ⟨s', e1, e2, e3⟩ := (hc sw hsw).2 hb
      rw [e1] at h1
      cases h1
      exact ⟨hb, e2, e3⟩
    refine ⟨?_, ?_, ?_⟩
    · intro sw hsw
      by_cases hb : bitOf rA.is_north rB.is_north rC.is_north rD.is_north sw.1 =
          bitOf rA.is_north rB.is_north rC.is_north rD.is_north sw.2
      · exact ⟨_, _, (hc sw hsw).1 hb⟩
      · obtain ⟨s', e1, -⟩ := (hc sw hsw).2 hb
        exact ⟨_, _, e1⟩
    · rw [← bits_accepted _ _ _ _ hbal]
      congr 1
      apply List.filter_congr
      intro sw hsw
      unfold State.accepts
      by_cases hb : bitOf rA.is_north rB.is_north rC.is_north rD.is_north sw.1 =
          bitOf rA.is_north rB.is_north rC.is_north rD.is_north sw.2
      · rw [(hc sw hsw).1 hb]
        simp [hb]
      · obtain ⟨s', e1, -⟩ := (hc sw hsw).2 hb
        rw [e1]
        simpa using hb
    · intro sw hsw sw' hsw' hne s1 s2 h1 h2
      obtain ⟨b1, k1, f1⟩ := hacc sw hsw s1 h1
      obtain ⟨b2, k2, f2⟩ := hacc sw' hsw' s2 h2
      constructor
      · obtain ⟨x, hx, hdiff⟩ := swaps_differ sw hsw sw' hsw' hne
        obtain ⟨r1, g1, n1⟩ := f1 x hx
        obtain ⟨r2, g2, n2⟩ := f2 x hx
        have hw1 : mapWF s1.rangers := by unfold mapWF; rw [k1]; simp [names]
        have hw2 : mapWF s2.rangers := by unfold mapWF; rw [k2]; simp [names]
        intro e
        have m1 := mem_stationed_iff s1.rangers hw1 x r1 true g1
        have m2 := mem_stationed_iff s2.rangers hw2 x r2 true g2
        rw [e, m2] at m1
        rw [n1, n2] at m1
        apply hdiff
        unfold bitAfter at m1
        by_cases c1 : x = sw.1 ∨ x = sw.2 <;> by_cases c2 : x = sw'.1 ∨ x = sw'.2
        · exact ⟨fun _ => c2, fun _ => c1⟩
        · rw [if_pos c1, if_neg c2] at m1
          cases hb : bitOf rA.is_north rB.is_north rC.is_north rD.is_north x <;>
            rw [hb] at m1 <;> simp at m1
        · rw [if_neg c1, if_pos c2] at m1
          cases hb : bitOf rA.is_north rB.is_north rC.is_north rD.is_north x <;>
            rw [hb] at m1 <;> simp at m1
        · exact ⟨fun h => absurd h c1, fun h => absurd h c2⟩
      · rintro ⟨e1, e2⟩
        obtain ⟨ra, rb, ga, gb, na, nb⟩ := is_end_state_true s1 'A' 'B' e1
        obtain ⟨ra', rb', ga', gb', na', nb'⟩ := is_end_state_true s2 'A' 'B' e2
        obtain ⟨_, ha, hna⟩ := f1 'A' (by decide)
        obtain ⟨_, hb, hnb⟩ := f1 'B' (by decide)
        obtain ⟨_, ha', hna'⟩ := f2 'A' (by decide)
        obtain ⟨_, hb', hnb'⟩ := f2 'B' (by decide)
        rw [ga] at ha; cases ha
        rw [gb] at hb; cases hb
        rw [ga'] at ha'; cases ha'
        rw [gb'] at hb'; cases hb'
        exact bits_one_end _ _ _ _ hbal sw hsw sw' hsw' hne b1 b2
          ⟨hna ▸ na, hnb ▸ nb, hna' ▸ na', hnb' ▸ nb'⟩
  · intro rands n
    obtain ⟨Q, hr, hg, -, hpos⟩ := run_false_grows n rands Search.start allGood_seed 1
      (by simp [Search.start]) (by simp [Search.start])
    obtain ⟨bf, printed⟩ := Q
    cases bf with
    | nil => simp at hpos
    | cons s rest =>
      obtain ⟨q, hq, rfl⟩ := hg s (List.mem_cons_self _ _)
      obtain ⟨more, printed', hit, h3, -⟩ := iteration_grows q hq (rands n) rest printed
        (fun t ht => hg t (List.mem_cons_of_mem _ ht))
      refine ⟨_, Search.mk (rest ++ more) printed', q.toState, rest, more,
        by rw [search_eq]; exact hr, rfl, ?_, rfl, h3⟩
      rw [search_eq, run_succ]
      have hr' : run false n rands { breadth_first := [Quad.seed.toState], printed := [] } =
          .ok { breadth_first := q.toState :: rest, printed := printed } := hr
      rw [hr']
      exact hit
  · intro rands n
    obtain ⟨Q, hr, -, hlen, -⟩ := run_false_grows n rands Search.start allGood_seed 1
      (by simp [Search.start]) (by simp [Search.start])
    exact ⟨Q, by rw [search_eq]; exact hr, hlen⟩

/-! ## Long runs: where the counters wrap around -/

theorem laps_length (n : Nat) : (laps n).length = 2 * n := by
  induction n with
  | zero => rfl
  | succ n ih => simp only [laps, List.length_append, ih]; rfl

theorem Quad.apply_append (q : Quad) (h1 h2 : List (Char × Char)) :
    q.apply (h1 ++ h2) = (q.apply h1).bind (fun q' => q'.apply h2) := by
  induction h1 generalizing q with
  | nil => rfl
  | cons c rest ih =>
    obtain ⟨n1, n2⟩ := c
    simp only [List.cons_append, Quad.apply]
    cases q.station n1 with
    | none => rfl
    | some b1 =>
      cases q.station n2 with
      | none => rfl
      | some b2 =>
        by_cases hb : b1 = b2
        · simp [hb]
        · simp only [hb, if_false]
          exact ih _

theorem lapQuad_succ (n : Nat) :
    ((lapQuad n).swap 'A' 'C').swap 'A' 'C' = lapQuad (n + 1) := by
  have e1 : ∀ x : Int, incr (wrap32 x) = wrap32 (x + 1) := incr_wrap32
  have e2 : wrap32 ((n : Int) + 1) = wrap32 ((n + 1 : Nat) : Int) := by push_cast; exact rfl
  have e3 : wrap32 (2 * (n : Int) + 1 + 1) = wrap32 (2 * ((n + 1 : Nat) : Int)) := by
    rw [show (2 * ((n + 1 : Nat) : Int)) = 2 * (n : Int) + 1 + 1 by push_cast; ring]
  simp [Quad.swap, Cell.credit, Cell.move, lapQuad, laps, e1, e2, e3]

theorem apply_laps (n : Nat) : Quad.initial.apply (laps n) = some (lapQuad n) := by
  induction n with
  | zero => rfl
  | succ n ih =>
    have step : (lapQuad n).apply [('A', 'C'), ('A', 'C')] =
        some (((lapQuad n).swap 'A' 'C').swap 'A' 'C') := by
      simp [Quad.apply, Quad.station, Quad.swap, Cell.move, Cell.credit, lapQuad]
    rw [laps, Quad.apply_append, ih, Option.some_bind, step, lapQuad_succ]

/-- The state after `n` laps from the initial state. -/
theorem applySwaps_laps (n : Nat) :
    applySwaps initial (laps n) = some (lapQuad n).toState := by
  rw [initial_eq, applySwaps_toState (laps n) Quad.initial rfl, apply_laps]
  rfl

/-- Claim C20 as stated fails. After `2 ^ 30` laps, which are `2 ^ 31`
successful swaps from the initial state, the `north_count` of `B`, which has
been north all the time, has wrapped around to `INT_MIN`, so that
`north_count + south_count` is not the number of swaps. -/
theorem counter_accounting_wraps :
    ∃ s r, applySwaps initial (laps 1073741824) = some s ∧
      s.swap_history.length = 2147483648 ∧
      mapFind s.rangers 'B' = some r ∧ r.north_count = -2147483648 ∧ r.south_count = 0 ∧
      r.north_count + r.south_count ≠ s.swap_history.length := by
  have hl : (lapQuad 1073741824).toState.swap_history.length = 2147483648 := by
    show (laps 1073741824).length = 2147483648
    rw [laps_length]
  refine ⟨_, _, applySwaps_laps 1073741824, hl, rfl, rfl, rfl, ?_⟩
  rw [hl]
  decide

/-- Claim C17 as stated fails. After `INT_MAX` laps from the initial state
the ranger `A` holds the entry `INT_MAX` for `B`; the call
`increment_paired_count('B')` on it returns and leaves the entry at
`INT_MIN`, which is not one higher. -/
theorem increment_paired_count_wraps :
    ∃ s r r', applySwaps initial (laps 2147483647) = some s ∧
      mapFind s.rangers 'A' = some r ∧ mapFind r.paired_count 'B' = some 2147483647 ∧
      r.increment_paired_count 'B' = .ok r' ∧
      mapFind r'.paired_count 'B' = some (-2147483648) ∧
      mapFind r'.paired_count 'B' ≠ some (2147483647 + 1) :=
  ⟨_, _, _, applySwaps_laps 2147483647, rfl, rfl, rfl, rfl, by decide⟩

/-- Claim C6 as stated fails. After `INT_MAX` laps from the initial state,
`A` and `B` are north, `C` and `D` south, every ranger has an entry for each
other ranger, and `A` holds the entry `INT_MAX` for `B`; the successful swap
of `A` and `C` leaves that entry at `INT_MIN`, which is not one higher. -/
theorem swap_credits_wraps :
    ∃ s s' rA rB rA', applySwaps initial (laps 2147483647) = some s ∧
      s.WF ∧ s.northCount = 2 ∧ s.southCount = 2 ∧
      (∀ p q rp, p ≠ q → mapFind s.rangers p = some rp →
        (mapFind s.rangers q).isSome = true → (mapFind rp.paired_count q).isSome = true) ∧
      mapFind s.rangers 'A' = some rA ∧ mapFind s.rangers 'B' = some rB ∧
      rA.is_north = true ∧ rB.is_north = true ∧
      mapFind rA.paired_count 'B' = some 2147483647 ∧
      s.swap 'A' 'C' = .ok (true, s') ∧ mapFind s'.rangers 'A' = some rA' ∧
      mapFind rA'.paired_count 'B' = some (-2147483648) ∧
      mapFind rA'.paired_count 'B' ≠ some (2147483647 + 1) :=
  ⟨_, _, _, _, _, applySwaps_laps 2147483647, Quad.toState_WF _, rfl, rfl,
    fun p q rp hne hp hq => Quad.toState_entries _ p q rp hne hp hq, rfl, rfl, rfl, rfl, rfl,
    Quad.swap_toState (lapQuad 2147483647) rfl 'A' 'C' true false rfl rfl (by decide),
    rfl, rfl, by decide⟩

/-! ## The configurations the program builds -/

theorem mapFind_isSome_iff {V : Type} (m : List (Char × V)) (n : Char) :
    (mapFind m n).isSome = true ↔ n ∈ mapKeys m := by
  induction m with
  | nil => simp [mapFind, mapKeys]
  | cons e rest ih =>
    obtain ⟨k, v⟩ := e
    unfold mapKeys at ih ⊢
    by_cases h : k = n
    · simp [mapFind, h]
    · have h' : ¬ n = k := fun e => h e.symm
      simp [mapFind, h, h', ih]

/-- What the loop of `swap` has stored in `norths` and `souths` when it
returns. -/
theorem State.swapLoop_inv (rs : List (Char × Ranger)) (ns ss : List Char)
    (rs' : List (Char × Ranger)) (ns' ss' : List Char)
    (h : State.swapLoop rs ns ss = .ok (rs', ns', ss')) :
    ns' = ns ++ stationed rs true ∧ ss' = ss ++ stationed rs false := by
  induction rs generalizing ns ss rs' ns' ss' with
  | nil =>
    simp only [State.swapLoop, Except.ok.injEq, Prod.mk.injEq] at h
    obtain ⟨-, h1, h2⟩ := h
    simp [stationed, h1, h2]
  | cons e rest ih =>
    obtain ⟨k, r⟩ := e
    unfold State.swapLoop at h
    cases hr : r.is_north
    · have e1 : stationed ((k, r) :: rest) true = stationed rest true := by
        simp [stationed, hr]
      have e2 : stationed ((k, r) :: rest) false = k :: stationed rest false := by
        simp [stationed, hr]
      simp only [hr, Bool.false_eq_true, if_false] at h
      split_ifs at h with hlt
      · cases hl : State.swapLoop rest ns (ss ++ [k]) with
        | error e => rw [hl] at h; cases h
        | ok res =>
          obtain ⟨rest', ns1, ss1⟩ := res
          rw [hl] at h
          simp only [Except.ok.injEq, Prod.mk.injEq] at h
          obtain ⟨-, h1, h2⟩ := h
          obtain ⟨i1, i2⟩ := ih _ _ _ _ _ hl
          rw [e1, e2, ← h1, ← h2, i1, i2]
          simp
    · have e1 : stationed ((k, r) :: rest) true = k :: stationed rest true := by
        simp [stationed, hr]
      have e2 : stationed ((k, r) :: rest) false = stationed rest false := by
        simp [stationed, hr]
      simp only [hr, if_true] at h
      split_ifs at h with hlt
      · cases hl : State.swapLoop rest (ns ++ [k]) ss with
        | error e => rw [hl] at h; cases h
        | ok res =>
          obtain ⟨rest', ns1, ss1⟩ := res
          rw [hl] at h
          simp only [Except.ok.injEq, Prod.mk.injEq] at h
          obtain ⟨-, h1, h2⟩ := h
          obtain ⟨i1, i2⟩ := ih _ _ _ _ _ hl
          rw [e1, e2, ← h1, ← h2, i1, i2]
          simp

/-- A call of `swap` that returns `true` was made on two rangers at
different stations of a state with two rangers at each station. -/
theorem State.swap_true_inv (s : State) (n1 n2 : Char) (s' : State)
    (h : s.swap n1 n2 = .ok (true, s')) :
    ∃ r1 r2, mapFind s.rangers n1 = some r1 ∧ mapFind s.rangers n2 = some r2 ∧
      r1.is_north ≠ r2.is_north ∧ s.northCount = 2 ∧ s.southCount = 2 := by
  unfold State.swap at h
  cases h1 : mapFind s.rangers n1 with
  | none => simp [h1] at h
  | some r1 =>
    cases h2 : mapFind s.rangers n2 with
    | none => simp [h1, h2] at h
    | some r2 =>
      simp only [h1, h2] at h
      by_cases hs : r1.is_north = r2.is_north
      · simp [hs] at h
      · have hs' : (r1.is_north == r2.is_north) = false := by simpa using hs
        simp only [hs', Bool.false_eq_true, if_false] at h
        cases hl : State.swapLoop s.rangers [] [] with
        | error e => simp [hl] at h
        | ok res =>
          obtain ⟨rs, norths, souths⟩ := res
          obtain ⟨i1, i2⟩ := State.swapLoop_inv _ _ _ _ _ _ hl
          simp only [List.nil_append] at i1 i2
          simp only [hl] at h
          have hn : norths.length = 2 := by
            rcases norths with _ | ⟨na, _ | ⟨nb, _ | ⟨nc, t⟩⟩⟩
            · simp at h
            · simp at h
            · rfl
            · simp at h
          have hs2 : souths.length = 2 := by
            rcases norths with _ | ⟨na, _ | ⟨nb, _ | ⟨nc, t⟩⟩⟩
            · simp at h
            · simp at h
            · rcases souths with _ | ⟨sa, _ | ⟨sb, _ | ⟨sc, t⟩⟩⟩
              · simp only at h
                (repeat' split at h) <;> cases h
              · simp only at h
                (repeat' split at h) <;> cases h
              · rfl
              · simp only at h
                (repeat' split at h) <;> cases h
            · simp at h
          refine ⟨r1, r2, rfl, rfl, hs, ?_, ?_⟩
          · unfold State.northCount
            rw [← i1]
            exact hn
          · unfold State.southCount
            rw [← i2]
            exact hs2

/-- A call of `swap` that returns `false` has changed nothing. -/
theorem State.swap_false_inv (s : State) (n1 n2 : Char) (s' : State)
    (h : s.swap n1 n2 = .ok (false, s')) : s' = s := by
  unfold State.swap at h
  cases h1 : mapFind s.rangers n1 with
  | none => simp [h1] at h
  | some r1 =>
    cases h2 : mapFind s.rangers n2 with
    | none => simp [h1, h2] at h
    | some r2 =>
      simp only [h1, h2] at h
      by_cases hs : r1.is_north = r2.is_north
      · simp only [hs, beq_self_eq_true, if_true, Except.ok.injEq, Prod.mk.injEq, true_and] at h
        exact h.symm
      · have hs' : (r1.is_north == r2.is_north) = false := by simpa using hs
        simp only [hs', Bool.false_eq_true, if_false] at h
        (repeat' split at h) <;> cases h

theorem State.Inv_empty : State.empty.Inv := by
  refine ⟨⟨by simp [State.empty, mapWF, mapKeys], ?_⟩, ?_, ?_⟩
  · intro e he; simp [State.empty] at he
  · intro n r y h; simp [State.empty, mapFind] at h
  · intro n r h; simp [State.empty, mapFind] at h

/-- A successful swap keeps the invariant of configurations. -/
theorem State.Inv_swap (s : State) (n1 n2 : Char) (s' : State) (hi : s.Inv)
    (h : s.swap n1 n2 = .ok (true, s')) : s'.Inv := by
  obtain ⟨hwf, hent, hty⟩ := hi
  obtain ⟨r1, r2, h1, h2, hd, hN, hS⟩ := State.swap_true_inv s n1 n2 s' h
  have hpc : ∀ p q rp rq, p ≠ q → mapFind s.rangers p = some rp →
      mapFind s.rangers q = some rq → rp.is_north = rq.is_north →
      (mapFind rp.paired_count rq.name).isSome = true := by
    intro p q rp rq hne hp hq _
    rw [(hwf.2 (q, rq) (mem_of_mapFind _ _ _ hq)).1]
    exact (hent p rp q hp).2 ⟨fun e => hne e.symm, by rw [hq]; rfl⟩
  obtain ⟨s1, hs1, -, hkeys, hpost⟩ := State.swap_post s n1 n2 r1 r2 hwf.1 hN hS hpc h1 h2 hd
  rw [hs1] at h
  have e : s1 = s' := (Prod.mk.inj (Except.ok.inj h)).2
  subst e
  have hwf1 : mapWF s1.rangers := by unfold mapWF; rw [hkeys]; exact hwf.1
  have hsome : ∀ y, (mapFind s1.rangers y).isSome = (mapFind s.rangers y).isSome := by
    intro y
    have a := mapFind_isSome_iff s1.rangers y
    have b := mapFind_isSome_iff s.rangers y
    rw [hkeys] at a
    cases h1 : (mapFind s1.rangers y).isSome <;> cases h2 : (mapFind s.rangers y).isSome <;>
      simp_all
  have back : ∀ n r', mapFind s1.rangers n = some r' →
      ∃ r, mapFind s.rangers n = some r ∧
        r'.moved_count = (if n = n1 ∨ n = n2 then incr r.moved_count else r.moved_count) ∧
        r'.north_count = (if r.is_north then incr r.north_count else r.north_count) ∧
        r'.south_count = (if r.is_north then r.south_count else incr r.south_count) ∧
        r'.name = r.name ∧
        (∀ y, (mapFind r'.paired_count y).isSome = (mapFind r.paired_count y).isSome) ∧
        mapKeys r'.paired_count = mapKeys r.paired_count := by
    intro n r' hr'
    have hs := hsome n
    rw [hr'] at hs
    obtain ⟨r, hr⟩ := Option.isSome_iff_exists.1 hs.symm
    obtain ⟨r'', hf, -, p2, p3, p4, p5, p6, p7, -⟩ := hpost n r hr
    rw [hr'] at hf
    cases hf
    exact ⟨r, hr, p2, p3, p4, p5, p6, p7⟩
  refine ⟨⟨hwf1, ?_⟩, ?_, ?_⟩
  · intro e he
    obtain ⟨r, hr, -, -, -, p5, -, p7⟩ := back e.1 e.2 (mapFind_of_mem _ hwf1 _ _ he)
    have hold := hwf.2 (e.1, r) (mem_of_mapFind _ _ _ hr)
    refine ⟨by rw [p5]; exact hold.1, ?_⟩
    unfold mapWF
    rw [p7]
    exact hold.2
  · intro n r' y hr'
    obtain ⟨r, hr, -, -, -, -, p6, -⟩ := back n r' hr'
    rw [p6 y, hsome y]
    exact hent n r y hr
  · intro n r' hr'
    obtain ⟨r, hr, p2, p3, p4, -⟩ := back n r' hr'
    obtain ⟨t1, t2, t3⟩ := hty n r hr
    rw [p2, p3, p4]
    refine ⟨?_, ?_, ?_⟩
    · split_ifs
      · exact incr_range _
      · exact t1
    · split_ifs
      · exact t2
      · exact incr_range _
    · split_ifs
      · exact incr_range _
      · exact t3

/-- Adding a ranger under a new name keeps the invariant of configurations. -/
theorem State.Inv_add (s : State) (name : Char) (is_north : Bool) (hi : s.Inv)
    (hnew : mapFind s.rangers name = none) : (s.add_ranger name is_north).Inv := by
  obtain ⟨hwf, hent, hty⟩ := hi
  have hfresh : ∀ n r, mapFind s.rangers n = some r → mapFind r.paired_count name = none := by
    intro n r hr
    cases hc : mapFind r.paired_count name with
    | none => rfl
    | some c =>
      have := ((hent n r name hr).1 (by rw [hc]; rfl)).2
      rw [hnew] at this
      cases this
  obtain ⟨hwf', -, ⟨rn, hrn, -, -, z1, z2, z3, hpn⟩, hold, hnone⟩ :=
    State.add_ranger_post s name is_north hwf hnew hfresh
  have hsome : ∀ y, (mapFind (s.add_ranger name is_north).rangers y).isSome = true ↔
      (y = name ∨ (mapFind s.rangers y).isSome = true) := by
    intro y
    by_cases hy : y = name
    · subst hy
      rw [hrn]
      simp
    · cases hs : mapFind s.rangers y with
      | none =>
        rw [hnone y hy hs]
        simp [hy]
      | some r =>
        obtain ⟨r', hr', -⟩ := hold y r hs
        rw [hr']
        simp
  have hcase : ∀ n r', mapFind (s.add_ranger name is_north).rangers n = some r' →
      (n = name ∧ r' = rn) ∨ (n ≠ name ∧ ∃ r, mapFind s.rangers n = some r ∧
        r'.north_count = r.north_count ∧ r'.south_count = r.south_count ∧
        r'.moved_count = r.moved_count ∧
        ∀ y, mapFind r'.paired_count y =
          if name = y then some 0 else mapFind r.paired_count y) := by
    intro n r' hr'
    by_cases hn : n = name
    · subst hn
      rw [hrn] at hr'
      exact Or.inl ⟨rfl, (Option.some.inj hr').symm⟩
    · right
      refine ⟨hn, ?_⟩
      cases hs : mapFind s.rangers n with
      | none => rw [hnone n hn hs] at hr'; cases hr'
      | some r =>
        obtain ⟨r'', hr'', -, -, q1, q2, q3, q4⟩ := hold n r hs
        rw [hr'] at hr''
        cases hr''
        exact ⟨r, rfl, q1, q2, q3, q4⟩
  refine ⟨hwf', ?_, ?_⟩
  · intro n r' y hr'
    rw [hsome y]
    rcases hcase n r' hr' with ⟨rfl, rfl⟩ | ⟨hn, r, hr, -, -, -, hp⟩
    · rw [hpn y]
      constructor
      · intro h
        cases hs : (mapFind s.rangers y).isSome with
        | false => rw [hs] at h; simp at h
        | true =>
          refine ⟨?_, Or.inr rfl⟩
          rintro rfl
          rw [hnew] at hs
          cases hs
      · rintro ⟨hy, h | h⟩
        · exact absurd h hy
        · rw [h]; rfl
    · rw [hp y]
      by_cases hy : name = y
      · subst hy
        simp only [if_true, Option.isSome_some, true_iff]
        exact ⟨fun e => hn e.symm, Or.inl trivial⟩
      · rw [if_neg hy, hent n r y hr]
        constructor
        · rintro ⟨a, b⟩
          exact ⟨a, Or.inr b⟩
        · rintro ⟨a, b | b⟩
          · exact absurd b.symm hy
          · exact ⟨a, b⟩
  · intro n r' hr'
    rcases hcase n r' hr' with ⟨-, rfl⟩ | ⟨-, r, hr, q1, q2, q3, -⟩
    · rw [z1, z2, z3]
      decide
    · rw [q1, q2, q3]
      exact hty n r hr

/-- Every configuration satisfies the invariant. -/
theorem Built.inv {s : State} (h : Built s) : s.Inv := by
  induction h with
  | empty => exact State.Inv_empty
  | add s name is_north _ hnew ih => exact State.Inv_add s name is_north ih hnew
  | swap s n1 n2 b s' _ hsw ih =>
    cases b with
    | true => exact State.Inv_swap s n1 n2 s' ih hsw
    | false =>
      rw [State.swap_false_inv s n1 n2 s' hsw]
      exact ih

theorem built_initial : Built initial :=
  Built.add _ 'D' false (Built.add _ 'C' false (Built.add _ 'B' true
    (Built.add _ 'A' true Built.empty rfl) rfl) rfl) rfl

/-- A state reached from a configuration by successful swaps is a
configuration. -/
theorem built_of_applySwaps {s : State} (hb : Built s) (h : List (Char × Char)) (s' : State)
    (hs : applySwaps s h = some s') : Built s' := by
  induction h generalizing s with
  | nil =>
    simp only [applySwaps, Option.some.injEq] at hs
    rw [← hs]
    exact hb
  | cons c rest ih =>
    obtain ⟨n1, n2⟩ := c
    unfold applySwaps at hs
    cases hsw : s.swap n1 n2 with
    | error e => simp [hsw] at hs
    | ok res =>
      obtain ⟨b, s1⟩ := res
      cases b with
      | false => simp [hsw] at hs
      | true =>
        simp only [hsw] at hs
        exact ih (Built.swap s n1 n2 true s1 hb hsw) hs

/-- Claim C1, amended. Success postcondition of `State::swap`: for every
configuration (a state built from the empty one by `add_ranger` calls with
new names and `swap` calls that return) with exactly two rangers north and
two south in which no counter that the call increments is at `INT_MAX` (the
`north_count` of a north ranger, the `south_count` of a south ranger, the
`moved_count` of `n1` and `n2`), and every pair of known names `n1`, `n2` at
different stations, `swap(n1, n2)` returns `true`; afterwards the rangers
are the same names, (a) `is_north` is negated for `n1` and `n2` and
unchanged for the others, (b) `moved_count` is one higher for `n1` and `n2`
and unchanged for the others, (c) a ranger that was north has `north_count`
one higher and `south_count` unchanged, a ranger that was south has
`south_count` one higher and `north_count` unchanged, and (d) the history is
the old one with `(n1, n2)` appended. -/
theorem swap_success (s : State) (n1 n2 : Char) (r1 r2 : Ranger)
    (hb : Built s) (hN : s.northCount = 2) (hS : s.southCount = 2)
    (h1 : mapFind s.rangers n1 = some r1) (h2 : mapFind s.rangers n2 = some r2)
    (hd : r1.is_north ≠ r2.is_north)
    (hlim : ∀ n r, mapFind s.rangers n = some r →
      (r.is_north = true → r.north_count ≠ INT_MAX) ∧
      (r.is_north = false → r.south_count ≠ INT_MAX) ∧
      (n = n1 ∨ n = n2 → r.moved_count ≠ INT_MAX)) :
    ∃ s', s.swap n1 n2 = .ok (true, s') ∧
      s'.swap_history = s.swap_history ++ [(n1, n2)] ∧
      mapKeys s'.rangers = mapKeys s.rangers ∧
      ∀ n r, mapFind s.rangers n = some r → ∃ r', mapFind s'.rangers n = some r' ∧
        r'.is_north = (if n = n1 ∨ n = n2 then !r.is_north else r.is_north) ∧
        r'.moved_count = (if n = n1 ∨ n = n2 then r.moved_count + 1 else r.moved_count) ∧
        r'.north_count = (if r.is_north then r.north_count + 1 else r.north_count) ∧
        r'.south_count = (if r.is_north then r.south_count else r.south_count + 1) := by
  obtain ⟨hwf, hent, hty⟩ := hb.inv
  have hpc : ∀ p q rp rq, p ≠ q → mapFind s.rangers p = some rp →
      mapFind s.rangers q = some rq → rp.is_north = rq.is_north →
      (mapFind rp.paired_count rq.name).isSome = true := by
    intro p q rp rq hne hp hq _
    rw [(hwf.2 (q, rq) (mem_of_mapFind _ _ _ hq)).1]
    exact (hent p rp q hp).2 ⟨fun e => hne e.symm, by rw [hq]; rfl⟩
  obtain ⟨s', hs', hh, hkeys, hpost⟩ :=
    State.swap_post s n1 n2 r1 r2 hwf.1 hN hS hpc h1 h2 hd
  refine ⟨s', hs', hh, hkeys, ?_⟩
  intro n r hr
  obtain ⟨r', hf, p1, p2, p3, p4, -⟩ := hpost n r hr
  obtain ⟨⟨a1, a2⟩, ⟨b1, b2⟩, ⟨c1, c2⟩⟩ := hty n r hr
  obtain ⟨l1, l2, l3⟩ := hlim n r hr
  refine ⟨r', hf, p1, ?_, ?_, ?_⟩
  · rw [p2]
    split_ifs with hc
    · exact incr_eq _ c1 (lt_of_le_of_ne c2 (l3 hc))
    · rfl
  · rw [p3]
    split_ifs with hc
    · exact incr_eq _ a1 (lt_of_le_of_ne a2 (l1 hc))
    · rfl
  · rw [p4]
    split_ifs with hc
    · rfl
    · exact incr_eq _ b1 (lt_of_le_of_ne b2 (l2 (by simpa using hc)))

/-- Every counter of the initial state is zero. -/
theorem initial_counters_zero (n : Char) (r : Ranger) (h : mapFind initial.rangers n = some r) :
    r.north_count = 0 ∧ r.south_count = 0 ∧ r.moved_count = 0 := by
  rw [initial_eq] at h
  rcases Quad.find_toState Quad.initial n r h with ⟨-, rfl⟩ | ⟨-, rfl⟩ | ⟨-, rfl⟩ | ⟨-, rfl⟩ <;>
    exact ⟨rfl, rfl, rfl⟩

theorem swap_success_witness :
    ∃ s', initial.swap 'A' 'C' = .ok (true, s') ∧ s'.swap_history = [('A', 'C')] := by
  obtain ⟨s', h, hh, -⟩ := swap_success initial 'A' 'C' _ _ built_initial rfl rfl rfl rfl
    (by decide)
    (fun n r hr => by
      obtain ⟨z1, z2, z3⟩ := initial_counters_zero n r hr
      rw [z1, z2, z3]
      exact ⟨fun _ => by decide, fun _ => by decide, fun _ => by decide⟩)
  exact ⟨s', h, hh⟩

/-! ## Adding a ranger to a configuration -/

/-- Claim C15. Postcondition of `State::add_ranger`: for every configuration
(a state built from the empty one by `add_ranger` calls with new names and
`swap` calls that return) and every name that is not yet a ranger of it, the
state after the call is a configuration with the same history; the new name
is a ranger with the given station, the three counters zero and a
`paired_count` that has a zero entry for exactly the rangers that existed
before; every ranger that existed keeps its fields and its `paired_count`
entries and gains a zero entry for the new name; and no other name becomes a
ranger. -/
theorem add_ranger_spec (s : State) (name : Char) (is_north : Bool)
    (hb : Built s) (hnew : mapFind s.rangers name = none) :
    Built (s.add_ranger name is_north) ∧
    (s.add_ranger name is_north).WF ∧
    (s.add_ranger name is_north).swap_history = s.swap_history ∧
    (∃ rn, mapFind (s.add_ranger name is_north).rangers name = some rn ∧
      rn.name = name ∧ rn.is_north = is_north ∧ rn.north_count = 0 ∧ rn.south_count = 0 ∧
      rn.moved_count = 0 ∧
      ∀ y, mapFind rn.paired_count y = if (mapFind s.rangers y).isSome then some 0 else none) ∧
    (∀ n r, mapFind s.rangers n = some r →
      ∃ r', mapFind (s.add_ranger name is_north).rangers n = some r' ∧
        r'.name = r.name ∧ r'.is_north = r.is_north ∧ r'.north_count = r.north_count ∧
        r'.south_count = r.south_count ∧ r'.moved_count = r.moved_count ∧
        ∀ y, mapFind r'.paired_count y =
          if name = y then some 0 else mapFind r.paired_count y) ∧
    (∀ n, n ≠ name → mapFind s.rangers n = none →
      mapFind (s.add_ranger name is_north).rangers n = none) := by
  obtain ⟨hwf, hent, -⟩ := hb.inv
  have hfresh : ∀ n r, mapFind s.rangers n = some r → mapFind r.paired_count name = none := by
    intro n r hr
    cases hc : mapFind r.paired_count name with
    | none => rfl
    | some c =>
      have := ((hent n r name hr).1 (by rw [hc]; rfl)).2
      rw [hnew] at this
      cases this
  exact ⟨Built.add s name is_north hb hnew,
    State.add_ranger_post s name is_north hwf hnew hfresh⟩

theorem add_ranger_spec_witness :
    ((State.empty.add_ranger 'A' true).add_ranger 'B' true).WF ∧
      ∃ rn, mapFind ((State.empty.add_ranger 'A' true).add_ranger 'B' true).rangers 'B' =
          some rn ∧ rn.is_north = true ∧ mapFind rn.paired_count 'A' = some 0 := by
  obtain ⟨-, h1, -, ⟨rn, h2, -, h3, -, -, -, h4⟩, -⟩ :=
    add_ranger_spec (State.empty.add_ranger 'A' true) 'B' true
      (Built.add _ 'A' true Built.empty rfl) rfl
  exact ⟨h1, rn, h2, h3, by rw [h4 'A']; rfl⟩

/-- Claim C1 as stated fails. The state reached from the initial state by
`INT_MAX` successful swaps (`2 ^ 30 - 1` laps and one more swap of `A` and
`C`) has two rangers north and two south, `A` and `C` are at different
stations, and `B`, who has been north all the time, has `north_count`
`INT_MAX`; the call `swap('A', 'C')` returns `true` and leaves the
`north_count` of `B` at `INT_MIN`, which is not one higher. -/
theorem swap_success_wraps :
    ∃ s s' rA rC rB rB', applySwaps initial (laps 1073741823 ++ [('A', 'C')]) = some s ∧
      Built s ∧ s.swap_history.length = 2147483647 ∧
      s.northCount = 2 ∧ s.southCount = 2 ∧
      mapFind s.rangers 'A' = some rA ∧ mapFind s.rangers 'C' = some rC ∧
      rA.is_north ≠ rC.is_north ∧
      mapFind s.rangers 'B' = some rB ∧ rB.is_north = true ∧ rB.north_count = 2147483647 ∧
      s.swap 'A' 'C' = .ok (true, s') ∧
      mapFind s'.rangers 'B' = some rB' ∧ rB'.north_count = -2147483648 ∧
      rB'.north_count ≠ rB.north_count + 1 := by
  have hs : applySwaps initial (laps 1073741823 ++ [('A', 'C')]) =
      some ((lapQuad 1073741823).swap 'A' 'C').toState := by
    rw [initial_eq, applySwaps_toState _ Quad.initial rfl, Quad.apply_append, apply_laps]
    rfl
  have hl : ((lapQuad 1073741823).swap 'A' 'C').toState.swap_history.length = 2147483647 := by
    show (laps 1073741823 ++ [('A', 'C')]).length = 2147483647
    rw [List.length_append, laps_length]
    rfl
  exact ⟨_, _, _, _, _, _, hs, built_of_applySwaps built_initial _ _ hs, hl, rfl, rfl, rfl, rfl,
    by decide, rfl, rfl, rfl,
    Quad.swap_toState ((lapQuad 1073741823).swap 'A' 'C') rfl 'A' 'C' false true rfl rfl
      (by decide), rfl, rfl, by decide⟩

/-- Claim C19. The worklist only grows: every configuration that `main`
builds, that is every state reached from the initial state by successful
swaps, has exactly two rangers north and two south; all six catalog calls on
it return, exactly four are accepted, and two different accepted calls give
states with different lists of north rangers, of which at most one is
accepted by `is_end_state({A, B})`; every pass of the exhaustive search
removes the head of the worklist and appends at least three states; and
after `n` passes from the seeded worklist it holds at least `1 + 2 n`
states. -/
theorem worklist_grows :
    (∀ h s, applySwaps initial h = some s →
      s.northCount = 2 ∧ s.southCount = 2 ∧
      (∀ sw ∈ swaps, ∃ b s', s.swap sw.1 sw.2 = .ok (b, s')) ∧
      (swaps.filter s.accepts).length = 4 ∧
      (∀ sw ∈ swaps, ∀ sw' ∈ swaps, sw ≠ sw' → ∀ s1 s2,
        s.swap sw.1 sw.2 = .ok (true, s1) → s.swap sw'.1 sw'.2 = .ok (true, s2) →
        stationed s1.rangers true ≠ stationed s2.rangers true ∧
        ¬ (s1.is_end_state end_north = .ok true ∧ s2.is_end_state end_north = .ok true))) ∧
    (∀ rands n, ∃ Q Q' s rest more, search false n rands = .ok Q ∧
      Q.breadth_first = s :: rest ∧ search false (n + 1) rands = .ok Q' ∧
      Q'.breadth_first = rest ++ more ∧ 3 ≤ more.length) ∧
    (∀ rands n, ∃ Q, search false n rands = .ok Q ∧ 1 + 2 * n ≤ Q.breadth_first.length) := by
  refine ⟨?_, catalog_and_growth.2.1, catalog_and_growth.2.2⟩
  intro h s hs
  obtain ⟨q, -, rfl, hq, -, -⟩ := applySwaps_initial h s hs
  obtain ⟨hN, hS⟩ := Quad.toState_counts q hq
  exact ⟨hN, hS, catalog_and_growth.1 q.toState rfl
    (fun e he => (q.toState_WF.2 e he).1) hN hS
    (fun p p' rp hne hp hp' => Quad.toState_entries q p p' rp hne hp hp')⟩

theorem worklist_grows_witness :
    (swaps.filter Quad.seed.toState.accepts).length = 4 ∧
      ∃ Q, search false 2 (fun _ => 0) = .ok Q ∧ 1 + 2 * 2 ≤ Q.breadth_first.length :=
  ⟨(worklist_grows.1 [('A', 'C')] Quad.seed.toState rfl).2.2.2.1,
    worklist_grows.2.2 (fun _ => 0) 2⟩

end Rangers
